import Mathlib

/-!
# Bitmap font engine: `game/Font.cpp`

A shallow embedding of `Font` (atlas slicing, per-glyph ink metrics, the pairwise
kerning table, string measurement and layout) together with checked statements of
its specification.

Conventions of the embedding

* `double` values are exact rationals (`ℚ`); `int` values are unbounded integers;
  `short` values are integers wrapped into the 16-bit range by `toShort`; `long` is the
  64-bit range, into which `lrint` converts.
* `unsigned char` is `Fin 256`; every 256-entry member array is a function on `Fin 256`.
* A C string is the list of its bytes before the terminating NUL; reading the byte at
  index `strlen` gives the terminator `0`.
* Members that the constructor does not assign keep whatever the object's storage held
  before; that storage is the `mem` argument of `Font.construct`.
* The sprite backend, the TGA reader and the `std::wstring_convert` facets are outside
  `Font.cpp`; they appear as data (`SpriteHandle`, `Image`) or as parameters
  (`WStringConvert`).
-/

set_option autoImplicit false

/-! ## Data model -/

/-- An `unsigned char`. -/
abbrev UChar := Fin 256

/-- The union `rgbaColor`, seen through its `comp` view. -/
structure rgbaColor where
  r : UChar
  g : UChar
  b : UChar
  a : UChar
deriving DecidableEq

/-- The `bytes` view of `rgbaColor`: `bytes[0..3]` are `r, g, b, a`. -/
def rgbaColor.bytes (c : rgbaColor) (k : Nat) : UChar :=
  match k with
  | 0 => c.r
  | 1 => c.g
  | 2 => c.b
  | _ => c.a

/-- What alpha level counts as ink: values at or below this level are not ink. -/
def inkA : UChar := 127

/-- A decoded atlas: the result of `readTGAFile`, with `getRGBABytes` the interleaved
byte buffer that `RGBAImage::getRGBABytes` returns for it. -/
structure Image where
  getWidth : Nat
  getHeight : Nat
  getRGBABytes : Nat → UChar

/-- The four-channel `Image( mSpriteWidth, mSpriteHeight, 4 )` handed to `fillSprite`;
the handle that `fillSprite` returns is identified with the image it was given. -/
structure SpriteHandle where
  width : Nat
  height : Nat
  channel : Nat → Nat → ℚ

/-- One row `KerningTable` of the kerning table: `short offset[256]`. -/
structure KerningTable where
  offset : UChar → Int

/-- A point of the drawing plane. -/
structure doublePair where
  x : ℚ
  y : ℚ
deriving DecidableEq

/-- Text alignment of a laid out string. -/
inductive TextAlignment where
  | alignCenter
  | alignRight
  | alignLeft
deriving DecidableEq

/-- The members of a `Font` object. -/
structure Font where
  mScaleFactor : ℚ
  mCharSpacing : Int
  mSpaceWidth : Int
  mFixedWidth : Bool
  mEnableKerning : Bool
  mMinimumPositionPrecision : ℚ
  mSpriteMap : UChar → Option SpriteHandle
  mKerningTable : UChar → Option KerningTable
  mCharLeftEdgeOffset : UChar → Int
  mCharWidth : UChar → Int
  mSpriteWidth : Int
  mSpriteHeight : Int
  mAccentsPresent : Bool
  mCharBlockWidth : Int

/-- The file-level `static double scaleFactor = 1.0 / 16`. -/
def scaleFactor : ℚ := 1 / 16

/-- Conversion of an `int` to `short`: reduction into `[-32768, 32767]` modulo `2^16`. -/
def toShort (n : Int) : Int := (n + 32768) % 65536 - 32768

/-- The byte `inString[i]` of a C string (`0`, the terminator, from index `strlen` on). -/
def charAt (inString : List UChar) (i : Nat) : UChar := inString.getD i 0

/-! ## `Font::measureString` -/

/-- One iteration of the loop of `measureString`: the new value of `width`. -/
def Font.measureStep (f : Font) (inString : List UChar) (numChars : Int)
    (width : ℚ) (i : Nat) : ℚ :=
  let scale := scaleFactor * f.mScaleFactor
  let c : UChar := charAt inString i
  let width :=
    if c = 32 then
      width + f.mSpaceWidth * scale
    else if f.mFixedWidth then
      width + f.mCharBlockWidth * scale
    else
      let width := width + f.mCharWidth c * scale
      match f.mKerningTable (charAt inString i) with
      | some t =>
        if f.mEnableKerning = true ∧ (i : Int) < numChars - 1 then
          let offset := t.offset (charAt inString (i + 1))
          width + offset * scale
        else width
      | none => width
  width + f.mCharSpacing * scale

/-- `Font::measureString( inString, inCharLimit )`; the declared default of
`inCharLimit` is `-1`. -/
def Font.measureString (f : Font) (inString : List UChar) (inCharLimit : Int) : ℚ :=
  let scale := scaleFactor * f.mScaleFactor
  let numChars : Int := if inCharLimit = -1 then (inString.length : Int) else inCharLimit
  let width := (List.range numChars.toNat).foldl (f.measureStep inString numChars) 0
  if numChars > 0 then width - f.mCharSpacing * scale else width

/-! ## `Font::positionCharacter`, `Font::drawCharacter` -/

/-- `Font::positionCharacter( inC, inTargetPos, outActualPos )`: the returned width and
the value left in `*outActualPos`. -/
def Font.positionCharacter (f : Font) (inC : UChar) (inTargetPos : doublePair) :
    ℚ × doublePair :=
  let outActualPos := inTargetPos
  let scale := scaleFactor * f.mScaleFactor
  if inC = 32 then
    (f.mSpaceWidth * scale, outActualPos)
  else
    let outActualPos : doublePair :=
      if !f.mFixedWidth then
        { outActualPos with x := outActualPos.x - f.mCharLeftEdgeOffset inC * scale }
      else outActualPos
    if f.mFixedWidth then
      (f.mCharBlockWidth * scale, outActualPos)
    else
      (f.mCharWidth inC * scale, outActualPos)

/-- A call `drawSprite( spriteID, pos, scale )` made to the sprite backend. -/
structure DrawCall where
  spriteID : SpriteHandle
  pos : doublePair
  scale : ℚ

/-- `Font::drawCharacter( inC, inPosition )`: the returned width and the backend calls
it makes. -/
def Font.drawCharacter (f : Font) (inC : UChar) (inPosition : doublePair) :
    ℚ × List DrawCall :=
  let r := f.positionCharacter inC inPosition
  let returnVal := r.1
  let drawPos := r.2
  if inC = 32 then
    (returnVal, [])
  else
    match f.mSpriteMap inC with
    | some spriteID =>
      let scale := scaleFactor * f.mScaleFactor
      (returnVal, [⟨spriteID, drawPos, scale⟩])
    | none => (returnVal, [])

/-! ## `Font::getCharPos` -/

/-- The three `std::wstring_convert` calls made on the way from the byte string to the
wide string; `none` stands for a conversion that throws. They are library code, so the
embedding takes them as a parameter. -/
structure WStringConvert where
  utf8_from_bytes : List UChar → Option (List Nat)
  utf8_to_bytes : List Nat → Option (List UChar)
  utf8_utf16_from_bytes : List UChar → Option (List Nat)

/-- `latin1ToUtf8`: `from_bytes` followed by `to_bytes` of the same converter. -/
def latin1ToUtf8 (cv : WStringConvert) (latin1Str : List UChar) : Option (List UChar) :=
  (cv.utf8_from_bytes latin1Str).bind cv.utf8_to_bytes

/-- The `wideString` of `getCharPos` and `drawString`. -/
def toWideString (cv : WStringConvert) (inString : List UChar) : Option (List Nat) :=
  (latin1ToUtf8 cv inString).bind cv.utf8_utf16_from_bytes

/-- `static_cast<unsigned char>` of a wide character. -/
def toUChar (w : Nat) : UChar := ⟨w % 256, Nat.mod_lt w (by decide)⟩

/-- The wide character `wideString[i]`. -/
def wcharAt (wideString : List Nat) (i : Nat) : Nat := wideString.getD i 0

/-- The value of `x` in `getCharPos` after the alignment switch and the half-cell shift,
before any snapping. -/
def Font.getCharPosShiftedX (f : Font) (inString : List UChar) (inPosition : doublePair)
    (inAlign : TextAlignment) : ℚ :=
  let scale := scaleFactor * f.mScaleFactor
  let x := inPosition.x
  let stringWidth : ℚ :=
    if inAlign ≠ TextAlignment.alignLeft then f.measureString inString (-1) else 0
  let x :=
    match inAlign with
    | TextAlignment.alignCenter => x - stringWidth / 2
    | TextAlignment.alignRight => x - stringWidth
    | TextAlignment.alignLeft => x
  x + scale * f.mSpriteWidth / 2

/-- The least value of a 64-bit `long`. -/
def longMin : Int := -9223372036854775808

/-- The greatest value of a 64-bit `long`. -/
def longMax : Int := 9223372036854775807

/-- The call `lrint( v )` on a double holding the integer `v`, as `floor` returns: `v`
itself when it fits a `long`. For a value outside the `long` range the C library leaves
the result unspecified; the x86-64 conversion instruction gives the least `long`, which
is what is modelled. -/
def lrint (v : Int) : Int := if longMin ≤ v ∧ v ≤ longMax then v else longMin

/-- The value of `x` in `getCharPos` when the per-character loop is entered. -/
def Font.getCharPosStartX (f : Font) (inString : List UChar) (inPosition : doublePair)
    (inAlign : TextAlignment) : ℚ :=
  let x := f.getCharPosShiftedX inString inPosition inAlign
  if f.mMinimumPositionPrecision > 0 then
    let x := x / f.mMinimumPositionPrecision
    let x : ℚ := ((lrint (Int.floor x) : Int) : ℚ)
    x * f.mMinimumPositionPrecision
  else x

/-- The value of `y` in `getCharPos`. -/
def Font.getCharPosY (f : Font) (inPosition : doublePair) : ℚ :=
  let scale := scaleFactor * f.mScaleFactor
  if f.mAccentsPresent then inPosition.y + scale * f.mSpriteHeight / 4 else inPosition.y

/-- One iteration of the per-character loop of `getCharPos`, on the pair of the running
`x` and the output vector. -/
def Font.getCharPosStep (f : Font) (wideString : List Nat) (y : ℚ)
    (st : ℚ × List doublePair) (i : Nat) : ℚ × List doublePair :=
  let scale := scaleFactor * f.mScaleFactor
  let numChars := wideString.length
  let x := st.1
  let charPos : doublePair := ⟨x, y⟩
  let r := f.positionCharacter (toUChar (wcharAt wideString i)) charPos
  let charWidth := r.1
  let outPositions := st.2 ++ [r.2]
  let x := x + (charWidth + f.mCharSpacing * scale)
  match f.mKerningTable (toUChar (wcharAt wideString i)) with
  | some t =>
    if (!f.mFixedWidth) = true ∧ f.mEnableKerning = true ∧ i + 1 < numChars then
      let offset := t.offset (toUChar (wcharAt wideString (i + 1)))
      (x + offset * scale, outPositions)
    else (x, outPositions)
  | none => (x, outPositions)

/-- `Font::getCharPos( outPositions, inString, inPosition, inAlign )`: the returned
cursor `x` and the output vector after the call; `none` when a text conversion throws. -/
def Font.getCharPos (cv : WStringConvert) (f : Font) (outPositions : List doublePair)
    (inString : List UChar) (inPosition : doublePair) (inAlign : TextAlignment) :
    Option (ℚ × List doublePair) :=
  let scale := scaleFactor * f.mScaleFactor
  match toWideString cv inString with
  | none => none
  | some wideString =>
    let numChars := wideString.length
    let y := f.getCharPosY inPosition
    let x := f.getCharPosStartX inString inPosition inAlign
    let st := (List.range numChars).foldl (f.getCharPosStep wideString y) (x, outPositions)
    some (st.1 - f.mCharSpacing * scale, st.2)

/-! ## `Font::copySpacing`, `Font::getFontHeight` and the setters -/

/-- `Font::copySpacing( inOtherFont )`: the receiver after the call. -/
def Font.copySpacing (f : Font) (inOtherFont : Font) : Font :=
  { f with
    mCharLeftEdgeOffset := inOtherFont.mCharLeftEdgeOffset
    mCharWidth := inOtherFont.mCharWidth
    mKerningTable := fun i =>
      match inOtherFont.mKerningTable i with
      | some t => some ⟨t.offset⟩
      | none => none
    mScaleFactor := inOtherFont.mScaleFactor
    mCharSpacing := inOtherFont.mCharSpacing
    mSpaceWidth := inOtherFont.mSpaceWidth
    mFixedWidth := inOtherFont.mFixedWidth
    mSpriteWidth := inOtherFont.mSpriteWidth
    mSpriteHeight := inOtherFont.mSpriteHeight
    mAccentsPresent := inOtherFont.mAccentsPresent
    mCharBlockWidth := inOtherFont.mCharBlockWidth }

/-- `Font::getCharSpacing()`. -/
def Font.getCharSpacing (f : Font) : ℚ :=
  let scale := scaleFactor * f.mScaleFactor
  f.mCharSpacing * scale

/-- `Font::getFontHeight()`. -/
def Font.getFontHeight (f : Font) : ℚ :=
  let accentFactor : ℚ := if f.mAccentsPresent then 1 / 2 else 1
  scaleFactor * f.mScaleFactor * f.mSpriteHeight * accentFactor

/-- `Font::enableKerning( inKerningOn )`. -/
def Font.enableKerning (f : Font) (inKerningOn : Bool) : Font :=
  { f with mEnableKerning := inKerningOn }

/-- `Font::setMinimumPositionPrecision( inMinimum )`. -/
def Font.setMinimumPositionPrecision (f : Font) (inMinimum : ℚ) : Font :=
  { f with mMinimumPositionPrecision := inMinimum }

/-- `Font::setScaleFactor( newScaleFactor )`. -/
def Font.setScaleFactor (f : Font) (newScaleFactor : ℚ) : Font :=
  { f with mScaleFactor := newScaleFactor }

/-- `Font::getScaleFactor()`. -/
def Font.getScaleFactor (f : Font) : ℚ := f.mScaleFactor

/-! ## `Font::Font` -/

/-- The array `spriteRGBA` once the red channel has been moved into alpha and the colour
forced to white. -/
def spriteRGBA (spriteBytes : Nat → UChar) (i : Nat) : rgbaColor :=
  let c : rgbaColor :=
    ⟨spriteBytes (i * 4 + 0), spriteBytes (i * 4 + 1), spriteBytes (i * 4 + 2),
      spriteBytes (i * 4 + 3)⟩
  { r := 255, g := 255, b := 255, a := c.r }

/-- The array `charRGBA` of cell `i`, filled by the two copy loops. Every index below
`pixelsPerChar` is written before it is read, so the initial content is immaterial. -/
def sliceCell (sprite : Nat → rgbaColor) (width mSpriteWidth mSpriteHeight i : Nat) :
    Nat → rgbaColor :=
  let yOffset := (i / 16) * mSpriteHeight
  let xOffset := (i % 16) * mSpriteWidth
  (List.range mSpriteHeight).foldl
    (fun charRGBA y =>
      (List.range mSpriteWidth).foldl
        (fun charRGBA x =>
          let imageIndex := (y + yOffset) * width + x + xOffset
          let charIndex := y * mSpriteWidth + x
          Function.update charRGBA charIndex (sprite imageIndex))
        charRGBA)
    (fun _ => ⟨0, 0, 0, 0⟩)

/-- The flag `allTransparent` after its scan of the cell, which stops at the first pixel
with non-zero alpha. -/
def allTransparent (charRGBA : Nat → rgbaColor) (pixelsPerChar : Nat) : Bool :=
  (List.range pixelsPerChar).foldl
    (fun allT p => if allT then (if (charRGBA p).a ≠ 0 then false else allT) else allT)
    true

/-- The sprite made from a cell: channel `c` of pixel `p` is `bytes[c] / 255.0`. -/
def fillSprite (charRGBA : Nat → rgbaColor) (mSpriteWidth mSpriteHeight : Nat) :
    SpriteHandle :=
  { width := mSpriteWidth
    height := mSpriteHeight
    channel := fun c p => (((charRGBA p).bytes c).val : ℚ) / 255 }

/-- The locals of the pseudo-kerning scan. -/
structure InkScan where
  farthestLeft : Int
  farthestRight : Int
  someInk : Bool

/-- The pseudo-kerning scan of a cell: every pixel, row by row. -/
def scanInk (charRGBA : Nat → rgbaColor) (mSpriteWidth mSpriteHeight : Nat) : InkScan :=
  (List.range mSpriteHeight).foldl
    (fun st y =>
      (List.range mSpriteWidth).foldl
        (fun st x =>
          let a := (charRGBA (y * mSpriteWidth + x)).a
          if a > inkA then
            let st : InkScan := { st with someInk := true }
            let st : InkScan :=
              if (x : Int) < st.farthestLeft then { st with farthestLeft := x } else st
            if (x : Int) > st.farthestRight then { st with farthestRight := x } else st
          else st)
        st)
    ⟨mSpriteWidth, 0, false⟩

/-- The pair `(mCharLeftEdgeOffset[i], mCharWidth[i])` assigned for one cell. -/
def cellMetrics (mFixedWidth allTransparent : Bool) (mCharBlockWidth : Int)
    (charRGBA : Nat → rgbaColor) (mSpriteWidth mSpriteHeight : Nat) : Int × Int :=
  if mFixedWidth then
    (0, mCharBlockWidth)
  else if allTransparent then
    (0, mSpriteWidth)
  else
    let s := scanInk charRGBA mSpriteWidth mSpriteHeight
    if !s.someInk then
      (0, mSpriteWidth)
    else
      (s.farthestLeft, s.farthestRight - s.farthestLeft + 1)

/-- The pair `(rightExtremes[i][y], leftExtremes[i][y])` computed for row `y` of a saved
cell. -/
def rowExtremes (saved : Nat → rgbaColor) (mSpriteWidth mSpriteHeight y : Nat) :
    Int × Int :=
  (List.range mSpriteWidth).foldl
    (fun (st : Int × Int) x =>
      let p := y * mSpriteWidth + x
      let rightExtreme : Int := if (saved p).a > inkA then x else st.1
      let leftExtreme : Int :=
        if (x : Int) < st.2 ∧ (saved p).a > inkA then x else st.2
      let leftExtreme : Int :=
        if y > 0 ∧ (x : Int) < leftExtreme then
          let pp := (y - 1) * mSpriteWidth + x
          if (saved pp).a > inkA then x else leftExtreme
        else leftExtreme
      let leftExtreme : Int :=
        if (y : Int) < (mSpriteHeight : Int) - 1 ∧ (x : Int) < leftExtreme then
          let pp := (y + 1) * mSpriteWidth + x
          if (saved pp).a > inkA then x else leftExtreme
        else leftExtreme
      (rightExtreme, leftExtreme))
    (0, mSpriteWidth)

/-- The `short minDistance` of a pair of saved cells after the row loop and the two
pseudo-kerning subtractions. -/
def kerningMinDistance (rightExtremes leftExtremes : Nat → Int)
    (mSpriteWidth mSpriteHeight : Nat) (leftEdgeOffsetJ leftEdgeOffsetI widthI : Int) : Int :=
  let minDistance : Int := toShort (2 * (mSpriteWidth : Int))
  let minDistance : Int :=
    (List.range mSpriteHeight).foldl
      (fun minDistance y =>
        let rightExtreme := rightExtremes y
        let leftExtreme := leftExtremes y
        let rowDistance : Int := ((mSpriteWidth : Int) - rightExtreme - 1) + leftExtreme
        if rowDistance < minDistance then toShort rowDistance else minDistance)
      minDistance
  let minDistance : Int := toShort (minDistance - leftEdgeOffsetJ)
  toShort (minDistance - ((mSpriteWidth : Int) - (leftEdgeOffsetI + widthI)))

/-- The value stored in `mKerningTable[i]->offset[j]` when both cells are saved. -/
def kerningOffset (rightExtremes leftExtremes : Nat → Int)
    (mSpriteWidth mSpriteHeight : Nat) (leftEdgeOffsetJ leftEdgeOffsetI widthI : Int) : Int :=
  let minDistance :=
    kerningMinDistance rightExtremes leftExtremes mSpriteWidth mSpriteHeight
      leftEdgeOffsetJ leftEdgeOffsetI widthI
  if minDistance > 0 ∧ minDistance < widthI then toShort (- minDistance) else 0

/-- `Font::Font( inFileName, inCharSpacing, inSpaceWidth, inFixedWidth, inScaleFactor,
inFixedCharWidth )`. `spriteImage` is what `readTGAFile( inFileName )` returned (`none`
for `NULL`) and `mem` is the content of the object's storage before construction. -/
def Font.construct (mem : Font) (spriteImage : Option Image)
    (inCharSpacing inSpaceWidth : Int) (inFixedWidth : Bool) (inScaleFactor : ℚ)
    (inFixedCharWidth : Int) : Font :=
  let this : Font :=
    { mem with
      mScaleFactor := inScaleFactor
      mCharSpacing := inCharSpacing
      mSpaceWidth := inSpaceWidth
      mFixedWidth := inFixedWidth
      mEnableKerning := true
      mMinimumPositionPrecision := 0
      mSpriteMap := fun _ => none
      mKerningTable := fun _ => none }
  match spriteImage with
  | none => this
  | some spriteImage =>
    let width := spriteImage.getWidth
    let height := spriteImage.getHeight
    let sprite := spriteRGBA spriteImage.getRGBABytes
    let mSpriteWidth := width / 16
    let mSpriteHeight := height / 16
    let mAccentsPresent : Bool := if mSpriteHeight = mSpriteWidth then false else true
    let mCharBlockWidth : Int :=
      if inFixedCharWidth = 0 then (mSpriteWidth : Int) else inFixedCharWidth
    let pixelsPerChar := mSpriteWidth * mSpriteHeight
    let charRGBA : UChar → Nat → rgbaColor := fun i =>
      sliceCell sprite width mSpriteWidth mSpriteHeight i.val
    let allT : UChar → Bool := fun i => allTransparent (charRGBA i) pixelsPerChar
    let metrics : UChar → Int × Int := fun i =>
      cellMetrics inFixedWidth (allT i) mCharBlockWidth (charRGBA i) mSpriteWidth
        mSpriteHeight
    let savedCharacterRGBA : UChar → Option (Nat → rgbaColor) := fun i =>
      if (!allT i && !inFixedWidth) = true then some (charRGBA i) else none
    { this with
      mSpriteWidth := mSpriteWidth
      mSpriteHeight := mSpriteHeight
      mAccentsPresent := mAccentsPresent
      mCharBlockWidth := mCharBlockWidth
      mSpriteMap := fun i =>
        if (!allT i) = true then some (fillSprite (charRGBA i) mSpriteWidth mSpriteHeight)
        else none
      mCharLeftEdgeOffset := fun i => (metrics i).1
      mCharWidth := fun i => (metrics i).2
      mKerningTable := fun i =>
        if (!inFixedWidth) = true then
          match savedCharacterRGBA i with
          | some savedI =>
            some ⟨fun j =>
              match savedCharacterRGBA j with
              | some savedJ =>
                kerningOffset
                  (fun y => (rowExtremes savedI mSpriteWidth mSpriteHeight y).1)
                  (fun y => (rowExtremes savedJ mSpriteWidth mSpriteHeight y).2)
                  mSpriteWidth mSpriteHeight (metrics j).1 (metrics i).1 (metrics i).2
              | none => 0⟩
          | none => none
        else none }

/-! ## Specification-side definitions -/

/-- The kerning offset of the ordered pair `(i, j)`: the entry of row `i`, and `0` when
glyph `i` has no kerning row. -/
def Font.kerningOffsetOf (f : Font) (i j : UChar) : Int :=
  match f.mKerningTable i with
  | some t => t.offset j
  | none => 0

/-- The contribution `t(k)` of position `k` to the measured width, in atlas pixels: the
space width for a space, else the fixed cell width in fixed-width mode, else the glyph
width plus, with kerning enabled and `k` not the last position, the kerning offset of
the pair at `k, k+1`. -/
def Font.measureTerm (f : Font) (s : List UChar) (k : Nat) : Int :=
  if charAt s k = 32 then f.mSpaceWidth
  else if f.mFixedWidth = true then f.mCharBlockWidth
  else
    f.mCharWidth (charAt s k) +
      (if f.mEnableKerning = true ∧ k + 1 < s.length then
        f.kerningOffsetOf (charAt s k) (charAt s (k + 1))
      else 0)

/-- The closed form of the measured width of a whole string. -/
def Font.measureSpec (f : Font) (s : List UChar) : ℚ :=
  if s = [] then 0
  else
    scaleFactor * f.mScaleFactor *
      (((∑ k ∈ Finset.range s.length, f.measureTerm s k : Int) : ℚ) +
        (f.mCharSpacing : ℚ) * ((s.length : ℚ) - 1))

/-! ## The constructor's per-cell quantities, by name -/

/-- The cell width `mSpriteWidth` the constructor derives from an atlas. -/
def Image.cellWidth (img : Image) : Nat := img.getWidth / 16

/-- The cell height `mSpriteHeight` the constructor derives from an atlas. -/
def Image.cellHeight (img : Image) : Nat := img.getHeight / 16

/-- The constructor's `charRGBA` for code point `i`. -/
def Image.cell (img : Image) (i : UChar) : Nat → rgbaColor :=
  sliceCell (spriteRGBA img.getRGBABytes) img.getWidth img.cellWidth img.cellHeight i.val

/-- The constructor's `allTransparent` for code point `i`. -/
def Image.blank (img : Image) (i : UChar) : Bool :=
  allTransparent (img.cell i) (img.cellWidth * img.cellHeight)

/-- The constructor's `mCharBlockWidth`. -/
def Image.blockWidth (img : Image) (inFixedCharWidth : Int) : Int :=
  if inFixedCharWidth = 0 then (img.cellWidth : Int) else inFixedCharWidth

/-- The constructor's `(mCharLeftEdgeOffset[i], mCharWidth[i])`. -/
def Image.metrics (img : Image) (inFixedWidth : Bool) (inFixedCharWidth : Int) (i : UChar) :
    Int × Int :=
  cellMetrics inFixedWidth (img.blank i) (img.blockWidth inFixedCharWidth) (img.cell i)
    img.cellWidth img.cellHeight

/-- The constructor's `rightExtremes[i][y]`, meaningful for saved cells. -/
def Image.rightExtremes (img : Image) (i : UChar) (y : Nat) : Int :=
  (rowExtremes (img.cell i) img.cellWidth img.cellHeight y).1

/-- The constructor's `leftExtremes[i][y]`, meaningful for saved cells. -/
def Image.leftExtremes (img : Image) (i : UChar) (y : Nat) : Int :=
  (rowExtremes (img.cell i) img.cellWidth img.cellHeight y).2

/-- A draw position moved horizontally by `d` (to the right for positive `d`). -/
def shiftX (d : ℚ) (p : doublePair) : doublePair := ⟨p.x + d, p.y⟩

/-- The wide string of a text of single-byte characters: one wide character per byte,
with the byte's value. -/
def widen (s : List UChar) : List Nat := s.map Fin.val

/-! ## Specification-side definitions for layout -/

/-- The scaled width by which a character advances the cursor: the space width for a
space, else the fixed cell width in fixed-width mode, else the glyph's width. -/
def Font.layoutWidth (f : Font) (c : UChar) : ℚ :=
  scaleFactor * f.mScaleFactor *
    (if c = 32 then (f.mSpaceWidth : ℚ)
      else if f.mFixedWidth = true then (f.mCharBlockWidth : ℚ) else (f.mCharWidth c : ℚ))

/-- The advance of the running `x` at position `k` of a text: the scaled width, the scaled
spacing and, in proportional mode with kerning enabled and a following character, the
scaled kerning offset of the pair at `k, k+1`. -/
def Font.layoutAdvance (f : Font) (s : List UChar) (k : Nat) : ℚ :=
  f.layoutWidth (charAt s k) + scaleFactor * f.mScaleFactor * (f.mCharSpacing : ℚ) +
    (if f.mFixedWidth = false ∧ f.mEnableKerning = true ∧ k + 1 < s.length then
      scaleFactor * f.mScaleFactor * (f.kerningOffsetOf (charAt s k) (charAt s (k + 1)) : ℚ)
    else 0)

/-- The running `x` at character `k` of a text laid out from the start value `x0`. -/
def Font.runningX (f : Font) (s : List UChar) (x0 : ℚ) : Nat → ℚ
  | 0 => x0
  | k + 1 => f.runningX s x0 k + f.layoutAdvance s k

/-- The `x` at which character `k` is drawn: the running `x` less the scaled left edge
offset of the glyph, the subtraction being skipped in fixed-width mode and for a space. -/
def Font.drawX (f : Font) (s : List UChar) (x0 : ℚ) (k : Nat) : ℚ :=
  f.runningX s x0 k -
    (if f.mFixedWidth = true ∨ charAt s k = 32 then 0
      else scaleFactor * f.mScaleFactor * (f.mCharLeftEdgeOffset (charAt s k) : ℚ))

/-- The red channel of atlas pixel `(X, Y)`: the atlas bytes are interleaved RGBA, row by
row, so the pixel has index `Y * width + X` and its red byte comes first of its four. -/
def Image.red (img : Image) (X Y : Nat) : UChar :=
  img.getRGBABytes ((Y * img.getWidth + X) * 4 + 0)

/-- Ink at pixel `(x, y)` of a cell buffer of width `W`: alpha above the ink level. -/
def inkAt (cell : Nat → rgbaColor) (W x y : Nat) : Prop := (cell (y * W + x)).a > inkA

instance inkAtDecidable (cell : Nat → rgbaColor) (W x y : Nat) :
    Decidable (inkAt cell W x y) :=
  inferInstanceAs (Decidable ((cell (y * W + x)).a > inkA))

/-- The state of the pseudo-kerning scan summarises the pixels selected by `D`: either none
of them is ink and the state is the initial one, or some are, and the two extremes are
columns of selected ink pixels that bound the column of every selected ink pixel. -/
def scanInv (cell : Nat → rgbaColor) (W : Nat) (D : Nat → Nat → Prop) (st : InkScan) :
    Prop :=
  (st.someInk = false ∧ st.farthestLeft = W ∧ st.farthestRight = 0 ∧
      ∀ x y, D x y → ¬ inkAt cell W x y) ∨
    (st.someInk = true ∧
      (∃ x y, D x y ∧ inkAt cell W x y ∧ (x : Int) = st.farthestLeft) ∧
      (∃ x y, D x y ∧ inkAt cell W x y ∧ (x : Int) = st.farthestRight) ∧
      ∀ x y, D x y → inkAt cell W x y →
        st.farthestLeft ≤ (x : Int) ∧ (x : Int) ≤ st.farthestRight)

/-- Column `x` counts toward the left extreme of row `y`: there is ink at `(x, y)`, or at
`(x, y - 1)` when `y > 0`, or at `(x, y + 1)` when `y` is not the last row. -/
def nearInk (cell : Nat → rgbaColor) (W H x y : Nat) : Prop :=
  inkAt cell W x y ∨ (y > 0 ∧ inkAt cell W x (y - 1)) ∨ (y + 1 < H ∧ inkAt cell W x (y + 1))

instance nearInkDecidable (cell : Nat → rgbaColor) (W H x y : Nat) :
    Decidable (nearInk cell W H x y) :=
  inferInstanceAs (Decidable (inkAt cell W x y ∨ (y > 0 ∧ inkAt cell W x (y - 1)) ∨
    (y + 1 < H ∧ inkAt cell W x (y + 1))))

/-- The kerning, in atlas pixels, that measuring applies between the last character of `s`
and the first character of `t` when the two texts are joined: the kerning offset of that
pair if the font is not fixed-width, kerning is enabled, the last character of `s` is not
a space and it has a kerning row, and `0` otherwise. -/
def Font.joinKerning (f : Font) (s t : List UChar) : Int :=
  if f.mFixedWidth = false ∧ f.mEnableKerning = true ∧ charAt s (s.length - 1) ≠ 32 ∧
      (f.mKerningTable (charAt s (s.length - 1))).isSome = true then
    f.kerningOffsetOf (charAt s (s.length - 1)) (charAt t 0)
  else 0

/-! ## Concrete fonts used to exercise the statements -/

/-- A hand-filled font holding the two glyphs of the specification's example: `A` with
ink columns 2 to 9 and `V` with ink columns 1 to 14 of a 16 pixel cell, spacing 2, and
a kerning offset of `-3` for the pair `A`, `V`. Its effective scale is `1`. -/
def exampleFont : Font :=
  { mScaleFactor := 16
    mCharSpacing := 2
    mSpaceWidth := 8
    mFixedWidth := false
    mEnableKerning := true
    mMinimumPositionPrecision := 0
    mSpriteMap := fun _ => none
    mKerningTable := fun i => if i = 65 then some ⟨fun j => if j = 86 then -3 else 0⟩ else none
    mCharLeftEdgeOffset := fun i => if i = 65 then 2 else 1
    mCharWidth := fun i => if i = 65 then 8 else 14
    mSpriteWidth := 16
    mSpriteHeight := 16
    mAccentsPresent := false
    mCharBlockWidth := 16 }

/-- Object storage holding zeroes, for constructing fonts in examples. -/
def zeroMem : Font :=
  { mScaleFactor := 0
    mCharSpacing := 0
    mSpaceWidth := 0
    mFixedWidth := false
    mEnableKerning := false
    mMinimumPositionPrecision := 0
    mSpriteMap := fun _ => none
    mKerningTable := fun _ => none
    mCharLeftEdgeOffset := fun _ => 0
    mCharWidth := fun _ => 0
    mSpriteWidth := 0
    mSpriteHeight := 0
    mAccentsPresent := false
    mCharBlockWidth := 0 }

/-- A 16 by 16 atlas, one pixel per cell, every pixel black. -/
def blankAtlas : Image :=
  { getWidth := 16
    getHeight := 16
    getRGBABytes := fun _ => 0 }

/-- A 64 by 64 atlas of 4 by 4 cells. Cell 65 has full red in its whole top row and in
column 0 of the rows below; cell 86 has full red in column 3 of rows 0 to 2 and in its
whole bottom row; cell 66 has one faint pixel (red 100); everything else is black. -/
def glyphAtlas : Image :=
  { getWidth := 64
    getHeight := 64
    getRGBABytes := fun k =>
      let p := k / 4
      let X := p % 64
      let Y := p / 64
      if k % 4 = 0 then
        if (Y = 16 ∧ 4 ≤ X ∧ X ≤ 7) ∨ (17 ≤ Y ∧ Y ≤ 19 ∧ X = 4) then 255
        else if (20 ≤ Y ∧ Y ≤ 22 ∧ X = 27) ∨ (Y = 23 ∧ 24 ≤ X ∧ X ≤ 27) then 255
        else if Y = 16 ∧ X = 8 then 100
        else 0
      else 0 }

/-- The text conversions restricted to 7-bit text, where UTF-8 and Latin-1 agree and each
conversion keeps the character values one for one; any other text is rejected. -/
def asciiConvert : WStringConvert :=
  { utf8_from_bytes := fun s => if s.all (fun c => c.val < 128) then some (widen s) else none
    utf8_to_bytes := fun w => if w.all (fun c => c < 128) then some (w.map toUChar) else none
    utf8_utf16_from_bytes := fun s =>
      if s.all (fun c => c.val < 128) then some (widen s) else none }

/-- The example font with a kerning row for the space glyph: offset `-3` to every
follower. -/
def spaceKernFont : Font :=
  { exampleFont with
    mKerningTable := fun i => if i = 32 then some ⟨fun _ => -3⟩ else none }

/-- A 32 by 32 atlas of 2 by 2 cells whose only ink is one pixel of full red in column 1
of the top row of cell 32, the cell of the space character. -/
def spaceInkAtlas : Image :=
  { getWidth := 32
    getHeight := 32
    getRGBABytes := fun k => if k = 516 then 255 else 0 }

/-- The proportional font built from `spaceInkAtlas` with spacing 2, space width 8 and
effective scale 1; its space glyph has left edge offset 1. -/
def spaceInkFont : Font := Font.construct zeroMem (some spaceInkAtlas) 2 8 false 16 0

/-- An atlas 262144 pixels wide and 16 high, so with cells of 16384 by 1. Cell 0 has one
faint pixel (red 100) in column 0, cell 1 has one pixel of full red in column 0, and
everything else is black. -/
def wideAtlas : Image :=
  { getWidth := 262144
    getHeight := 16
    getRGBABytes := fun k => if k = 0 then 100 else if k = 65536 then 255 else 0 }

/-! ## Measuring: the loop and its closed form -/

theorem measureStep_eq (f : Font) (s : List UChar) (w : ℚ) (i : Nat) :
    f.measureStep s (s.length : Int) w i =
      w + scaleFactor * f.mScaleFactor *
        (((f.measureTerm s i : Int) : ℚ) + (f.mCharSpacing : ℚ)) := by
  have hlt : ((i : Int) < (s.length : Int) - 1) ↔ i + 1 < s.length := by omega
  unfold Font.measureStep Font.measureTerm Font.kerningOffsetOf
  by_cases hc : charAt s i = 32
  · simp only [hc, if_true]; ring
  · by_cases hf : f.mFixedWidth = true
    · simp only [hc, hf, if_false, if_true]; ring
    · simp only [hc, hf, if_false, hlt]
      cases hk : f.mKerningTable (charAt s i) with
      | none =>
        simp only []
        split_ifs <;> push_cast <;> ring
      | some t =>
        simp only []
        split_ifs <;> push_cast <;> ring

theorem measureLoop_eq (f : Font) (s : List UChar) (n : Nat) :
    (List.range n).foldl (f.measureStep s (s.length : Int)) 0 =
      scaleFactor * f.mScaleFactor *
        (((∑ k ∈ Finset.range n, f.measureTerm s k : Int) : ℚ) +
          (f.mCharSpacing : ℚ) * (n : ℚ)) := by
  induction n with
  | zero => simp
  | succ n ih =>
    rw [List.range_succ, List.foldl_append, ih, List.foldl_cons, List.foldl_nil,
      measureStep_eq, Finset.sum_range_succ]
    push_cast
    ring

theorem measureString_closed_form (f : Font) (t : List UChar) :
    f.measureString t (-1) = f.measureSpec t := by
  unfold Font.measureString Font.measureSpec
  simp only [if_true, Int.toNat_ofNat]
  rw [measureLoop_eq]
  by_cases ht : t = []
  · subst ht; simp
  · have hpos : 0 < t.length := List.length_pos.mpr ht
    have hpos' : ((t.length : Int) > 0) := by exact_mod_cast hpos
    simp only [ht, if_false, hpos', if_true]
    ring

/-- C1: measured with no limit, a string's width is `0` when the string is empty and
otherwise `scale * (sum of t(k) + spacing * (len - 1))` with `t(k)` as in
`Font.measureTerm`; for two non-space characters `a`, `b` of a proportional font with
kerning on it is `scale * (width a + kerning (a, b) + spacing + width b)`. -/
theorem measureString_eq_measureSpec (f : Font) (s : List UChar) :
    f.measureString s (-1) = f.measureSpec s ∧
    ∀ a b : UChar, a ≠ 32 → b ≠ 32 → f.mFixedWidth = false → f.mEnableKerning = true →
      f.measureString [a, b] (-1) =
        scaleFactor * f.mScaleFactor *
          ((f.mCharWidth a : ℚ) + (f.kerningOffsetOf a b : ℚ) + (f.mCharSpacing : ℚ) +
            (f.mCharWidth b : ℚ)) := by
  refine ⟨measureString_closed_form f s, ?_⟩
  intro a b ha hb hfw hk
  rw [measureString_closed_form]
  have hlen : ([a, b] : List UChar).length = 2 := rfl
  have h0 : charAt [a, b] 0 = a := rfl
  have h1 : charAt [a, b] 1 = b := rfl
  have h2 : charAt [a, b] 2 = 0 := rfl
  unfold Font.measureSpec
  rw [if_neg (List.cons_ne_nil a [b]), hlen, Finset.sum_range_succ, Finset.sum_range_succ,
    Finset.sum_range_zero]
  simp only [Font.measureTerm, hlen, h0, h1, h2, ha, hb, hfw, hk, if_false]
  have e1 : (0 + 1 < 2) = True := by simp
  have e2 : (1 + 1 < 2) = False := by simp
  simp only [e1, e2, and_true, and_false, if_true, if_false, Bool.false_eq_true]
  push_cast
  ring

theorem measureString_eq_measureSpec_witness :
    exampleFont.measureString [65, 86] (-1) = 21 := by
  have h := (measureString_eq_measureSpec exampleFont [65, 86]).2 65 86 (by decide)
    (by decide) rfl rfl
  rw [h]
  simp [exampleFont, Font.kerningOffsetOf, scaleFactor]
  norm_num

/-! ## The constructor: projections of the constructed font -/

theorem construct_mCharWidth (mem : Font) (img : Image) (cs sw : Int) (fw : Bool) (sf : ℚ)
    (fcw : Int) (i : UChar) :
    (Font.construct mem (some img) cs sw fw sf fcw).mCharWidth i =
      (img.metrics fw fcw i).2 := rfl

theorem construct_mCharLeftEdgeOffset (mem : Font) (img : Image) (cs sw : Int) (fw : Bool)
    (sf : ℚ) (fcw : Int) (i : UChar) :
    (Font.construct mem (some img) cs sw fw sf fcw).mCharLeftEdgeOffset i =
      (img.metrics fw fcw i).1 := rfl

theorem construct_mSpriteMap (mem : Font) (img : Image) (cs sw : Int) (fw : Bool) (sf : ℚ)
    (fcw : Int) (i : UChar) :
    (Font.construct mem (some img) cs sw fw sf fcw).mSpriteMap i =
      if img.blank i = false then some (fillSprite (img.cell i) img.cellWidth img.cellHeight)
      else none := by
  simp only [Font.construct, Image.blank, Image.cell, Image.cellWidth, Image.cellHeight]
  cases allTransparent _ _ <;> rfl

theorem construct_mKerningTable_isSome (mem : Font) (img : Image) (cs sw : Int) (fw : Bool)
    (sf : ℚ) (fcw : Int) (i : UChar) :
    ((Font.construct mem (some img) cs sw fw sf fcw).mKerningTable i).isSome =
      (!fw && !img.blank i) := by
  simp only [Font.construct, Image.blank, Image.cell, Image.cellWidth, Image.cellHeight]
  cases fw <;> cases allTransparent _ _ <;> rfl

theorem construct_kerningOffsetOf (mem : Font) (img : Image) (cs sw : Int) (fw : Bool)
    (sf : ℚ) (fcw : Int) (i j : UChar) :
    (Font.construct mem (some img) cs sw fw sf fcw).kerningOffsetOf i j =
      if fw = false ∧ img.blank i = false ∧ img.blank j = false then
        kerningOffset (img.rightExtremes i) (img.leftExtremes j) img.cellWidth img.cellHeight
          (img.metrics fw fcw j).1 (img.metrics fw fcw i).1 (img.metrics fw fcw i).2
      else 0 := by
  simp only [Font.kerningOffsetOf, Font.construct, Image.blank, Image.cell, Image.cellWidth,
    Image.cellHeight, Image.metrics, Image.blockWidth, Image.rightExtremes,
    Image.leftExtremes]
  cases fw
  · cases hi : allTransparent
        (sliceCell (spriteRGBA img.getRGBABytes) img.getWidth (img.getWidth / 16)
          (img.getHeight / 16) i.val) (img.getWidth / 16 * (img.getHeight / 16))
    · cases hj : allTransparent
          (sliceCell (spriteRGBA img.getRGBABytes) img.getWidth (img.getWidth / 16)
            (img.getHeight / 16) j.val) (img.getWidth / 16 * (img.getHeight / 16))
      · simp [hi, hj]
        rfl
      · simp [hi, hj]
    · simp [hi]
  · simp

/-! ## Loop invariants of the constructor -/

theorem foldl_invariant {α β : Type} (P : α → Prop) (g : α → β → α) (l : List β) (a : α)
    (h0 : P a) (hstep : ∀ s x, x ∈ l → P s → P (g s x)) : P (l.foldl g a) := by
  induction l generalizing a with
  | nil => exact h0
  | cons x xs ih =>
    rw [List.foldl_cons]
    exact ih (g a x) (hstep a x (List.mem_cons_self x xs) h0)
      (fun s y hy hs => hstep s y (List.mem_cons_of_mem x hy) hs)

theorem toShort_range (n : Int) : -32768 ≤ toShort n ∧ toShort n ≤ 32767 := by
  unfold toShort
  omega

theorem toShort_of_range (n : Int) (h1 : -32768 ≤ n) (h2 : n ≤ 32767) : toShort n = n := by
  unfold toShort
  omega

/-- The pseudo-kerning scan either saw no ink and kept its initial values, or its two
extremes bound a non-empty column range inside the cell. -/
theorem scanInk_box (cell : Nat → rgbaColor) (W H : Nat) :
    ((scanInk cell W H).someInk = false ∧ (scanInk cell W H).farthestLeft = W ∧
        (scanInk cell W H).farthestRight = 0) ∨
      ((scanInk cell W H).someInk = true ∧ 0 ≤ (scanInk cell W H).farthestLeft ∧
        (scanInk cell W H).farthestLeft ≤ (scanInk cell W H).farthestRight ∧
        (scanInk cell W H).farthestRight < W) := by
  unfold scanInk
  refine foldl_invariant
    (fun st : InkScan =>
      (st.someInk = false ∧ st.farthestLeft = W ∧ st.farthestRight = 0) ∨
        (st.someInk = true ∧ 0 ≤ st.farthestLeft ∧ st.farthestLeft ≤ st.farthestRight ∧
          st.farthestRight < W)) _ _ _ (Or.inl ⟨rfl, rfl, rfl⟩) ?_
  intro st y _ hst
  refine foldl_invariant
    (fun st : InkScan =>
      (st.someInk = false ∧ st.farthestLeft = W ∧ st.farthestRight = 0) ∨
        (st.someInk = true ∧ 0 ≤ st.farthestLeft ∧ st.farthestLeft ≤ st.farthestRight ∧
          st.farthestRight < W)) _ _ _ hst ?_
  intro s x hx hs
  have hxW : (x : Int) < W := by exact_mod_cast List.mem_range.mp hx
  have hx0 : (0 : Int) ≤ x := Int.natCast_nonneg x
  by_cases ha : (cell (y * W + x)).a > inkA
  · simp only [ha, if_true]
    right
    dsimp only
    rcases hs with ⟨_, hl, hr⟩ | ⟨_, h0, hlr, hrW⟩
    · split_ifs <;> dsimp only at * <;> refine ⟨rfl, ?_, ?_, ?_⟩ <;> omega
    · split_ifs <;> dsimp only at * <;> refine ⟨rfl, ?_, ?_, ?_⟩ <;> omega
  · simp only [ha, if_false]
    exact hs

/-- In proportional mode the recorded ink box lies inside the cell and is not empty. -/
theorem cellMetrics_box (allT : Bool) (bw : Int) (cell : Nat → rgbaColor) (W H : Nat)
    (hW : 1 ≤ W) :
    0 ≤ (cellMetrics false allT bw cell W H).1 ∧ 1 ≤ (cellMetrics false allT bw cell W H).2 ∧
      (cellMetrics false allT bw cell W H).1 + (cellMetrics false allT bw cell W H).2 ≤ W := by
  have hW' : (1 : Int) ≤ W := by exact_mod_cast hW
  unfold cellMetrics
  cases allT
  · rcases scanInk_box cell W H with ⟨h1, _, _⟩ | ⟨h1, h0, hlr, hrW⟩
    · simp only [h1]
      simp
      omega
    · simp only [h1]
      simp
      omega
  · simp
    omega

/-- The stored kerning offset is never positive and is smaller in size than the width of
the left glyph, whenever that width is at least one pixel. -/
theorem kerningOffset_bound (re le : Nat → Int) (W H : Nat) (leoJ leoI widthI : Int)
    (hw : 1 ≤ widthI) :
    kerningOffset re le W H leoJ leoI widthI ≤ 0 ∧
      |kerningOffset re le W H leoJ leoI widthI| < widthI := by
  unfold kerningOffset
  have hr := toShort_range
    (toShort ((List.range H).foldl
        (fun minDistance y =>
          if ((W : Int) - re y - 1) + le y < minDistance then
            toShort (((W : Int) - re y - 1) + le y)
          else minDistance) (toShort (2 * (W : Int))) - leoJ) -
      ((W : Int) - (leoI + widthI)))
  simp only [kerningMinDistance]
  split_ifs with h
  · rw [toShort_of_range _ (by omega) (by omega)]
    constructor
    · omega
    · rw [abs_lt]
      omega
  · constructor
    · exact le_refl 0
    · rw [abs_zero]
      omega

/-- The constructor run on the example atlas: glyph 65 spans the whole cell, glyph 86
too, the pair `(65, 86)` is pulled together by three pixels and the pair `(86, 65)` is
left alone. -/
theorem glyphAtlas_font :
    (Font.construct zeroMem (some glyphAtlas) 2 8 false 16 0).mCharLeftEdgeOffset 65 = 0 ∧
      (Font.construct zeroMem (some glyphAtlas) 2 8 false 16 0).mCharWidth 65 = 4 ∧
      (Font.construct zeroMem (some glyphAtlas) 2 8 false 16 0).mCharWidth 86 = 4 ∧
      (Font.construct zeroMem (some glyphAtlas) 2 8 false 16 0).kerningOffsetOf 65 86 = -3 ∧
      (Font.construct zeroMem (some glyphAtlas) 2 8 false 16 0).kerningOffsetOf 86 65 = 0 := by
  decide

/-! ## C2: the kerning bound -/

/-- C2 (as stated, refuted): a fixed-width font built with the fixed character width `-1`
from an atlas of cell width `1` stores width `-1` for every glyph, so the offset `0` of
the pair `(0, 0)` is not smaller in size than the width of glyph `0`. -/
theorem kerning_bound_fails_negative_fixed_width :
    1 ≤ blankAtlas.cellWidth ∧
      (Font.construct zeroMem (some blankAtlas) 0 0 true 1 (-1)).mCharWidth 0 = -1 ∧
      (Font.construct zeroMem (some blankAtlas) 0 0 true 1 (-1)).kerningOffsetOf 0 0 = 0 ∧
      ¬ ((Font.construct zeroMem (some blankAtlas) 0 0 true 1 (-1)).kerningOffsetOf 0 0 ≤ 0 ∧
        |(Font.construct zeroMem (some blankAtlas) 0 0 true 1 (-1)).kerningOffsetOf 0 0| <
          (Font.construct zeroMem (some blankAtlas) 0 0 true 1 (-1)).mCharWidth 0) := by
  have hw : (Font.construct zeroMem (some blankAtlas) 0 0 true 1 (-1)).mCharWidth 0 = -1 := by
    decide
  have hk : (Font.construct zeroMem (some blankAtlas) 0 0 true 1 (-1)).kerningOffsetOf 0 0 = 0 := by
    decide
  refine ⟨by decide, hw, hk, ?_⟩
  rw [hw, hk]
  norm_num

/-- C2 (amended): for a font built from an atlas of cell width at least `1`, in
proportional mode or in fixed-width mode with a fixed character width that is not
negative, the kerning offset `o` of every ordered pair `(i, j)` (`0` when glyph `i` has
no kerning row) satisfies `o ≤ 0` and `|o| < width(i)`; no bound on the cell size is
needed. -/
theorem construct_kerning_bound (mem : Font) (img : Image) (cs sw : Int) (fw : Bool) (sf : ℚ)
    (fcw : Int) (i j : UChar) (hW : 1 ≤ img.cellWidth) (hfix : fw = false ∨ 0 ≤ fcw) :
    (Font.construct mem (some img) cs sw fw sf fcw).kerningOffsetOf i j ≤ 0 ∧
      |(Font.construct mem (some img) cs sw fw sf fcw).kerningOffsetOf i j| <
        (Font.construct mem (some img) cs sw fw sf fcw).mCharWidth i := by
  have hW' : (1 : Int) ≤ (img.cellWidth : Int) := by exact_mod_cast hW
  have hwidth : 1 ≤ (img.metrics fw fcw i).2 := by
    unfold Image.metrics
    cases fw
    · exact (cellMetrics_box _ _ _ _ _ hW).2.1
    · have h0 : 0 ≤ fcw := by
        rcases hfix with h | h
        · exact absurd h (by decide)
        · exact h
      simp only [cellMetrics, if_true, Image.blockWidth]
      split_ifs <;> omega
  rw [construct_kerningOffsetOf, construct_mCharWidth]
  split_ifs with h
  · exact kerningOffset_bound _ _ _ _ _ _ _ hwidth
  · rw [abs_zero]
    exact ⟨le_refl 0, by omega⟩

theorem construct_kerning_bound_witness :
    (Font.construct zeroMem (some glyphAtlas) 2 8 false 16 0).kerningOffsetOf 65 86 ≤ 0 ∧
      |(Font.construct zeroMem (some glyphAtlas) 2 8 false 16 0).kerningOffsetOf 65 86| <
        (Font.construct zeroMem (some glyphAtlas) 2 8 false 16 0).mCharWidth 65 :=
  construct_kerning_bound zeroMem glyphAtlas 2 8 false 16 0 65 86 (by decide) (Or.inl rfl)

/-! ## C3, C4: blank cells and fixed-width mode -/

theorem allTransparent_of_zero (cell : Nat → rgbaColor) (n : Nat)
    (h : ∀ p, p < n → (cell p).a = 0) : allTransparent cell n = true := by
  unfold allTransparent
  refine foldl_invariant (fun b : Bool => b = true) _ _ _ rfl ?_
  intro b p hp hb
  have hz : (cell p).a = 0 := h p (List.mem_range.mp hp)
  simp [hb, hz]

theorem construct_mKerningTable_none (mem : Font) (img : Image) (cs sw : Int) (fw : Bool)
    (sf : ℚ) (fcw : Int) (i : UChar) (h : fw = true ∨ img.blank i = true) :
    (Font.construct mem (some img) cs sw fw sf fcw).mKerningTable i = none := by
  have hs := construct_mKerningTable_isSome mem img cs sw fw sf fcw i
  cases hk : (Font.construct mem (some img) cs sw fw sf fcw).mKerningTable i with
  | none => rfl
  | some t =>
    rw [hk] at hs
    rcases h with h | h <;> simp [h] at hs

/-- C3 (as stated, refuted): in fixed-width mode with fixed character width `8`, the
all-transparent cell `0` of an atlas of cell width `1` gets width `8`, not the cell
width. -/
theorem blank_cell_width_fails_fixed_width :
    (∀ p, p < blankAtlas.cellWidth * blankAtlas.cellHeight → (blankAtlas.cell 0 p).a = 0) ∧
      (Font.construct zeroMem (some blankAtlas) 0 0 true 1 8).mCharWidth 0 = 8 ∧
      ¬ ((Font.construct zeroMem (some blankAtlas) 0 0 true 1 8).mCharWidth 0 =
        (blankAtlas.cellWidth : Int)) := by
  refine ⟨by decide, by decide, by decide⟩

/-- C3 (amended): for a loaded atlas and a code point `i` whose cell has alpha `0` in
every pixel, the constructed font has `leftEdgeOffset[i] = 0`, no sprite handle and no
kerning row for `i`, and `width[i]` is the cell width in proportional mode and the fixed
cell width `mCharBlockWidth` in fixed-width mode. -/
theorem construct_blank_cell (mem : Font) (img : Image) (cs sw : Int) (fw : Bool) (sf : ℚ)
    (fcw : Int) (i : UChar)
    (h : ∀ p, p < img.cellWidth * img.cellHeight → (img.cell i p).a = 0) :
    (Font.construct mem (some img) cs sw fw sf fcw).mCharLeftEdgeOffset i = 0 ∧
      (Font.construct mem (some img) cs sw fw sf fcw).mCharWidth i =
        (if fw = true then (Font.construct mem (some img) cs sw fw sf fcw).mCharBlockWidth
          else (img.cellWidth : Int)) ∧
      (Font.construct mem (some img) cs sw fw sf fcw).mSpriteMap i = none ∧
      (Font.construct mem (some img) cs sw fw sf fcw).mKerningTable i = none := by
  have hb : img.blank i = true := allTransparent_of_zero _ _ h
  refine ⟨?_, ?_, ?_, construct_mKerningTable_none mem img cs sw fw sf fcw i (Or.inr hb)⟩
  · rw [construct_mCharLeftEdgeOffset]
    unfold Image.metrics cellMetrics
    rw [hb]
    cases fw <;> rfl
  · rw [construct_mCharWidth]
    unfold Image.metrics cellMetrics
    rw [hb]
    cases fw <;> rfl
  · rw [construct_mSpriteMap, hb]
    rfl

theorem construct_blank_cell_witness :
    (Font.construct zeroMem (some glyphAtlas) 2 8 false 16 0).mCharLeftEdgeOffset 0 = 0 ∧
      (Font.construct zeroMem (some glyphAtlas) 2 8 false 16 0).mCharWidth 0 =
        (if false = true then
          (Font.construct zeroMem (some glyphAtlas) 2 8 false 16 0).mCharBlockWidth
          else (glyphAtlas.cellWidth : Int)) ∧
      (Font.construct zeroMem (some glyphAtlas) 2 8 false 16 0).mSpriteMap 0 = none ∧
      (Font.construct zeroMem (some glyphAtlas) 2 8 false 16 0).mKerningTable 0 = none :=
  construct_blank_cell zeroMem glyphAtlas 2 8 false 16 0 0 (by decide)

/-- C4: a font constructed in fixed-width mode from a loaded atlas has, for every code
point, `width = mCharBlockWidth` (the fixed character width passed in, or the cell width
when `0` was passed), `leftEdgeOffset = 0` and no kerning row. -/
theorem construct_fixed_width (mem : Font) (img : Image) (cs sw : Int) (sf : ℚ)
    (fcw : Int) (i : UChar) :
    (Font.construct mem (some img) cs sw true sf fcw).mCharBlockWidth =
        (if fcw = 0 then (img.cellWidth : Int) else fcw) ∧
      (Font.construct mem (some img) cs sw true sf fcw).mCharWidth i =
        (Font.construct mem (some img) cs sw true sf fcw).mCharBlockWidth ∧
      (Font.construct mem (some img) cs sw true sf fcw).mCharLeftEdgeOffset i = 0 ∧
      (Font.construct mem (some img) cs sw true sf fcw).mKerningTable i = none := by
  refine ⟨rfl, rfl, rfl, construct_mKerningTable_none mem img cs sw true sf fcw i (Or.inl rfl)⟩

/-! ## C9: a font whose atlas failed to load -/

/-- C9 (as stated, refuted): with spacing `2`, space width `8` and effective scale `1`, a
font whose atlas failed to load measures one space as `8`, and `positionCharacter` and
`drawCharacter` return the width `8` for a space. -/
theorem load_failure_widths_not_zero :
    (Font.construct zeroMem none 2 8 false 16 0).measureString [32] (-1) = 8 ∧
      ((Font.construct zeroMem none 2 8 false 16 0).positionCharacter 32 ⟨0, 0⟩).1 = 8 ∧
      ((Font.construct zeroMem none 2 8 false 16 0).drawCharacter 32 ⟨0, 0⟩).1 = 8 ∧
      ¬ (∀ s : List UChar,
          (Font.construct zeroMem none 2 8 false 16 0).measureString s (-1) = 0) := by
  have h1 : (Font.construct zeroMem none 2 8 false 16 0).measureString [32] (-1) = 8 := by
    rw [measureString_closed_form]
    simp [Font.measureSpec, Font.measureTerm, Font.construct, charAt, scaleFactor]
  refine ⟨h1, ?_, ?_, ?_⟩
  · simp [Font.positionCharacter, Font.construct, scaleFactor]
  · simp [Font.drawCharacter, Font.positionCharacter, Font.construct, scaleFactor]
  · intro h
    have h2 := h [32]
    rw [h1] at h2
    norm_num at h2

theorem charAt_replicate_space (n k : Nat) (h : k < n) :
    charAt (List.replicate n (32 : UChar)) k = 32 := by
  unfold charAt
  rw [List.getD_eq_getElem?_getD, List.getElem?_replicate_of_lt h]
  rfl

/-- A text of spaces only is measured from the space width and the spacing alone. -/
theorem measureString_spaces (f : Font) (n : Nat) :
    f.measureString (List.replicate (n + 1) (32 : UChar)) (-1) =
      scaleFactor * f.mScaleFactor *
        (((n : ℚ) + 1) * (f.mSpaceWidth : ℚ) + (n : ℚ) * (f.mCharSpacing : ℚ)) := by
  have hne : List.replicate (n + 1) (32 : UChar) ≠ [] := by
    intro h
    have := congrArg List.length h
    rw [List.length_replicate] at this
    exact Nat.succ_ne_zero n this
  have hsum : (∑ k ∈ Finset.range (n + 1),
      f.measureTerm (List.replicate (n + 1) (32 : UChar)) k) =
      ∑ _k ∈ Finset.range (n + 1), f.mSpaceWidth := by
    apply Finset.sum_congr rfl
    intro k hk
    unfold Font.measureTerm
    rw [charAt_replicate_space (n + 1) k (Finset.mem_range.mp hk), if_pos rfl]
  rw [measureString_closed_form]
  unfold Font.measureSpec
  rw [if_neg hne, List.length_replicate, hsum, Finset.sum_const, Finset.card_range]
  simp only [nsmul_eq_mul]
  push_cast
  ring

/-- C9 (amended): if the atlas image fails to load, the constructed font holds no sprite
handle and no kerning row for any code point and `drawCharacter` draws nothing. Widths are
not zeroed: the empty string measures `0`, a text of `n + 1` spaces measures
`scale * ((n + 1) * spaceWidth + n * spacing)`, and `positionCharacter` and
`drawCharacter` return `spaceWidth * scale` for a space. -/
theorem construct_load_failure (mem : Font) (cs sw : Int) (fw : Bool) (sf : ℚ) (fcw : Int) :
    (∀ i, (Font.construct mem none cs sw fw sf fcw).mSpriteMap i = none) ∧
      (∀ i, (Font.construct mem none cs sw fw sf fcw).mKerningTable i = none) ∧
      (∀ c pos, ((Font.construct mem none cs sw fw sf fcw).drawCharacter c pos).2 = []) ∧
      (Font.construct mem none cs sw fw sf fcw).measureString [] (-1) = 0 ∧
      (∀ n : Nat,
        (Font.construct mem none cs sw fw sf fcw).measureString
            (List.replicate (n + 1) (32 : UChar)) (-1) =
          scaleFactor * sf * (((n : ℚ) + 1) * (sw : ℚ) + (n : ℚ) * (cs : ℚ))) ∧
      (∀ pos, (Font.construct mem none cs sw fw sf fcw).positionCharacter 32 pos =
        ((sw : ℚ) * (scaleFactor * sf), pos)) ∧
      (∀ pos, (Font.construct mem none cs sw fw sf fcw).drawCharacter 32 pos =
        ((sw : ℚ) * (scaleFactor * sf), [])) := by
  refine ⟨fun _ => rfl, fun _ => rfl, ?_, ?_, ?_, ?_, ?_⟩
  · intro c pos
    unfold Font.drawCharacter
    by_cases hc : c = 32
    · simp [hc]
    · simp [hc, Font.construct]
  · simp [Font.measureString]
  · intro n
    exact measureString_spaces (Font.construct mem none cs sw fw sf fcw) n
  · intro pos
    simp [Font.positionCharacter, Font.construct]
  · intro pos
    simp [Font.drawCharacter, Font.positionCharacter, Font.construct]

/-! ## C10: measuring with a character limit -/

theorem charAt_take (s : List UChar) (n i : Nat) (h : i < n) :
    charAt (s.take n) i = charAt s i := by
  unfold charAt
  rw [List.getD_eq_getElem?_getD, List.getD_eq_getElem?_getD, List.getElem?_take_of_lt h]

theorem measureStep_take (f : Font) (s : List UChar) (n : Nat) (w : ℚ) (i : Nat)
    (hi : i < n) :
    f.measureStep (s.take n) (n : Int) w i = f.measureStep s (n : Int) w i := by
  unfold Font.measureStep
  rw [charAt_take s n i hi]
  by_cases hlast : i + 1 < n
  · rw [charAt_take s n (i + 1) hlast]
  · have hno : ¬ ((i : Int) < (n : Int) - 1) := by omega
    simp only [hno, and_false, if_false]

/-- C10: for a limit `n` with `0 ≤ n ≤ len(s)`, measuring `s` with limit `n` equals
measuring the length-`n` prefix of `s` with no limit; the limit `-1` measures the whole
string (it is the same as the limit `len(s)`), and the limit `0` gives `0`. -/
theorem measureString_limit (f : Font) (s : List UChar) :
    (∀ n : Nat, n ≤ s.length →
        f.measureString s (n : Int) = f.measureString (s.take n) (-1)) ∧
      f.measureString s (-1) = f.measureString s (s.length : Int) ∧
      f.measureString s 0 = 0 := by
  refine ⟨?_, ?_, ?_⟩
  · intro n hn
    have hne : ¬ ((n : Int) = -1) := by omega
    have hlen : (s.take n).length = n := by
      rw [List.length_take]
      exact Nat.min_eq_left hn
    unfold Font.measureString
    simp only [hne, if_false, if_true, hlen, Int.toNat_ofNat]
    rw [List.foldl_ext (f.measureStep s (n : Int)) (f.measureStep (s.take n) (n : Int)) 0
      (fun w i hi => (measureStep_take f s n w i (List.mem_range.mp hi)).symm)]
  · unfold Font.measureString
    by_cases h : (s.length : Int) = -1
    · omega
    · simp only [h, if_false, if_true]
  · simp [Font.measureString]

theorem measureString_limit_witness :
    exampleFont.measureString [65, 86, 65] ((2 : Nat) : Int) =
      exampleFont.measureString ([65, 86, 65].take 2) (-1) :=
  (measureString_limit exampleFont [65, 86, 65]).1 2 (by decide)

/-! ## C7: `copySpacing` -/

/-- C7 (as stated, refuted): `copySpacing` does not copy the kerning-enabled flag. A font
with kerning switched off that copies the spacing of the example font measures "AV" as
`24`, while the example font itself, with kerning on, measures it as `21`. -/
theorem copySpacing_kerning_flag_differs :
    ((exampleFont.enableKerning false).copySpacing exampleFont).measureString [65, 86] (-1)
        = 24 ∧
      exampleFont.measureString [65, 86] (-1) = 21 ∧
      ((exampleFont.enableKerning false).copySpacing exampleFont).measureString [65, 86] (-1)
        ≠ exampleFont.measureString [65, 86] (-1) := by
  have h1 : ((exampleFont.enableKerning false).copySpacing exampleFont).measureString
      [65, 86] (-1) = 24 := by
    rw [measureString_closed_form]
    simp [Font.measureSpec, Font.measureTerm, Font.copySpacing, Font.enableKerning,
      exampleFont, charAt, scaleFactor, Finset.sum_range_succ]
    norm_num
  have h2 : exampleFont.measureString [65, 86] (-1) = 21 := by
    rw [measureString_closed_form]
    simp [Font.measureSpec, Font.measureTerm, Font.kerningOffsetOf, exampleFont, charAt,
      scaleFactor, Finset.sum_range_succ]
    norm_num
  refine ⟨h1, h2, ?_⟩
  rw [h1, h2]
  norm_num

theorem measureStep_copySpacing (a b : Font) (h : a.mEnableKerning = b.mEnableKerning)
    (s : List UChar) (numChars : Int) (w : ℚ) (i : Nat) :
    (a.copySpacing b).measureStep s numChars w i = b.measureStep s numChars w i := by
  unfold Font.measureStep Font.copySpacing
  simp only [h]
  cases hk : b.mKerningTable (charAt s i) <;> rfl

/-- C7 (amended): for fonts `A` and `B` with the same kerning-enabled setting and every
string `s` and limit, after `A.copySpacing(B)` the two fonts measure `s` alike, and `A`'s
scale factor, character spacing and space width equal `B`'s. -/
theorem copySpacing_measure (a b : Font) (h : a.mEnableKerning = b.mEnableKerning)
    (s : List UChar) (inCharLimit : Int) :
    (a.copySpacing b).measureString s inCharLimit = b.measureString s inCharLimit ∧
      (a.copySpacing b).getScaleFactor = b.getScaleFactor ∧
      (a.copySpacing b).getCharSpacing = b.getCharSpacing ∧
      (a.copySpacing b).mCharSpacing = b.mCharSpacing ∧
      (a.copySpacing b).mSpaceWidth = b.mSpaceWidth := by
  refine ⟨?_, rfl, rfl, rfl, rfl⟩
  have hstep : ∀ n : Int, (a.copySpacing b).measureStep s n = b.measureStep s n := by
    intro n
    funext w i
    exact measureStep_copySpacing a b h s n w i
  unfold Font.measureString
  simp only [hstep]
  rfl

theorem copySpacing_measure_witness :
    (zeroMem.copySpacing (exampleFont.enableKerning false)).measureString [65, 86] (-1) =
      (exampleFont.enableKerning false).measureString [65, 86] (-1) :=
  (copySpacing_measure zeroMem (exampleFont.enableKerning false) rfl [65, 86] (-1)).1

/-! ## C8: snapping to the position grid -/

theorem lrint_of_range (v : Int) (h1 : longMin ≤ v) (h2 : v ≤ longMax) : lrint v = v := by
  unfold lrint
  rw [if_pos ⟨h1, h2⟩]

/-- C8 (as stated, refuted): with the minimum position precision `q = 2^-70` the text
"A" of the example font laid out from `(0, 0)` has `x0 = 8`, so `floor(x0 / q) = 2^73`,
which no `long` holds; `lrint` then yields the least `long` and the loop starts at
`-2^63 * 2^-70 = -1/128`, not at `q * floor(x0 / q) = 8`. Whatever `long` the call
returned, `q` times it would not be `8`. -/
theorem snapping_overflows_long :
    0 < (exampleFont.setMinimumPositionPrecision
        (1 / 1180591620717411303424)).mMinimumPositionPrecision ∧
      (exampleFont.setMinimumPositionPrecision (1 / 1180591620717411303424)).getCharPosShiftedX
        [65] ⟨0, 0⟩ TextAlignment.alignLeft = 8 ∧
      ⌊(exampleFont.setMinimumPositionPrecision (1 / 1180591620717411303424)).getCharPosShiftedX
          [65] ⟨0, 0⟩ TextAlignment.alignLeft /
        (exampleFont.setMinimumPositionPrecision
          (1 / 1180591620717411303424)).mMinimumPositionPrecision⌋ =
        9444732965739290427392 ∧
      (exampleFont.setMinimumPositionPrecision (1 / 1180591620717411303424)).getCharPosStartX
        [65] ⟨0, 0⟩ TextAlignment.alignLeft = -1 / 128 ∧
      (exampleFont.setMinimumPositionPrecision (1 / 1180591620717411303424)).getCharPosStartX
          [65] ⟨0, 0⟩ TextAlignment.alignLeft ≠
        (exampleFont.setMinimumPositionPrecision
            (1 / 1180591620717411303424)).mMinimumPositionPrecision *
          ((⌊(exampleFont.setMinimumPositionPrecision
                (1 / 1180591620717411303424)).getCharPosShiftedX [65] ⟨0, 0⟩
                TextAlignment.alignLeft /
              (exampleFont.setMinimumPositionPrecision
                (1 / 1180591620717411303424)).mMinimumPositionPrecision⌋ : Int) : ℚ) ∧
      (∀ k : Int, longMin ≤ k → k ≤ longMax →
        (exampleFont.setMinimumPositionPrecision
            (1 / 1180591620717411303424)).mMinimumPositionPrecision * (k : ℚ) ≠ 8) := by
  have hq : (exampleFont.setMinimumPositionPrecision
      (1 / 1180591620717411303424)).mMinimumPositionPrecision = 1 / 1180591620717411303424 :=
    rfl
  have hx0 : (exampleFont.setMinimumPositionPrecision
      (1 / 1180591620717411303424)).getCharPosShiftedX [65] ⟨0, 0⟩ TextAlignment.alignLeft
      = 8 := by
    simp [Font.getCharPosShiftedX, Font.setMinimumPositionPrecision, exampleFont, scaleFactor]
    norm_num
  have hfl : ⌊(8 : ℚ) / (1 / 1180591620717411303424)⌋ = 9444732965739290427392 := by
    rw [Int.floor_eq_iff]
    constructor <;> norm_num
  have hlr : lrint 9444732965739290427392 = -9223372036854775808 := by decide
  have hstart : (exampleFont.setMinimumPositionPrecision
      (1 / 1180591620717411303424)).getCharPosStartX [65] ⟨0, 0⟩ TextAlignment.alignLeft
      = -1 / 128 := by
    unfold Font.getCharPosStartX
    rw [hx0, hq]
    have hpos : (1 / 1180591620717411303424 : ℚ) > 0 := by norm_num
    simp only [hpos, if_true, hfl, hlr]
    norm_num
  refine ⟨by rw [hq]; norm_num, hx0, by rw [hx0, hq]; exact hfl, hstart, ?_, ?_⟩
  · rw [hstart, hx0, hq, hfl]
    norm_num
  · intro k _ hk h
    rw [hq] at h
    have hkq : (k : ℚ) = 9444732965739290427392 := by linarith
    have hki : k = 9444732965739290427392 := by exact_mod_cast hkq
    unfold longMax at hk
    omega

/-- C8 (amended): with a minimum position precision `q > 0`, the value of `x` with which
the per-character loop of `getCharPos` starts is an integer multiple of `q`; when
`floor(x0 / q)` fits a 64-bit `long`, `x0` being the origin `x` after the alignment shift
and the half-cell shift, it is `q * floor(x0 / q)`, so it does not exceed `x0` and no
multiple of `q` lies above it and at or below `x0`. The loop is run from this value. -/
theorem getCharPosStartX_snapped (f : Font) (s : List UChar) (p : doublePair)
    (a : TextAlignment) (hq : 0 < f.mMinimumPositionPrecision) :
    (∃ k : Int, f.getCharPosStartX s p a = f.mMinimumPositionPrecision * (k : ℚ)) ∧
      (longMin ≤ ⌊f.getCharPosShiftedX s p a / f.mMinimumPositionPrecision⌋ ∧
          ⌊f.getCharPosShiftedX s p a / f.mMinimumPositionPrecision⌋ ≤ longMax →
        f.getCharPosStartX s p a =
            f.mMinimumPositionPrecision *
              ((⌊f.getCharPosShiftedX s p a / f.mMinimumPositionPrecision⌋ : Int) : ℚ) ∧
          f.getCharPosStartX s p a ≤ f.getCharPosShiftedX s p a ∧
          (∀ k : Int, f.mMinimumPositionPrecision * (k : ℚ) ≤ f.getCharPosShiftedX s p a →
            f.mMinimumPositionPrecision * (k : ℚ) ≤ f.getCharPosStartX s p a)) ∧
      (∀ (cv : WStringConvert) (out : List doublePair) (w : List Nat),
        toWideString cv s = some w →
        f.getCharPos cv out s p a =
          some (((List.range w.length).foldl (f.getCharPosStep w (f.getCharPosY p))
              (f.getCharPosStartX s p a, out)).1 -
                (f.mCharSpacing : ℚ) * (scaleFactor * f.mScaleFactor),
            ((List.range w.length).foldl (f.getCharPosStep w (f.getCharPosY p))
              (f.getCharPosStartX s p a, out)).2)) := by
  have hgen : f.getCharPosStartX s p a =
      f.mMinimumPositionPrecision *
        ((lrint ⌊f.getCharPosShiftedX s p a / f.mMinimumPositionPrecision⌋ : Int) : ℚ) := by
    unfold Font.getCharPosStartX
    simp only [hq, if_true]
    rw [mul_comm]
  refine ⟨⟨_, hgen⟩, ?_, ?_⟩
  · intro hrange
    have hstart : f.getCharPosStartX s p a =
        f.mMinimumPositionPrecision *
          ((⌊f.getCharPosShiftedX s p a / f.mMinimumPositionPrecision⌋ : Int) : ℚ) := by
      rw [hgen, lrint_of_range _ hrange.1 hrange.2]
    refine ⟨hstart, ?_, ?_⟩
    · rw [hstart, mul_comm]
      exact (le_div_iff₀ hq).mp (Int.floor_le _)
    · intro k hk
      rw [hstart]
      have h1 : (k : ℚ) ≤ f.getCharPosShiftedX s p a / f.mMinimumPositionPrecision := by
        rw [le_div_iff₀ hq, mul_comm]
        exact hk
      have h2 : k ≤ ⌊f.getCharPosShiftedX s p a / f.mMinimumPositionPrecision⌋ :=
        Int.le_floor.mpr h1
      have h3 : (k : ℚ) ≤
          ((⌊f.getCharPosShiftedX s p a / f.mMinimumPositionPrecision⌋ : Int) : ℚ) := by
        exact_mod_cast h2
      exact mul_le_mul_of_nonneg_left h3 (le_of_lt hq)
  · intro cv out w hw
    unfold Font.getCharPos
    rw [hw]

theorem getCharPosStartX_snapped_witness :
    (exampleFont.setMinimumPositionPrecision (1 / 2)).getCharPosStartX [65] ⟨1 / 3, 0⟩
          TextAlignment.alignLeft =
        (exampleFont.setMinimumPositionPrecision (1 / 2)).mMinimumPositionPrecision *
          ((⌊(exampleFont.setMinimumPositionPrecision (1 / 2)).getCharPosShiftedX [65]
                ⟨1 / 3, 0⟩ TextAlignment.alignLeft /
              (exampleFont.setMinimumPositionPrecision (1 / 2)).mMinimumPositionPrecision⌋ :
              Int) : ℚ) ∧
      (exampleFont.setMinimumPositionPrecision (1 / 2)).getCharPosStartX [65] ⟨1 / 3, 0⟩
          TextAlignment.alignLeft ≤
        (exampleFont.setMinimumPositionPrecision (1 / 2)).getCharPosShiftedX [65]
          ⟨1 / 3, 0⟩ TextAlignment.alignLeft := by
  have hx0 : (exampleFont.setMinimumPositionPrecision (1 / 2)).getCharPosShiftedX [65]
      ⟨1 / 3, 0⟩ TextAlignment.alignLeft = 25 / 3 := by
    simp [Font.getCharPosShiftedX, Font.setMinimumPositionPrecision, exampleFont, scaleFactor]
    norm_num
  have hq : (exampleFont.setMinimumPositionPrecision (1 / 2)).mMinimumPositionPrecision =
      1 / 2 := rfl
  have hfl : ⌊(25 : ℚ) / 3 / (1 / 2)⌋ = 16 := by
    rw [Int.floor_eq_iff]
    constructor <;> norm_num
  have h := (getCharPosStartX_snapped (exampleFont.setMinimumPositionPrecision (1 / 2)) [65]
    ⟨1 / 3, 0⟩ TextAlignment.alignLeft (by rw [hq]; norm_num)).2.1
    (by rw [hx0, hq, hfl]; decide)
  exact ⟨h.1, h.2.1⟩

/-! ## Layout: the per-character loop of `getCharPos` -/

theorem toUChar_val (c : UChar) : toUChar c.val = c := by
  apply Fin.ext
  exact Nat.mod_eq_of_lt c.isLt

theorem toUChar_wcharAt_widen (s : List UChar) (i : Nat) :
    toUChar (wcharAt (widen s) i) = charAt s i := by
  unfold wcharAt widen charAt
  have h := List.getD_map (l := s) (d := (0 : UChar)) (n := i) Fin.val
  have h0 : ((0 : UChar) : Nat) = 0 := rfl
  rw [h0] at h
  rw [h, toUChar_val]

theorem widen_length (s : List UChar) : (widen s).length = s.length := by
  unfold widen
  exact List.length_map s Fin.val

theorem charAt_mem (s : List UChar) (i : Nat) (h : i < s.length) : charAt s i ∈ s := by
  unfold charAt
  rw [List.getD_eq_getElem s 0 h]
  exact List.getElem_mem h

theorem positionCharacter_fst (f : Font) (c : UChar) (p : doublePair) :
    (f.positionCharacter c p).1 =
      (if c = 32 then (f.mSpaceWidth : ℚ)
        else if f.mFixedWidth = true then (f.mCharBlockWidth : ℚ) else (f.mCharWidth c : ℚ)) *
        (scaleFactor * f.mScaleFactor) := by
  unfold Font.positionCharacter
  by_cases hc : c = 32
  · simp [hc]
  · cases hf : f.mFixedWidth <;> simp [hc, hf]

theorem positionCharacter_shift (f : Font) (c : UChar) (x y d : ℚ) :
    f.positionCharacter c ⟨x + d, y⟩ =
      ((f.positionCharacter c ⟨x, y⟩).1, shiftX d (f.positionCharacter c ⟨x, y⟩).2) := by
  unfold Font.positionCharacter shiftX
  by_cases hc : c = 32
  · simp [hc]
  · cases hf : f.mFixedWidth
    · simp [hc, hf]
      ring
    · simp [hc, hf]

/-- The running `x` after one iteration, for a text of single-byte characters in which a
space occurs only if the space glyph has no kerning row. -/
theorem getCharPosStep_fst (f : Font) (s : List UChar) (y : ℚ) (st : ℚ × List doublePair)
    (i : Nat) (hi : i < s.length) (hsp : (32 : UChar) ∈ s → f.mKerningTable 32 = none) :
    (f.getCharPosStep (widen s) y st i).1 =
      st.1 + scaleFactor * f.mScaleFactor *
        (((f.measureTerm s i : Int) : ℚ) + (f.mCharSpacing : ℚ)) := by
  unfold Font.getCharPosStep
  simp only [toUChar_wcharAt_widen, widen_length, positionCharacter_fst]
  unfold Font.measureTerm Font.kerningOffsetOf
  by_cases hc : charAt s i = 32
  · have hmem : (32 : UChar) ∈ s := hc ▸ charAt_mem s i hi
    simp only [hc, hsp hmem, if_true]
    ring
  · simp only [hc, if_false]
    cases hk : f.mKerningTable (charAt s i) with
    | none =>
      simp only []
      cases hf : f.mFixedWidth <;> simp <;> ring
    | some t =>
      simp only []
      cases hf : f.mFixedWidth
      · by_cases hcond : f.mEnableKerning = true ∧ i + 1 < s.length
        · simp [hcond]
          ring
        · simp only [not_and] at hcond
          by_cases he : f.mEnableKerning = true
          · simp [he, hcond he]
            ring
          · simp [he]
            ring
      · simp
        ring

theorem getCharPosLoop_fst (f : Font) (s : List UChar) (y x0 : ℚ) (out : List doublePair)
    (hsp : (32 : UChar) ∈ s → f.mKerningTable 32 = none) (n : Nat) (hn : n ≤ s.length) :
    ((List.range n).foldl (f.getCharPosStep (widen s) y) (x0, out)).1 =
      x0 + scaleFactor * f.mScaleFactor *
        (((∑ k ∈ Finset.range n, f.measureTerm s k : Int) : ℚ) +
          (f.mCharSpacing : ℚ) * (n : ℚ)) := by
  induction n with
  | zero => simp
  | succ n ih =>
    rw [List.range_succ, List.foldl_append, List.foldl_cons, List.foldl_nil,
      getCharPosStep_fst f s y _ n (by omega) hsp, ih (by omega), Finset.sum_range_succ]
    push_cast
    ring

/-- The cursor returned by `getCharPos` for a non-empty text of single-byte characters: the
start value of the loop plus the measured width. -/
theorem getCharPos_cursor (cv : WStringConvert) (f : Font) (out : List doublePair)
    (s : List UChar) (p : doublePair) (a : TextAlignment) (hs : s ≠ [])
    (hw : toWideString cv s = some (widen s))
    (hsp : (32 : UChar) ∈ s → f.mKerningTable 32 = none) :
    (f.getCharPos cv out s p a).map Prod.fst =
      some (f.getCharPosStartX s p a + f.measureString s (-1)) := by
  unfold Font.getCharPos
  rw [hw]
  simp only [Option.map_some', widen_length]
  rw [getCharPosLoop_fst f s _ _ out hsp s.length (le_refl _), measureString_closed_form]
  unfold Font.measureSpec
  rw [if_neg hs]
  congr 1
  ring

theorem getCharPosStartX_unsnapped (f : Font) (s : List UChar) (p : doublePair)
    (hq : f.mMinimumPositionPrecision ≤ 0) :
    f.getCharPosStartX s p TextAlignment.alignLeft =
      p.x + scaleFactor * f.mScaleFactor * (f.mSpriteWidth : ℚ) / 2 := by
  unfold Font.getCharPosStartX Font.getCharPosShiftedX
  have hq' : ¬ (f.mMinimumPositionPrecision > 0) := not_lt.mpr hq
  simp [hq']

theorem asciiConvert_single (s : List UChar) (h : s.all (fun c => c.val < 128) = true) :
    toWideString asciiConvert s = some (widen s) := by
  have h2 : (widen s).all (fun c => c < 128) = true := by
    unfold widen
    rw [List.all_eq_true] at h ⊢
    intro c hc
    rcases List.mem_map.mp hc with ⟨b, hb, rfl⟩
    exact h b hb
  have h3 : ((widen s).map toUChar) = s := by
    unfold widen
    rw [List.map_map]
    conv_rhs => rw [← List.map_id s]
    apply List.map_congr_left
    intro c _
    exact toUChar_val c
  simp only [toWideString, latin1ToUtf8, asciiConvert, h, h2, h3, if_true, Option.some_bind]

/-! ## C5: measuring against the cursor returned by layout -/

/-- C5 (as stated, refuted): laid out left-aligned from the origin `(0, 0)`, the one-letter
text "A" returns the cursor `16` in the example font, while it measures `8`: the cursor
includes the half-cell shift of `8`. -/
theorem getCharPos_cursor_differs_from_measure :
    (exampleFont.getCharPos asciiConvert [] [65] ⟨0, 0⟩ TextAlignment.alignLeft).map Prod.fst
        = some 16 ∧
      exampleFont.measureString [65] (-1) = 8 ∧
      (exampleFont.getCharPos asciiConvert [] [65] ⟨0, 0⟩ TextAlignment.alignLeft).map
          (fun r => r.1 - (0 : ℚ)) ≠ some (exampleFont.measureString [65] (-1)) := by
  have hm : exampleFont.measureString [65] (-1) = 8 := by
    rw [measureString_closed_form]
    simp [Font.measureSpec, Font.measureTerm, exampleFont, charAt, scaleFactor]
  have hc : (exampleFont.getCharPos asciiConvert [] [65] ⟨0, 0⟩
      TextAlignment.alignLeft).map Prod.fst = some 16 := by
    rw [getCharPos_cursor asciiConvert exampleFont [] [65] ⟨0, 0⟩ TextAlignment.alignLeft
      (by decide) (asciiConvert_single [65] (by decide)) (fun h => absurd h (by decide)),
      getCharPosStartX_unsnapped exampleFont [65] ⟨0, 0⟩ (by simp [exampleFont]), hm]
    simp [exampleFont, scaleFactor]
    norm_num
  refine ⟨hc, hm, ?_⟩
  intro h
  cases hr : exampleFont.getCharPos asciiConvert [] [65] ⟨0, 0⟩ TextAlignment.alignLeft with
  | none => rw [hr] at hc; simp at hc
  | some r =>
    rw [hr] at hc h
    rw [hm] at h
    simp only [Option.map_some', Option.some.injEq, sub_zero] at hc h
    rw [hc] at h
    norm_num at h

/-- C5 (amended): for every font, with kerning enabled or not, and every non-empty text
`s` of single-byte characters in which a space occurs only if the space glyph has no
kerning row, the cursor returned by `getCharPos(out, s, origin = (0, 0), alignLeft)`
equals `measureString(s)` plus the value of `x` at which the loop starts; that value is
the half-cell shift `scale * cellWidth / 2` when no minimum position precision is
configured. -/
theorem getCharPos_origin_cursor (cv : WStringConvert) (f : Font) (out : List doublePair)
    (s : List UChar) (hs : s ≠ []) (hw : toWideString cv s = some (widen s))
    (hsp : (32 : UChar) ∈ s → f.mKerningTable 32 = none) :
    (f.getCharPos cv out s ⟨0, 0⟩ TextAlignment.alignLeft).map Prod.fst =
        some (f.getCharPosStartX s ⟨0, 0⟩ TextAlignment.alignLeft + f.measureString s (-1)) ∧
      (f.mMinimumPositionPrecision ≤ 0 →
        f.getCharPosStartX s ⟨0, 0⟩ TextAlignment.alignLeft =
          scaleFactor * f.mScaleFactor * (f.mSpriteWidth : ℚ) / 2) := by
  refine ⟨getCharPos_cursor cv f out s ⟨0, 0⟩ TextAlignment.alignLeft hs hw hsp, ?_⟩
  intro hq
  rw [getCharPosStartX_unsnapped f s ⟨0, 0⟩ hq]
  simp

theorem getCharPos_origin_cursor_witness :
    (exampleFont.getCharPos asciiConvert [] [65, 86] ⟨0, 0⟩ TextAlignment.alignLeft).map
          Prod.fst =
        some (exampleFont.getCharPosStartX [65, 86] ⟨0, 0⟩ TextAlignment.alignLeft +
          exampleFont.measureString [65, 86] (-1)) ∧
      exampleFont.getCharPosStartX [65, 86] ⟨0, 0⟩ TextAlignment.alignLeft =
        scaleFactor * exampleFont.mScaleFactor * (exampleFont.mSpriteWidth : ℚ) / 2 :=
  ⟨(getCharPos_origin_cursor asciiConvert exampleFont [] [65, 86] (by decide)
      (asciiConvert_single [65, 86] (by decide)) (fun h => absurd h (by decide))).1,
    (getCharPos_origin_cursor asciiConvert exampleFont [] [65, 86] (by decide)
      (asciiConvert_single [65, 86] (by decide)) (fun h => absurd h (by decide))).2
      (by simp [exampleFont])⟩

/-! ## C6: right alignment against left alignment -/

theorem getCharPosStep_shift (f : Font) (w : List Nat) (y x d : ℚ)
    (out1 out2 : List doublePair) (i : Nat) :
    f.getCharPosStep w y (x + d, out1) i =
      ((f.getCharPosStep w y (x, out2) i).1 + d,
        out1 ++ [shiftX d (f.positionCharacter (toUChar (wcharAt w i)) ⟨x, y⟩).2]) ∧
      (f.getCharPosStep w y (x, out2) i).2 =
        out2 ++ [(f.positionCharacter (toUChar (wcharAt w i)) ⟨x, y⟩).2] := by
  unfold Font.getCharPosStep
  simp only [positionCharacter_shift]
  cases hk : f.mKerningTable (toUChar (wcharAt w i)) with
  | none =>
    simp only []
    constructor
    · congr 1
      ring
    · trivial
  | some t =>
    simp only []
    split_ifs
    · constructor
      · congr 1
        ring
      · trivial
    · constructor
      · congr 1
        ring
      · trivial

/-- Starting the loop `d` further right moves the cursor and every produced position by
`d` and changes nothing else. -/
theorem getCharPosLoop_shift (f : Font) (w : List Nat) (y d : ℚ) (l : List Nat) :
    ∀ (x : ℚ) (out1 out2 : List doublePair),
      ∃ L : List doublePair,
        l.foldl (f.getCharPosStep w y) (x, out2) = ((l.foldl (f.getCharPosStep w y) (x, out2)).1,
            out2 ++ L) ∧
          l.foldl (f.getCharPosStep w y) (x + d, out1) =
            ((l.foldl (f.getCharPosStep w y) (x, out2)).1 + d, out1 ++ L.map (shiftX d)) := by
  induction l with
  | nil =>
    intro x out1 out2
    exact ⟨[], by simp, by simp⟩
  | cons i l ih =>
    intro x out1 out2
    obtain ⟨h1, h2⟩ := getCharPosStep_shift f w y x d out1 out2 i
    have e2 : f.getCharPosStep w y (x, out2) i =
        ((f.getCharPosStep w y (x, out2) i).1,
          out2 ++ [(f.positionCharacter (toUChar (wcharAt w i)) ⟨x, y⟩).2]) :=
      Prod.ext rfl h2
    obtain ⟨L, hL1, hL2⟩ := ih (f.getCharPosStep w y (x, out2) i).1
      (out1 ++ [shiftX d (f.positionCharacter (toUChar (wcharAt w i)) ⟨x, y⟩).2])
      (out2 ++ [(f.positionCharacter (toUChar (wcharAt w i)) ⟨x, y⟩).2])
    refine ⟨(f.positionCharacter (toUChar (wcharAt w i)) ⟨x, y⟩).2 :: L, ?_, ?_⟩
    · rw [List.foldl_cons]
      rw [e2] at hL1 ⊢
      rw [hL1]
      simp
    · rw [List.foldl_cons, List.foldl_cons, h1]
      rw [e2] at hL2 ⊢
      rw [hL2]
      simp

theorem getCharPosStartX_right_left (f : Font) (s : List UChar) (p : doublePair)
    (hq : f.mMinimumPositionPrecision ≤ 0) :
    f.getCharPosStartX s p TextAlignment.alignLeft =
      f.getCharPosStartX s p TextAlignment.alignRight + f.measureString s (-1) := by
  unfold Font.getCharPosStartX Font.getCharPosShiftedX
  have hq' : ¬ (f.mMinimumPositionPrecision > 0) := not_lt.mpr hq
  simp [hq']
  ring

theorem exampleFont_positions_A :
    (exampleFont.getCharPos asciiConvert [] [65] ⟨0, 0⟩ TextAlignment.alignLeft).map Prod.snd
        = some [⟨6, 0⟩] ∧
      (exampleFont.getCharPos asciiConvert [] [65] ⟨0, 0⟩ TextAlignment.alignRight).map
        Prod.snd = some [⟨-2, 0⟩] := by
  have hm : exampleFont.measureString [65] (-1) = 8 := by
    rw [measureString_closed_form]
    simp [Font.measureSpec, Font.measureTerm, exampleFont, charAt, scaleFactor]
  have h65 : toUChar (wcharAt (widen [65]) 0) = 65 := by decide
  constructor
  · unfold Font.getCharPos
    rw [asciiConvert_single [65] (by decide)]
    simp [widen_length, List.range_succ, Font.getCharPosStep, h65, Font.positionCharacter,
      Font.getCharPosStartX, Font.getCharPosShiftedX, Font.getCharPosY]
    simp [exampleFont, scaleFactor]
    norm_num
  · unfold Font.getCharPos
    rw [asciiConvert_single [65] (by decide)]
    simp [widen_length, List.range_succ, Font.getCharPosStep, h65, Font.positionCharacter,
      Font.getCharPosStartX, Font.getCharPosShiftedX, Font.getCharPosY, hm]
    simp [exampleFont, scaleFactor]
    norm_num

/-- C6 (as stated, refuted): in the example font the text "A" laid out from `(0, 0)` is
drawn at `x = -2` when right-aligned and at `x = 6` when left-aligned, and it measures
`8`; moving the right-aligned position left by `8` gives `-10`, not `6`. -/
theorem alignRight_shifted_left_differs :
    exampleFont.measureString [65] (-1) = 8 ∧
      (exampleFont.getCharPos asciiConvert [] [65] ⟨0, 0⟩ TextAlignment.alignRight).map
          (fun r => r.2.map (shiftX (- exampleFont.measureString [65] (-1)))) =
        some [⟨-10, 0⟩] ∧
      (exampleFont.getCharPos asciiConvert [] [65] ⟨0, 0⟩ TextAlignment.alignLeft).map
          Prod.snd = some [⟨6, 0⟩] ∧
      (exampleFont.getCharPos asciiConvert [] [65] ⟨0, 0⟩ TextAlignment.alignRight).map
          (fun r => r.2.map (shiftX (- exampleFont.measureString [65] (-1)))) ≠
        (exampleFont.getCharPos asciiConvert [] [65] ⟨0, 0⟩ TextAlignment.alignLeft).map
          Prod.snd := by
  have hm : exampleFont.measureString [65] (-1) = 8 := by
    rw [measureString_closed_form]
    simp [Font.measureSpec, Font.measureTerm, exampleFont, charAt, scaleFactor]
  obtain ⟨hl, hr⟩ := exampleFont_positions_A
  have hr2 : (exampleFont.getCharPos asciiConvert [] [65] ⟨0, 0⟩
      TextAlignment.alignRight).map
        (fun r => r.2.map (shiftX (- exampleFont.measureString [65] (-1)))) =
      some [⟨-10, 0⟩] := by
    cases hg : exampleFont.getCharPos asciiConvert [] [65] ⟨0, 0⟩ TextAlignment.alignRight with
    | none => rw [hg] at hr; simp at hr
    | some r =>
      rw [hg] at hr
      simp only [Option.map_some', Option.some.injEq] at hr ⊢
      rw [hr, hm]
      simp [shiftX]
      norm_num
  refine ⟨hm, hr2, hl, ?_⟩
  rw [hr2, hl]
  intro h
  simp only [Option.some.injEq, List.cons.injEq, doublePair.mk.injEq, and_true] at h
  norm_num at h

/-- C6 (amended): for every font with no minimum position precision configured, every
text `s` and position `p`, the draw positions produced by `getCharPos(s, p, alignRight)`,
each moved right by `measureString(s)` (added to its `x`, `y` unchanged), equal position
by position those produced by `getCharPos(s, p, alignLeft)`; and one call fails exactly
when the other does. -/
theorem getCharPos_alignRight_shift (cv : WStringConvert) (f : Font)
    (out : List doublePair) (s : List UChar) (p : doublePair)
    (hq : f.mMinimumPositionPrecision ≤ 0) :
    (f.getCharPos cv out s p TextAlignment.alignLeft).map (fun r => r.2.drop out.length) =
      (f.getCharPos cv out s p TextAlignment.alignRight).map
        (fun r => (r.2.drop out.length).map (shiftX (f.measureString s (-1)))) := by
  unfold Font.getCharPos
  cases hw : toWideString cv s with
  | none => rfl
  | some w =>
    simp only [Option.map_some', Option.some.injEq]
    obtain ⟨L, hL1, hL2⟩ := getCharPosLoop_shift f w (f.getCharPosY p)
      (f.measureString s (-1)) (List.range w.length)
      (f.getCharPosStartX s p TextAlignment.alignRight) out out
    rw [getCharPosStartX_right_left f s p hq, hL2, hL1]
    simp

theorem getCharPos_alignRight_shift_witness :
    (exampleFont.getCharPos asciiConvert [] [65, 86] ⟨3, 1⟩ TextAlignment.alignLeft).map
        (fun r => r.2.drop ([] : List doublePair).length) =
      (exampleFont.getCharPos asciiConvert [] [65, 86] ⟨3, 1⟩ TextAlignment.alignRight).map
        (fun r => (r.2.drop ([] : List doublePair).length).map
          (shiftX (exampleFont.measureString [65, 86] (-1)))) :=
  getCharPos_alignRight_shift asciiConvert exampleFont [] [65, 86] ⟨3, 1⟩
    (by simp [exampleFont])

/-! ## Where layout and measurement part ways

The statements above about the cursor and about right alignment carry side conditions.
The facts below show what happens without them. -/

/-- For an empty text the loop of `getCharPos` does not run, yet the spacing is still
subtracted from the cursor, while `measureString` returns `0`. -/
theorem getCharPos_empty (cv : WStringConvert) (f : Font) (out : List doublePair)
    (p : doublePair) (a : TextAlignment) (hw : toWideString cv [] = some []) :
    f.getCharPos cv out [] p a =
        some (f.getCharPosStartX [] p a - (f.mCharSpacing : ℚ) * (scaleFactor * f.mScaleFactor),
          out) ∧
      f.measureString [] (-1) = 0 := by
  constructor
  · unfold Font.getCharPos
    rw [hw]
    rfl
  · simp [Font.measureString]

/-- With a kerning row for the space glyph, `getCharPos` applies the kerning offset after
a space and `measureString` does not: for the text " A" the cursor is `23`, the loop
starts at `8` and the measured width is `18`. -/
theorem getCharPos_space_kerning :
    (spaceKernFont.getCharPos asciiConvert [] [32, 65] ⟨0, 0⟩ TextAlignment.alignLeft).map
        Prod.fst = some 23 ∧
      spaceKernFont.getCharPosStartX [32, 65] ⟨0, 0⟩ TextAlignment.alignLeft = 8 ∧
      spaceKernFont.measureString [32, 65] (-1) = 18 := by
  have h0 : toUChar (wcharAt (widen [32, 65]) 0) = 32 := by decide
  have h1 : toUChar (wcharAt (widen [32, 65]) 1) = 65 := by decide
  have h2 : toUChar (wcharAt (widen [32, 65]) 2) = 0 := by decide
  refine ⟨?_, ?_, ?_⟩
  · unfold Font.getCharPos
    rw [asciiConvert_single [32, 65] (by decide)]
    simp [widen_length, List.range_succ, Font.getCharPosStep, h0, h1, h2,
      Font.positionCharacter, Font.getCharPosStartX, Font.getCharPosShiftedX,
      Font.getCharPosY]
    simp [spaceKernFont, exampleFont, scaleFactor]
    norm_num
  · simp [Font.getCharPosStartX, Font.getCharPosShiftedX, spaceKernFont, exampleFont,
      scaleFactor]
    norm_num
  · rw [measureString_closed_form]
    simp [Font.measureSpec, Font.measureTerm, spaceKernFont, exampleFont, charAt,
      scaleFactor, Finset.sum_range_succ]
    norm_num

/-- With the minimum position precision `5`, the loop for the text "A" laid out from
`(0, 0)` starts at `5` when left-aligned and at `0` when right-aligned, although the text
measures `8`: the two start values are snapped separately. -/
theorem snapping_separates_alignments :
    (exampleFont.setMinimumPositionPrecision 5).getCharPosStartX [65] ⟨0, 0⟩
        TextAlignment.alignLeft = 5 ∧
      (exampleFont.setMinimumPositionPrecision 5).getCharPosStartX [65] ⟨0, 0⟩
        TextAlignment.alignRight = 0 ∧
      (exampleFont.setMinimumPositionPrecision 5).measureString [65] (-1) = 8 := by
  have hm : (exampleFont.setMinimumPositionPrecision 5).measureString [65] (-1) = 8 := by
    rw [measureString_closed_form]
    simp [Font.measureSpec, Font.measureTerm, Font.setMinimumPositionPrecision, exampleFont,
      charAt, scaleFactor]
  have hf1 : ⌊((16 : ℚ) / 2 / 5)⌋ = 1 := by
    rw [Int.floor_eq_iff]
    constructor <;> norm_num
  have hf0 : ⌊(((-8 : ℚ) + 16 / 2) / 5)⌋ = 0 := by
    rw [Int.floor_eq_iff]
    constructor <;> norm_num
  have hl1 : lrint 1 = 1 := by decide
  have hl0 : lrint 0 = 0 := by decide
  refine ⟨?_, ?_, hm⟩
  · unfold Font.getCharPosStartX Font.getCharPosShiftedX
    simp [Font.setMinimumPositionPrecision, exampleFont, scaleFactor, hf1, hl1]
  · unfold Font.getCharPosStartX Font.getCharPosShiftedX
    rw [hm]
    simp [Font.setMinimumPositionPrecision, exampleFont, scaleFactor, hf0, hl0]

/-! ## C12: centre and right alignment as a shift of the origin -/

/-- C12: for every font, text `s` and position `p`, and whatever the minimum position
precision, `getCharPos(s, p, alignCenter)` gives the same result (cursor and draw
positions) as `getCharPos(s, (p.x - measureString(s) / 2, p.y), alignLeft)`, and
`getCharPos(s, p, alignRight)` the same as
`getCharPos(s, (p.x - measureString(s), p.y), alignLeft)`. -/
theorem getCharPos_align_as_origin_shift (cv : WStringConvert) (f : Font)
    (out : List doublePair) (s : List UChar) (p : doublePair) :
    f.getCharPos cv out s p TextAlignment.alignCenter =
        f.getCharPos cv out s ⟨p.x - f.measureString s (-1) / 2, p.y⟩
          TextAlignment.alignLeft ∧
      f.getCharPos cv out s p TextAlignment.alignRight =
        f.getCharPos cv out s ⟨p.x - f.measureString s (-1), p.y⟩
          TextAlignment.alignLeft := by
  have hc : f.getCharPosStartX s p TextAlignment.alignCenter =
      f.getCharPosStartX s ⟨p.x - f.measureString s (-1) / 2, p.y⟩
        TextAlignment.alignLeft := by
    unfold Font.getCharPosStartX Font.getCharPosShiftedX
    simp
  have hr : f.getCharPosStartX s p TextAlignment.alignRight =
      f.getCharPosStartX s ⟨p.x - f.measureString s (-1), p.y⟩
        TextAlignment.alignLeft := by
    unfold Font.getCharPosStartX Font.getCharPosShiftedX
    simp
  have hy : ∀ x : ℚ, f.getCharPosY ⟨x, p.y⟩ = f.getCharPosY p := fun _ => rfl
  unfold Font.getCharPos
  rw [hc, hr, hy, hy]
  exact ⟨rfl, rfl⟩

/-! ## C13: the font height -/

/-- C13: `getFontHeight()` is `cellHeight * accentFactor * scale` with the effective scale
`(1/16) * mScaleFactor` that `measureString` uses and `accentFactor` one half when accents
are present and one otherwise; in a font built from a loaded atlas accents are present
exactly when the cell height differs from the cell width. -/
theorem getFontHeight_eq (f mem : Font) (img : Image) (cs sw : Int) (fw : Bool) (sf : ℚ)
    (fcw : Int) :
    f.getFontHeight =
        (f.mSpriteHeight : ℚ) * (if f.mAccentsPresent = true then 1 / 2 else 1) *
          (scaleFactor * f.mScaleFactor) ∧
      ((Font.construct mem (some img) cs sw fw sf fcw).mAccentsPresent = true ↔
        img.cellHeight ≠ img.cellWidth) ∧
      (Font.construct mem (some img) cs sw fw sf fcw).getFontHeight =
        (img.cellHeight : ℚ) * (if img.cellHeight ≠ img.cellWidth then 1 / 2 else 1) *
          (scaleFactor * sf) := by
  have hacc : (Font.construct mem (some img) cs sw fw sf fcw).mAccentsPresent = true ↔
      img.cellHeight ≠ img.cellWidth := by
    simp only [Font.construct, Image.cellHeight, Image.cellWidth]
    split_ifs with h <;> simp [h]
  have hgen : ∀ g : Font, g.getFontHeight =
      (g.mSpriteHeight : ℚ) * (if g.mAccentsPresent = true then 1 / 2 else 1) *
        (scaleFactor * g.mScaleFactor) := by
    intro g
    unfold Font.getFontHeight
    ring
  refine ⟨hgen f, hacc, ?_⟩
  rw [hgen]
  have hh : (Font.construct mem (some img) cs sw fw sf fcw).mSpriteHeight =
      (img.cellHeight : Int) := rfl
  have hs : (Font.construct mem (some img) cs sw fw sf fcw).mScaleFactor = sf := rfl
  rw [hh, hs]
  by_cases h : img.cellHeight ≠ img.cellWidth
  · rw [if_pos (hacc.mpr h), if_pos h]
    push_cast
    ring
  · have hn : ¬ ((Font.construct mem (some img) cs sw fw sf fcw).mAccentsPresent = true) :=
      fun ht => h (hacc.mp ht)
    rw [if_neg hn, if_neg h]
    push_cast
    ring

/-! ## C20: the recorded ink box lies inside the cell -/

/-- C20: after construction in proportional mode from a loaded atlas of cell width at
least `1`, every code point `i` has `0 ≤ leftEdgeOffset[i]`, `1 ≤ width[i]` and
`leftEdgeOffset[i] + width[i] ≤ cellWidth`. -/
theorem construct_ink_box (mem : Font) (img : Image) (cs sw : Int) (sf : ℚ) (fcw : Int)
    (i : UChar) (hW : 1 ≤ img.cellWidth) :
    0 ≤ (Font.construct mem (some img) cs sw false sf fcw).mCharLeftEdgeOffset i ∧
      1 ≤ (Font.construct mem (some img) cs sw false sf fcw).mCharWidth i ∧
      (Font.construct mem (some img) cs sw false sf fcw).mCharLeftEdgeOffset i +
          (Font.construct mem (some img) cs sw false sf fcw).mCharWidth i ≤
        (img.cellWidth : Int) := by
  rw [construct_mCharLeftEdgeOffset, construct_mCharWidth]
  exact cellMetrics_box _ _ _ _ _ hW

theorem construct_ink_box_witness :
    0 ≤ (Font.construct zeroMem (some glyphAtlas) 2 8 false 16 0).mCharLeftEdgeOffset 86 ∧
      1 ≤ (Font.construct zeroMem (some glyphAtlas) 2 8 false 16 0).mCharWidth 86 ∧
      (Font.construct zeroMem (some glyphAtlas) 2 8 false 16 0).mCharLeftEdgeOffset 86 +
          (Font.construct zeroMem (some glyphAtlas) 2 8 false 16 0).mCharWidth 86 ≤
        (glyphAtlas.cellWidth : Int) :=
  construct_ink_box zeroMem glyphAtlas 2 8 16 0 86 (by decide)

/-! ## C11: the draw positions produced by `getCharPos` -/

theorem getCharPosStep_eq (f : Font) (s : List UChar) (y x : ℚ) (out : List doublePair)
    (k : Nat) :
    f.getCharPosStep (widen s) y (x, out) k =
      (x + f.layoutAdvance s k,
        out ++ [⟨x - (if f.mFixedWidth = true ∨ charAt s k = 32 then 0
          else scaleFactor * f.mScaleFactor * (f.mCharLeftEdgeOffset (charAt s k) : ℚ)), y⟩]) := by
  have hpos : (f.positionCharacter (charAt s k) ⟨x, y⟩).2 =
      ⟨x - (if f.mFixedWidth = true ∨ charAt s k = 32 then 0
        else scaleFactor * f.mScaleFactor * (f.mCharLeftEdgeOffset (charAt s k) : ℚ)), y⟩ := by
    unfold Font.positionCharacter
    by_cases hc : charAt s k = 32
    · simp [hc]
    · cases hf : f.mFixedWidth
      · simp [hc, hf]
        ring
      · simp [hc, hf]
  unfold Font.getCharPosStep
  simp only [toUChar_wcharAt_widen, widen_length, positionCharacter_fst, hpos]
  unfold Font.layoutAdvance Font.layoutWidth Font.kerningOffsetOf
  cases hk : f.mKerningTable (charAt s k) with
  | none =>
    simp only []
    refine Prod.ext ?_ rfl
    simp only [Int.cast_zero, mul_zero, ite_self, add_zero]
    ring
  | some t =>
    simp only []
    cases hf : f.mFixedWidth
    · by_cases he : f.mEnableKerning = true
      · by_cases hl : k + 1 < s.length
        · simp only [he, hl, Bool.not_false, and_self, if_true, Bool.false_eq_true, if_false]
          refine Prod.ext ?_ rfl
          simp only []
          ring
        · simp only [he, hl, and_false, if_false, Bool.false_eq_true]
          refine Prod.ext ?_ rfl
          simp only []
          ring
      · simp only [he, and_false, false_and, if_false, Bool.false_eq_true]
        refine Prod.ext ?_ rfl
        simp only []
        ring
    · simp only [Bool.not_true, Bool.false_eq_true, false_and, if_false, if_true,
        Bool.true_eq_false]
      refine Prod.ext ?_ rfl
      simp only []
      ring

/-- The per-character loop run over the first `n` characters. -/
theorem getCharPosLoop_eq (f : Font) (s : List UChar) (y x0 : ℚ) (out : List doublePair)
    (n : Nat) :
    (List.range n).foldl (f.getCharPosStep (widen s) y) (x0, out) =
      (f.runningX s x0 n, out ++ (List.range n).map (fun k => ⟨f.drawX s x0 k, y⟩)) := by
  induction n with
  | zero => simp [Font.runningX]
  | succ n ih =>
    rw [List.range_succ, List.foldl_append, ih, List.foldl_cons, List.foldl_nil,
      getCharPosStep_eq, List.map_append, List.map_cons, List.map_nil, List.append_assoc]
    rfl

/-- The result of `getCharPos` on a text of single-byte characters. -/
theorem getCharPos_eq (cv : WStringConvert) (f : Font) (out : List doublePair)
    (s : List UChar) (p : doublePair) (a : TextAlignment)
    (hw : toWideString cv s = some (widen s)) :
    f.getCharPos cv out s p a =
      some (f.runningX s (f.getCharPosStartX s p a) s.length -
          (f.mCharSpacing : ℚ) * (scaleFactor * f.mScaleFactor),
        out ++ (List.range s.length).map
          (fun k => ⟨f.drawX s (f.getCharPosStartX s p a) k, f.getCharPosY p⟩)) := by
  unfold Font.getCharPos
  rw [hw]
  simp only [widen_length, getCharPosLoop_eq]

/-- C11 (as stated, refuted): in a proportional font whose space cell holds ink from
column 1 on, so that `leftEdgeOffset[' '] = 1`, the one-space text laid out from `(0, 0)`
is drawn at the running `x = 1` itself, not at `1 - scale * leftEdgeOffset[' '] = 0`. -/
theorem space_drawn_at_running_x :
    spaceInkFont.mFixedWidth = false ∧
      spaceInkFont.mCharLeftEdgeOffset 32 = 1 ∧
      spaceInkFont.getCharPosStartX [32] ⟨0, 0⟩ TextAlignment.alignLeft = 1 ∧
      (spaceInkFont.getCharPos asciiConvert [] [32] ⟨0, 0⟩ TextAlignment.alignLeft).map
          Prod.snd = some [⟨1, 0⟩] ∧
      (spaceInkFont.getCharPos asciiConvert [] [32] ⟨0, 0⟩ TextAlignment.alignLeft).map
          Prod.snd ≠
        some [⟨spaceInkFont.getCharPosStartX [32] ⟨0, 0⟩ TextAlignment.alignLeft -
          scaleFactor * spaceInkFont.mScaleFactor *
            (spaceInkFont.mCharLeftEdgeOffset 32 : ℚ), 0⟩] := by
  have hleo : spaceInkFont.mCharLeftEdgeOffset 32 = 1 := by decide
  have hsw : spaceInkFont.mSpriteWidth = 2 := by decide
  have hsf : spaceInkFont.mScaleFactor = 16 := rfl
  have hacc : spaceInkFont.mAccentsPresent = false := by decide
  have hx : spaceInkFont.getCharPosStartX [32] ⟨0, 0⟩ TextAlignment.alignLeft = 1 := by
    rw [getCharPosStartX_unsnapped spaceInkFont [32] ⟨0, 0⟩ (le_refl 0), hsw, hsf]
    norm_num [scaleFactor]
  have hpos : (spaceInkFont.getCharPos asciiConvert [] [32] ⟨0, 0⟩
      TextAlignment.alignLeft).map Prod.snd = some [⟨1, 0⟩] := by
    rw [getCharPos_eq asciiConvert spaceInkFont [] [32] ⟨0, 0⟩ TextAlignment.alignLeft
      (asciiConvert_single [32] (by decide))]
    have hr : List.range 1 = [0] := rfl
    have hc : charAt [32] 0 = 32 := rfl
    simp [Font.drawX, Font.runningX, hx, Font.getCharPosY, hacc, hr, hc]
  refine ⟨rfl, hleo, hx, hpos, ?_⟩
  rw [hpos, hx, hleo, hsf]
  intro h
  simp only [Option.some.injEq, List.cons.injEq, doublePair.mk.injEq, and_true] at h
  norm_num [scaleFactor] at h

/-- C11 (amended): for every font, text `s` of `n` single-byte characters, position and
alignment, `getCharPos` appends exactly `n` draw positions to the output sequence, in text
order and after the elements already there. The `k`-th has `y` as computed from the
position and `x` equal to the running `x` at character `k` minus
`scale * leftEdgeOffset[s[k]]`, the subtraction being skipped in fixed-width mode and for
a space. The running `x` starts at the loop's start value and then advances by the scaled
width (space width for a space, fixed cell width in fixed-width mode, else the glyph
width) plus `scale * spacing` plus, in proportional mode with kerning enabled and a
following character, `scale * kerning offset(s[k], s[k+1])`; the returned cursor is the
final running `x` less `scale * spacing`. -/
theorem getCharPos_positions (cv : WStringConvert) (f : Font) (out : List doublePair)
    (s : List UChar) (p : doublePair) (a : TextAlignment)
    (hw : toWideString cv s = some (widen s)) :
    f.getCharPos cv out s p a =
        some (f.runningX s (f.getCharPosStartX s p a) s.length -
            (f.mCharSpacing : ℚ) * (scaleFactor * f.mScaleFactor),
          out ++ (List.range s.length).map
            (fun k => ⟨f.drawX s (f.getCharPosStartX s p a) k, f.getCharPosY p⟩)) ∧
      ((List.range s.length).map
          (fun k => (⟨f.drawX s (f.getCharPosStartX s p a) k, f.getCharPosY p⟩ : doublePair))).length
        = s.length ∧
      f.runningX s (f.getCharPosStartX s p a) 0 = f.getCharPosStartX s p a ∧
      (∀ k, f.runningX s (f.getCharPosStartX s p a) (k + 1) =
        f.runningX s (f.getCharPosStartX s p a) k + f.layoutAdvance s k) := by
  refine ⟨getCharPos_eq cv f out s p a hw, ?_, rfl, fun _ => rfl⟩
  rw [List.length_map, List.length_range]

theorem getCharPos_positions_witness :
    exampleFont.getCharPos asciiConvert [] [65, 86] ⟨3, 1⟩ TextAlignment.alignCenter =
      some (exampleFont.runningX [65, 86]
            (exampleFont.getCharPosStartX [65, 86] ⟨3, 1⟩ TextAlignment.alignCenter)
            ([65, 86] : List UChar).length -
          (exampleFont.mCharSpacing : ℚ) * (scaleFactor * exampleFont.mScaleFactor),
        [] ++ (List.range ([65, 86] : List UChar).length).map
          (fun k => ⟨exampleFont.drawX [65, 86]
            (exampleFont.getCharPosStartX [65, 86] ⟨3, 1⟩ TextAlignment.alignCenter) k,
            exampleFont.getCharPosY ⟨3, 1⟩⟩)) :=
  (getCharPos_positions asciiConvert exampleFont [] [65, 86] ⟨3, 1⟩
    TextAlignment.alignCenter (asciiConvert_single [65, 86] (by decide))).1

/-! ## C17: slicing the atlas into cells -/

theorem foldl_range_invariant {α : Type} (P : Nat → α → Prop) (g : α → Nat → α) (a : α)
    (n : Nat) (h0 : P 0 a) (hstep : ∀ k, k < n → ∀ s, P k s → P (k + 1) (g s k)) :
    P n ((List.range n).foldl g a) := by
  induction n with
  | zero => exact h0
  | succ n ih =>
    rw [List.range_succ, List.foldl_append, List.foldl_cons, List.foldl_nil]
    exact hstep n (Nat.lt_succ_self n) _
      (ih (fun k hk s hs => hstep k (Nat.lt_succ_of_lt hk) s hs))

theorem cell_index_lt (W x y y2 : Nat) (hx : x < W) (hy : y < y2) : y * W + x < y2 * W := by
  have h1 : (y + 1) * W ≤ y2 * W := Nat.mul_le_mul_right W hy
  have h2 : (y + 1) * W = y * W + W := Nat.succ_mul y W
  omega

/-- After the two copy loops, pixel `(x, y)` of the cell buffer is the pixel of the sprite
array at row `y + yOffset`, column `x + xOffset`. -/
theorem sliceCell_apply (sprite : Nat → rgbaColor) (width W H i x y : Nat) (hx : x < W)
    (hy : y < H) :
    sliceCell sprite width W H i (y * W + x) =
      sprite ((y + (i / 16) * H) * width + x + (i % 16) * W) := by
  unfold sliceCell
  have key := foldl_range_invariant
    (fun (yy : Nat) (buf : Nat → rgbaColor) =>
      ∀ y1 x1, y1 < yy → x1 < W →
        buf (y1 * W + x1) = sprite ((y1 + (i / 16) * H) * width + x1 + (i % 16) * W))
    (fun charRGBA y =>
      (List.range W).foldl
        (fun charRGBA x =>
          Function.update charRGBA (y * W + x)
            (sprite ((y + (i / 16) * H) * width + x + (i % 16) * W)))
        charRGBA)
    (fun _ => ⟨0, 0, 0, 0⟩) H (fun y1 x1 h _ => absurd h (Nat.not_lt_zero y1)) ?_
  · exact key y x hy hx
  · intro yy _ buf hbuf
    have inner := foldl_range_invariant
      (fun (xx : Nat) (b : Nat → rgbaColor) =>
        (∀ y1 x1, y1 < yy → x1 < W →
          b (y1 * W + x1) = sprite ((y1 + (i / 16) * H) * width + x1 + (i % 16) * W)) ∧
        (∀ x1, x1 < xx → x1 < W →
          b (yy * W + x1) = sprite ((yy + (i / 16) * H) * width + x1 + (i % 16) * W)))
      (fun charRGBA x =>
        Function.update charRGBA (yy * W + x)
          (sprite ((yy + (i / 16) * H) * width + x + (i % 16) * W)))
      buf W ⟨hbuf, fun x1 h _ => absurd h (Nat.not_lt_zero x1)⟩ ?_
    · intro y1 x1 hy1 hx1
      rcases Nat.lt_succ_iff_lt_or_eq.mp hy1 with h | h
      · exact inner.1 y1 x1 h hx1
      · rw [h]
        exact inner.2 x1 hx1 hx1
    · intro xx hxx b hb
      dsimp only
      constructor
      · intro y1 x1 hy1 hx1
        have hne : y1 * W + x1 ≠ yy * W + xx := by
          have := cell_index_lt W x1 y1 yy hx1 hy1
          omega
        rw [Function.update_noteq hne]
        exact hb.1 y1 x1 hy1 hx1
      · intro x1 hx1 hx1W
        rcases Nat.lt_succ_iff_lt_or_eq.mp hx1 with h | h
        · have hne : yy * W + x1 ≠ yy * W + xx := by omega
          rw [Function.update_noteq hne]
          exact hb.2 x1 h hx1W
        · rw [h, Function.update_same]

theorem allTransparent_iff (cell : Nat → rgbaColor) (n : Nat) :
    allTransparent cell n = true ↔ ∀ p, p < n → (cell p).a = 0 := by
  unfold allTransparent
  refine foldl_range_invariant
    (fun (k : Nat) (b : Bool) => b = true ↔ ∀ p, p < k → (cell p).a = 0) _ true n ?_ ?_
  · exact ⟨fun _ p h => absurd h (Nat.not_lt_zero p), fun _ => rfl⟩
  · intro k _ b hb
    by_cases hz : (cell k).a = 0
    · have : (if b = true then (if (cell k).a ≠ 0 then false else b) else b) = b := by
        cases b <;> simp [hz]
      rw [this, hb]
      constructor
      · intro h p hp
        rcases Nat.lt_succ_iff_lt_or_eq.mp hp with h1 | h1
        · exact h p h1
        · rw [h1]
          exact hz
      · intro h p hp
        exact h p (Nat.lt_succ_of_lt hp)
    · have : (if b = true then (if (cell k).a ≠ 0 then false else b) else b) = false := by
        cases b <;> simp [hz]
      rw [this]
      constructor
      · intro h
        exact absurd h (by decide)
      · intro h
        exact absurd (h k (Nat.lt_succ_self k)) hz

theorem forall_pixel_iff (W H : Nat) (Q : Nat → Prop) :
    (∀ p, p < W * H → Q p) ↔ ∀ x y, x < W → y < H → Q (y * W + x) := by
  constructor
  · intro h x y hx hy
    apply h
    have := cell_index_lt W x y H hx hy
    rw [Nat.mul_comm W H]
    exact this
  · intro h p hp
    have hW : 0 < W := by
      rcases Nat.eq_zero_or_pos W with h0 | h0
      · rw [h0, Nat.zero_mul] at hp
        exact absurd hp (Nat.not_lt_zero p)
      · exact h0
    have h1 : p % W < W := Nat.mod_lt p hW
    have h2 : p / W < H := Nat.div_lt_of_lt_mul hp
    have h3 : p / W * W + p % W = p := by
      rw [Nat.mul_comm]
      exact Nat.div_add_mod p W
    have := h (p % W) (p / W) h1 h2
    rw [h3] at this
    exact this

theorem cell_apply (img : Image) (i : UChar) (x y : Nat) (hx : x < img.cellWidth)
    (hy : y < img.cellHeight) :
    img.cell i (y * img.cellWidth + x) =
      ⟨255, 255, 255,
        img.red (x + (i.val % 16) * img.cellWidth) (y + (i.val / 16) * img.cellHeight)⟩ := by
  unfold Image.cell
  rw [sliceCell_apply _ _ _ _ _ x y hx hy]
  unfold spriteRGBA Image.red
  simp only [Nat.add_assoc]

theorem blank_iff (img : Image) (i : UChar) :
    img.blank i = true ↔
      ∀ x y, x < img.cellWidth → y < img.cellHeight →
        img.red (x + (i.val % 16) * img.cellWidth) (y + (i.val / 16) * img.cellHeight) = 0 := by
  unfold Image.blank
  rw [allTransparent_iff, forall_pixel_iff]
  constructor
  · intro h x y hx hy
    have := h x y hx hy
    rw [cell_apply img i x y hx hy] at this
    exact this
  · intro h x y hx hy
    rw [cell_apply img i x y hx hy]
    exact h x y hx hy

/-- C17: for every atlas, with `W` and `H` a sixteenth of its width and height, and every
code point `i`, pixel `(x, y)` of the cell of `i` is atlas pixel
`(x + (i mod 16) * W, y + (i div 16) * H)` recoloured to white `(255, 255, 255)` with alpha
equal to that atlas pixel's red channel; the cell is flagged blank exactly when every
atlas pixel of the block has red channel `0`, and it gets no sprite exactly when it is
blank, a non-blank cell getting the sprite made from its buffer. -/
theorem construct_cell_slicing (mem : Font) (img : Image) (cs sw : Int) (fw : Bool)
    (sf : ℚ) (fcw : Int) (i : UChar) :
    (∀ x y, x < img.cellWidth → y < img.cellHeight →
        img.cell i (y * img.cellWidth + x) =
          ⟨255, 255, 255,
            img.red (x + (i.val % 16) * img.cellWidth)
              (y + (i.val / 16) * img.cellHeight)⟩) ∧
      (img.blank i = true ↔
        ∀ x y, x < img.cellWidth → y < img.cellHeight →
          img.red (x + (i.val % 16) * img.cellWidth) (y + (i.val / 16) * img.cellHeight) =
            0) ∧
      ((Font.construct mem (some img) cs sw fw sf fcw).mSpriteMap i = none ↔
        img.blank i = true) ∧
      (img.blank i = false →
        (Font.construct mem (some img) cs sw fw sf fcw).mSpriteMap i =
          some (fillSprite (img.cell i) img.cellWidth img.cellHeight)) := by
  refine ⟨fun x y hx hy => cell_apply img i x y hx hy, blank_iff img i, ?_, ?_⟩
  · rw [construct_mSpriteMap]
    cases img.blank i <;> simp
  · intro h
    rw [construct_mSpriteMap, h]
    rfl

theorem construct_cell_slicing_witness :
    glyphAtlas.cell 65 (0 * glyphAtlas.cellWidth + 0) =
        ⟨255, 255, 255,
          glyphAtlas.red (0 + ((65 : UChar).val % 16) * glyphAtlas.cellWidth)
            (0 + ((65 : UChar).val / 16) * glyphAtlas.cellHeight)⟩ ∧
      (Font.construct zeroMem (some glyphAtlas) 2 8 false 16 0).mSpriteMap 65 =
        some (fillSprite (glyphAtlas.cell 65) glyphAtlas.cellWidth glyphAtlas.cellHeight) :=
  ⟨(construct_cell_slicing zeroMem glyphAtlas 2 8 false 16 0 65).1 0 0 (by decide)
      (by decide),
    (construct_cell_slicing zeroMem glyphAtlas 2 8 false 16 0 65).2.2.2 (by decide)⟩

/-! ## C15: the ink box found by the pseudo-kerning scan -/

/-- One pixel of the scan: the summary extends from `D` to `D` with `(x, y)` added. -/
theorem scanInv_step (cell : Nat → rgbaColor) (W : Nat) (D : Nat → Nat → Prop)
    (st : InkScan) (x y : Nat) (hx : x < W) (h : scanInv cell W D st) :
    scanInv cell W (fun x1 y1 => D x1 y1 ∨ (x1 = x ∧ y1 = y))
      (if (cell (y * W + x)).a > inkA then
        (if (x : Int) >
            (if (x : Int) < st.farthestLeft then
              ({ farthestLeft := x, farthestRight := st.farthestRight, someInk := true } :
                InkScan)
              else { farthestLeft := st.farthestLeft, farthestRight := st.farthestRight,
                     someInk := true }).farthestRight then
          { (if (x : Int) < st.farthestLeft then
              ({ farthestLeft := x, farthestRight := st.farthestRight, someInk := true } :
                InkScan)
              else { farthestLeft := st.farthestLeft, farthestRight := st.farthestRight,
                     someInk := true }) with farthestRight := x }
        else
          (if (x : Int) < st.farthestLeft then
              ({ farthestLeft := x, farthestRight := st.farthestRight, someInk := true } :
                InkScan)
              else { farthestLeft := st.farthestLeft, farthestRight := st.farthestRight,
                     someInk := true }))
      else st) := by
  have hxW : (x : Int) < W := by exact_mod_cast hx
  have hx0 : (0 : Int) ≤ x := Int.natCast_nonneg x
  by_cases ha : (cell (y * W + x)).a > inkA
  · have hink : inkAt cell W x y := ha
    rw [if_pos ha]
    right
    rcases h with ⟨_, hl, hr, hno⟩ | ⟨_, ⟨xl, yl, hDl, hil, hel⟩, ⟨xr, yr, hDr, hir, her⟩, hall⟩
    · have h1 : (x : Int) < st.farthestLeft := by omega
      simp only [h1, if_true]
      have hfr : (if (x : Int) > st.farthestRight then
          ({ farthestLeft := x, farthestRight := x, someInk := true } : InkScan)
          else { farthestLeft := x, farthestRight := st.farthestRight, someInk := true })
          = { farthestLeft := x, farthestRight := x, someInk := true } := by
        split_ifs with h2
        · rfl
        · have : (x : Int) = st.farthestRight := by omega
          rw [← this]
      rw [hfr]
      refine ⟨rfl, ⟨x, y, Or.inr ⟨rfl, rfl⟩, hink, rfl⟩, ⟨x, y, Or.inr ⟨rfl, rfl⟩, hink, rfl⟩, ?_⟩
      intro x1 y1 hD hi
      rcases hD with hD | ⟨rfl, rfl⟩
      · exact absurd hi (hno x1 y1 hD)
      · exact ⟨le_refl _, le_refl _⟩
    · have hlr := hall xl yl hDl hil
      split_ifs with h1 h2 h2
      · refine ⟨rfl, ⟨x, y, Or.inr ⟨rfl, rfl⟩, hink, rfl⟩, ⟨x, y, Or.inr ⟨rfl, rfl⟩, hink, rfl⟩,
          ?_⟩
        intro x1 y1 hD hi
        dsimp only at h2 ⊢
        rcases hD with hD | ⟨rfl, rfl⟩
        · have := hall x1 y1 hD hi
          omega
        · omega
      · refine ⟨rfl, ⟨x, y, Or.inr ⟨rfl, rfl⟩, hink, rfl⟩, ⟨xr, yr, Or.inl hDr, hir, her⟩, ?_⟩
        intro x1 y1 hD hi
        dsimp only at h2 ⊢
        rcases hD with hD | ⟨rfl, rfl⟩
        · have := hall x1 y1 hD hi
          omega
        · omega
      · refine ⟨rfl, ⟨xl, yl, Or.inl hDl, hil, hel⟩, ⟨x, y, Or.inr ⟨rfl, rfl⟩, hink, rfl⟩, ?_⟩
        intro x1 y1 hD hi
        dsimp only at h2 ⊢
        rcases hD with hD | ⟨rfl, rfl⟩
        · have := hall x1 y1 hD hi
          omega
        · omega
      · refine ⟨rfl, ⟨xl, yl, Or.inl hDl, hil, hel⟩, ⟨xr, yr, Or.inl hDr, hir, her⟩, ?_⟩
        intro x1 y1 hD hi
        dsimp only at h2 ⊢
        rcases hD with hD | ⟨rfl, rfl⟩
        · have := hall x1 y1 hD hi
          omega
        · omega
  · have hnink : ¬ inkAt cell W x y := ha
    rw [if_neg ha]
    rcases h with ⟨hs, hl, hr, hno⟩ | ⟨hs, ⟨xl, yl, hDl, hil, hel⟩, ⟨xr, yr, hDr, hir, her⟩, hall⟩
    · left
      refine ⟨hs, hl, hr, ?_⟩
      intro x1 y1 hD
      rcases hD with hD | ⟨rfl, rfl⟩
      · exact hno x1 y1 hD
      · exact hnink
    · right
      refine ⟨hs, ⟨xl, yl, Or.inl hDl, hil, hel⟩, ⟨xr, yr, Or.inl hDr, hir, her⟩, ?_⟩
      intro x1 y1 hD hi
      rcases hD with hD | ⟨rfl, rfl⟩
      · exact hall x1 y1 hD hi
      · exact absurd hi hnink

theorem scanInv_congr (cell : Nat → rgbaColor) (W : Nat) (D D2 : Nat → Nat → Prop)
    (st : InkScan) (h : ∀ x y, D x y ↔ D2 x y) (hs : scanInv cell W D st) :
    scanInv cell W D2 st := by
  have e : D = D2 := funext fun x => funext fun y => propext (h x y)
  rw [← e]
  exact hs

/-- The finished scan summarises every pixel of the cell. -/
theorem scanInk_inv (cell : Nat → rgbaColor) (W H : Nat) :
    scanInv cell W (fun x y => x < W ∧ y < H) (scanInk cell W H) := by
  unfold scanInk
  refine foldl_range_invariant
    (fun (yy : Nat) (st : InkScan) => scanInv cell W (fun x y => x < W ∧ y < yy) st)
    _ _ H ?_ ?_
  · left
    refine ⟨rfl, rfl, rfl, ?_⟩
    intro x y hD
    exact absurd hD.2 (Nat.not_lt_zero y)
  · intro yy _ st hst
    dsimp only
    have inner := foldl_range_invariant
      (fun (xx : Nat) (s : InkScan) =>
        scanInv cell W (fun x y => (x < W ∧ y < yy) ∨ (x < xx ∧ y = yy)) s)
      (fun st x =>
        if (cell (yy * W + x)).a > inkA then
          (if (x : Int) >
              (if (x : Int) < st.farthestLeft then
                ({ farthestLeft := x, farthestRight := st.farthestRight, someInk := true } :
                  InkScan)
                else { farthestLeft := st.farthestLeft, farthestRight := st.farthestRight,
                       someInk := true }).farthestRight then
            { (if (x : Int) < st.farthestLeft then
                ({ farthestLeft := x, farthestRight := st.farthestRight, someInk := true } :
                  InkScan)
                else { farthestLeft := st.farthestLeft, farthestRight := st.farthestRight,
                       someInk := true }) with farthestRight := x }
          else
            (if (x : Int) < st.farthestLeft then
                ({ farthestLeft := x, farthestRight := st.farthestRight, someInk := true } :
                  InkScan)
                else { farthestLeft := st.farthestLeft, farthestRight := st.farthestRight,
                       someInk := true }))
        else st)
      st W ?_ ?_
    · refine scanInv_congr cell W _ _ _ ?_ inner
      intro x y
      constructor <;> intro h <;> omega
    · refine scanInv_congr cell W _ _ _ ?_ hst
      intro x y
      constructor <;> intro h <;> omega
    · intro xx hxx s hs
      refine scanInv_congr cell W _ _ _ ?_ (scanInv_step cell W _ s xx yy hxx hs)
      intro x y
      constructor <;> intro h <;> omega

/-- The metrics of a proportional cell that holds ink: the two extremes of the scan. -/
theorem cellMetrics_ink (bw : Int) (cell : Nat → rgbaColor) (W H : Nat)
    (hink : ∃ x y, x < W ∧ y < H ∧ inkAt cell W x y) :
    (cellMetrics false (allTransparent cell (W * H)) bw cell W H).1 =
        (scanInk cell W H).farthestLeft ∧
      (cellMetrics false (allTransparent cell (W * H)) bw cell W H).2 =
        (scanInk cell W H).farthestRight - (scanInk cell W H).farthestLeft + 1 ∧
      (scanInk cell W H).someInk = true := by
  obtain ⟨x, y, hx, hy, hi⟩ := hink
  have hsome : (scanInk cell W H).someInk = true := by
    rcases scanInk_inv cell W H with ⟨_, _, _, hno⟩ | ⟨hs, _⟩
    · exact absurd hi (hno x y ⟨hx, hy⟩)
    · exact hs
  have hnb : allTransparent cell (W * H) = false := by
    cases hb : allTransparent cell (W * H) with
    | false => rfl
    | true =>
      have hz := (forall_pixel_iff W H (fun p => (cell p).a = 0)).mp
        ((allTransparent_iff cell (W * H)).mp hb) x y hx hy
      have hi2 : (cell (y * W + x)).a > inkA := hi
      rw [hz] at hi2
      exact absurd hi2 (by decide)
  simp [cellMetrics, hnb, hsome]

/-- The metrics of a proportional glyph with ink: the left edge offset is the least and
the right edge `leftEdgeOffset + width - 1` the greatest column that holds ink. -/
theorem metrics_ink (img : Image) (fcw : Int) (i : UChar)
    (hink : ∃ x y, x < img.cellWidth ∧ y < img.cellHeight ∧
      inkAt (img.cell i) img.cellWidth x y) :
    (∃ x y, x < img.cellWidth ∧ y < img.cellHeight ∧ inkAt (img.cell i) img.cellWidth x y ∧
        (x : Int) = (img.metrics false fcw i).1) ∧
      (∃ x y, x < img.cellWidth ∧ y < img.cellHeight ∧ inkAt (img.cell i) img.cellWidth x y ∧
        (x : Int) = (img.metrics false fcw i).1 + (img.metrics false fcw i).2 - 1) ∧
      ∀ x y, x < img.cellWidth → y < img.cellHeight → inkAt (img.cell i) img.cellWidth x y →
        (img.metrics false fcw i).1 ≤ (x : Int) ∧
          (x : Int) ≤ (img.metrics false fcw i).1 + (img.metrics false fcw i).2 - 1 := by
  obtain ⟨h1, h2, h3⟩ := cellMetrics_ink (img.blockWidth fcw) (img.cell i) img.cellWidth
    img.cellHeight hink
  have e1 : (img.metrics false fcw i).1 =
      (scanInk (img.cell i) img.cellWidth img.cellHeight).farthestLeft := h1
  have e2 : (img.metrics false fcw i).2 =
      (scanInk (img.cell i) img.cellWidth img.cellHeight).farthestRight -
        (scanInk (img.cell i) img.cellWidth img.cellHeight).farthestLeft + 1 := h2
  rcases scanInk_inv (img.cell i) img.cellWidth img.cellHeight with
    ⟨hs, _⟩ | ⟨_, ⟨xl, yl, hDl, hil, hel⟩, ⟨xr, yr, hDr, hir, her⟩, hall⟩
  · rw [h3] at hs
    exact absurd hs (by decide)
  · refine ⟨⟨xl, yl, hDl.1, hDl.2, hil, ?_⟩, ⟨xr, yr, hDr.1, hDr.2, hir, ?_⟩, ?_⟩
    · rw [e1]
      exact hel
    · rw [e1, e2]
      omega
    · intro x y hx hy hi
      have := hall x y ⟨hx, hy⟩ hi
      rw [e1, e2]
      omega

/-- C15: in proportional mode, for every cell with at least one pixel of alpha above the
ink level (such a cell is not blank), `leftEdgeOffset` is the smallest and
`leftEdgeOffset + width - 1` the largest column holding such a pixel, over all rows, so
that `width = maxX - minX + 1`; and the two values depend on the cell only through which
pixels have alpha above the ink level. -/
theorem construct_ink_metrics (mem : Font) (img : Image) (cs sw : Int) (sf : ℚ) (fcw : Int)
    (i : UChar)
    (hink : ∃ x y, x < img.cellWidth ∧ y < img.cellHeight ∧
      inkAt (img.cell i) img.cellWidth x y) :
    img.blank i = false ∧
      (∃ x y, x < img.cellWidth ∧ y < img.cellHeight ∧ inkAt (img.cell i) img.cellWidth x y ∧
        (x : Int) = (Font.construct mem (some img) cs sw false sf fcw).mCharLeftEdgeOffset i) ∧
      (∃ x y, x < img.cellWidth ∧ y < img.cellHeight ∧ inkAt (img.cell i) img.cellWidth x y ∧
        (x : Int) = (Font.construct mem (some img) cs sw false sf fcw).mCharLeftEdgeOffset i +
          (Font.construct mem (some img) cs sw false sf fcw).mCharWidth i - 1) ∧
      (∀ x y, x < img.cellWidth → y < img.cellHeight → inkAt (img.cell i) img.cellWidth x y →
        (Font.construct mem (some img) cs sw false sf fcw).mCharLeftEdgeOffset i ≤ (x : Int) ∧
          (x : Int) ≤ (Font.construct mem (some img) cs sw false sf fcw).mCharLeftEdgeOffset i +
            (Font.construct mem (some img) cs sw false sf fcw).mCharWidth i - 1) ∧
      (∀ (mem2 : Font) (img2 : Image) (cs2 sw2 : Int) (sf2 : ℚ) (fcw2 : Int),
        img2.cellWidth = img.cellWidth → img2.cellHeight = img.cellHeight →
        (∀ x y, x < img.cellWidth → y < img.cellHeight →
          (inkAt (img2.cell i) img.cellWidth x y ↔ inkAt (img.cell i) img.cellWidth x y)) →
        (Font.construct mem2 (some img2) cs2 sw2 false sf2 fcw2).mCharLeftEdgeOffset i =
            (Font.construct mem (some img) cs sw false sf fcw).mCharLeftEdgeOffset i ∧
          (Font.construct mem2 (some img2) cs2 sw2 false sf2 fcw2).mCharWidth i =
            (Font.construct mem (some img) cs sw false sf fcw).mCharWidth i) := by
  simp only [construct_mCharLeftEdgeOffset, construct_mCharWidth]
  obtain ⟨⟨xl, yl, hxl, hyl, hil, hel⟩, ⟨xr, yr, hxr, hyr, hir, her⟩, hall⟩ :=
    metrics_ink img fcw i hink
  have hnb : img.blank i = false := by
    obtain ⟨x, y, hx, hy, hi⟩ := hink
    cases hb : img.blank i with
    | false => rfl
    | true =>
      have hz := (forall_pixel_iff img.cellWidth img.cellHeight
        (fun p => (img.cell i p).a = 0)).mp
        ((allTransparent_iff (img.cell i) (img.cellWidth * img.cellHeight)).mp hb) x y hx hy
      have hi2 : (img.cell i (y * img.cellWidth + x)).a > inkA := hi
      rw [hz] at hi2
      exact absurd hi2 (by decide)
  refine ⟨hnb, ⟨xl, yl, hxl, hyl, hil, hel⟩, ⟨xr, yr, hxr, hyr, hir, her⟩, hall, ?_⟩
  intro mem2 img2 cs2 sw2 sf2 fcw2 hW hH hsame
  have hink2 : ∃ x y, x < img2.cellWidth ∧ y < img2.cellHeight ∧
      inkAt (img2.cell i) img2.cellWidth x y := by
    rw [hW, hH]
    exact ⟨xl, yl, hxl, hyl, (hsame xl yl hxl hyl).mpr hil⟩
  obtain ⟨⟨xl2, yl2, hxl2, hyl2, hil2, hel2⟩, ⟨xr2, yr2, hxr2, hyr2, hir2, her2⟩, hall2⟩ :=
    metrics_ink img2 fcw2 i hink2
  simp only [hW, hH] at hxl2 hyl2 hil2 hxr2 hyr2 hir2 hall2
  have a1 := hall xl2 yl2 hxl2 hyl2 ((hsame xl2 yl2 hxl2 hyl2).mp hil2)
  have a2 := hall xr2 yr2 hxr2 hyr2 ((hsame xr2 yr2 hxr2 hyr2).mp hir2)
  have b1 := hall2 xl yl hxl hyl ((hsame xl yl hxl hyl).mpr hil)
  have b2 := hall2 xr yr hxr hyr ((hsame xr yr hxr hyr).mpr hir)
  constructor <;> omega

theorem construct_ink_metrics_witness :
    glyphAtlas.blank 86 = false ∧
      ((Font.construct zeroMem (some glyphAtlas) 2 8 false 16 0).mCharLeftEdgeOffset 86 ≤
          ((3 : Nat) : Int) ∧
        ((3 : Nat) : Int) ≤
          (Font.construct zeroMem (some glyphAtlas) 2 8 false 16 0).mCharLeftEdgeOffset 86 +
            (Font.construct zeroMem (some glyphAtlas) 2 8 false 16 0).mCharWidth 86 - 1) :=
  ⟨(construct_ink_metrics zeroMem glyphAtlas 2 8 16 0 86
      ⟨3, 0, by decide, by decide, by decide⟩).1,
    (construct_ink_metrics zeroMem glyphAtlas 2 8 16 0 86
      ⟨3, 0, by decide, by decide, by decide⟩).2.2.2.1 3 0 (by decide) (by decide)
      (by decide)⟩

/-! ## C16: the row extremes -/

/-- The three successive updates of `leftExtreme` at column `x` amount to one: the column
is taken when it lies left of the current value and counts toward the left extreme. -/
theorem leftExtreme_update (cell : Nat → rgbaColor) (W H x y : Nat) (le : Int) :
    (if (y : Int) < (H : Int) - 1 ∧
          (x : Int) <
            (if y > 0 ∧
                (x : Int) < (if (x : Int) < le ∧ (cell (y * W + x)).a > inkA then (x : Int)
                  else le) then
              (if (cell ((y - 1) * W + x)).a > inkA then (x : Int)
                else (if (x : Int) < le ∧ (cell (y * W + x)).a > inkA then (x : Int) else le))
            else (if (x : Int) < le ∧ (cell (y * W + x)).a > inkA then (x : Int) else le)) then
        (if (cell ((y + 1) * W + x)).a > inkA then (x : Int)
          else
            (if y > 0 ∧
                (x : Int) < (if (x : Int) < le ∧ (cell (y * W + x)).a > inkA then (x : Int)
                  else le) then
              (if (cell ((y - 1) * W + x)).a > inkA then (x : Int)
                else (if (x : Int) < le ∧ (cell (y * W + x)).a > inkA then (x : Int) else le))
            else (if (x : Int) < le ∧ (cell (y * W + x)).a > inkA then (x : Int) else le)))
      else
        (if y > 0 ∧
            (x : Int) < (if (x : Int) < le ∧ (cell (y * W + x)).a > inkA then (x : Int)
              else le) then
          (if (cell ((y - 1) * W + x)).a > inkA then (x : Int)
            else (if (x : Int) < le ∧ (cell (y * W + x)).a > inkA then (x : Int) else le))
        else (if (x : Int) < le ∧ (cell (y * W + x)).a > inkA then (x : Int) else le))) =
      if (x : Int) < le ∧ nearInk cell W H x y then (x : Int) else le := by
  have hH : ((y : Int) < (H : Int) - 1) ↔ y + 1 < H := by omega
  unfold nearInk inkAt
  simp only [hH]
  by_cases h0 : (x : Int) < le <;> by_cases i0 : (cell (y * W + x)).a > inkA <;>
    by_cases hy : y > 0 <;> by_cases i1 : (cell ((y - 1) * W + x)).a > inkA <;>
    by_cases hy2 : y + 1 < H <;> by_cases i2 : (cell ((y + 1) * W + x)).a > inkA <;>
    simp [h0, i0, hy, i1, hy2, i2]

/-- What the row loop leaves in `rightExtreme` and `leftExtreme`: the last ink column of
the row (or `0`), and the first column counting toward the left extreme (or the cell
width). -/
theorem rowExtremes_spec (cell : Nat → rgbaColor) (W H y : Nat) :
    (((∀ x, x < W → ¬ inkAt cell W x y) ∧ (rowExtremes cell W H y).1 = 0) ∨
        (∃ r : Nat, (r : Int) = (rowExtremes cell W H y).1 ∧ r < W ∧ inkAt cell W r y ∧
          ∀ x, x < W → inkAt cell W x y → x ≤ r)) ∧
      (((rowExtremes cell W H y).2 = (W : Int) ∧ ∀ x, x < W → ¬ nearInk cell W H x y) ∨
        (∃ l : Nat, (l : Int) = (rowExtremes cell W H y).2 ∧ l < W ∧ nearInk cell W H l y ∧
          ∀ x, x < l → ¬ nearInk cell W H x y)) := by
  unfold rowExtremes
  refine foldl_range_invariant
    (fun (xx : Nat) (st : Int × Int) =>
      (((∀ x, x < xx → ¬ inkAt cell W x y) ∧ st.1 = 0) ∨
          (∃ r : Nat, (r : Int) = st.1 ∧ r < xx ∧ inkAt cell W r y ∧
            ∀ x, x < xx → inkAt cell W x y → x ≤ r)) ∧
        ((st.2 = (W : Int) ∧ ∀ x, x < xx → ¬ nearInk cell W H x y) ∨
          (∃ l : Nat, (l : Int) = st.2 ∧ l < xx ∧ nearInk cell W H l y ∧
            ∀ x, x < l → ¬ nearInk cell W H x y)))
    _ _ W ?_ ?_
  · exact ⟨Or.inl ⟨fun x h => absurd h (Nat.not_lt_zero x), rfl⟩,
      Or.inl ⟨rfl, fun x h => absurd h (Nat.not_lt_zero x)⟩⟩
  · intro k hk st hst
    obtain ⟨hR, hL⟩ := hst
    have hkW : (k : Int) < W := by exact_mod_cast hk
    dsimp only
    rw [leftExtreme_update cell W H k y st.2]
    constructor
    · by_cases hi : (cell (y * W + k)).a > inkA
      · rw [if_pos hi]
        right
        refine ⟨k, rfl, Nat.lt_succ_self k, hi, ?_⟩
        intro x hx _
        exact Nat.lt_succ_iff.mp hx
      · rw [if_neg hi]
        rcases hR with ⟨hno, h0⟩ | ⟨r, hr, hrk, hir, hmax⟩
        · left
          refine ⟨?_, h0⟩
          intro x hx
          rcases Nat.lt_succ_iff_lt_or_eq.mp hx with h | h
          · exact hno x h
          · rw [h]
            exact hi
        · right
          refine ⟨r, hr, Nat.lt_succ_of_lt hrk, hir, ?_⟩
          intro x hx hix
          rcases Nat.lt_succ_iff_lt_or_eq.mp hx with h | h
          · exact hmax x h hix
          · rw [h] at hix
            exact absurd hix hi
    · rcases hL with ⟨hW, hno⟩ | ⟨l, hl, hlk, hnl, hmin⟩
      · by_cases hn : nearInk cell W H k y
        · have hc : (k : Int) < st.2 ∧ nearInk cell W H k y := ⟨by omega, hn⟩
          rw [if_pos hc]
          right
          exact ⟨k, rfl, Nat.lt_succ_self k, hn, hno⟩
        · have hc : ¬ ((k : Int) < st.2 ∧ nearInk cell W H k y) := fun h => hn h.2
          rw [if_neg hc]
          left
          refine ⟨hW, ?_⟩
          intro x hx
          rcases Nat.lt_succ_iff_lt_or_eq.mp hx with h | h
          · exact hno x h
          · rw [h]
            exact hn
      · have hc : ¬ ((k : Int) < st.2 ∧ nearInk cell W H k y) := by
          intro h
          have := h.1
          omega
        rw [if_neg hc]
        right
        exact ⟨l, hl, Nat.lt_succ_of_lt hlk, hnl, hmin⟩

/-- C16: for every cell (so for each saved, non-blank one) and every pixel row `y`, the row
extremes pass leaves in `rightExtremes[y]` the largest column with ink at `(x, y)`, or `0`
when the row has no ink, and in `leftExtremes[y]` the smallest column `x` with ink at
`(x, y)`, at `(x, y - 1)` when `y > 0`, or at `(x, y + 1)` when `y < cellHeight - 1`, or
the cell width when there is no such column; these are the values the pairwise pass
reads. -/
theorem construct_row_extremes (mem : Font) (img : Image) (cs sw : Int) (fw : Bool)
    (sf : ℚ) (fcw : Int) (i j : UChar) (y : Nat) :
    (((∀ x, x < img.cellWidth → ¬ inkAt (img.cell i) img.cellWidth x y) ∧
          img.rightExtremes i y = 0) ∨
        (∃ r : Nat, (r : Int) = img.rightExtremes i y ∧ r < img.cellWidth ∧
          inkAt (img.cell i) img.cellWidth r y ∧
          ∀ x, x < img.cellWidth → inkAt (img.cell i) img.cellWidth x y → x ≤ r)) ∧
      ((img.leftExtremes i y = (img.cellWidth : Int) ∧
          ∀ x, x < img.cellWidth → ¬ nearInk (img.cell i) img.cellWidth img.cellHeight x y) ∨
        (∃ l : Nat, (l : Int) = img.leftExtremes i y ∧ l < img.cellWidth ∧
          nearInk (img.cell i) img.cellWidth img.cellHeight l y ∧
          ∀ x, x < l → ¬ nearInk (img.cell i) img.cellWidth img.cellHeight x y)) ∧
      (Font.construct mem (some img) cs sw fw sf fcw).kerningOffsetOf i j =
        (if fw = false ∧ img.blank i = false ∧ img.blank j = false then
          kerningOffset (img.rightExtremes i) (img.leftExtremes j) img.cellWidth
            img.cellHeight (img.metrics fw fcw j).1 (img.metrics fw fcw i).1
            (img.metrics fw fcw i).2
        else 0) := by
  obtain ⟨hR, hL⟩ := rowExtremes_spec (img.cell i) img.cellWidth img.cellHeight y
  exact ⟨hR, hL, construct_kerningOffsetOf mem img cs sw fw sf fcw i j⟩

/-! ## The pairwise pass without overflow -/

theorem blank_false_pos (img : Image) (i : UChar) (h : img.blank i = false) :
    0 < img.cellWidth ∧ 0 < img.cellHeight := by
  have hne : img.cellWidth * img.cellHeight ≠ 0 := by
    intro h0
    have ht : img.blank i = true := by
      unfold Image.blank
      rw [allTransparent_iff, h0]
      intro p hp
      exact absurd hp (Nat.not_lt_zero p)
    rw [h] at ht
    exact absurd ht (by decide)
  constructor
  · exact Nat.pos_of_ne_zero (fun h0 => hne (by rw [h0, Nat.zero_mul]))
  · exact Nat.pos_of_ne_zero (fun h0 => hne (by rw [h0, Nat.mul_zero]))

theorem rowExtremes_bounds (img : Image) (i : UChar) (y : Nat) (hW : 1 ≤ img.cellWidth) :
    0 ≤ img.rightExtremes i y ∧ img.rightExtremes i y ≤ (img.cellWidth : Int) - 1 ∧
      0 ≤ img.leftExtremes i y ∧ img.leftExtremes i y ≤ (img.cellWidth : Int) := by
  obtain ⟨hR, hL⟩ := rowExtremes_spec (img.cell i) img.cellWidth img.cellHeight y
  have hW1 : (1 : Int) ≤ (img.cellWidth : Int) := by exact_mod_cast hW
  unfold Image.rightExtremes Image.leftExtremes
  rcases hR with ⟨_, h0⟩ | ⟨r, hr, hrW, _, _⟩ <;>
    rcases hL with ⟨hl, _⟩ | ⟨l, hl, hlW, _, _⟩ <;> omega

theorem metrics_no_ink (img : Image) (fcw : Int) (i : UChar)
    (hno : ∀ x y, x < img.cellWidth → y < img.cellHeight →
      ¬ inkAt (img.cell i) img.cellWidth x y) :
    img.metrics false fcw i = (0, (img.cellWidth : Int)) := by
  have hsome : (scanInk (img.cell i) img.cellWidth img.cellHeight).someInk = false := by
    rcases scanInk_inv (img.cell i) img.cellWidth img.cellHeight with
      ⟨hs, _⟩ | ⟨_, ⟨x, y, hD, hi, _⟩, _⟩
    · exact hs
    · exact absurd hi (hno x y hD.1 hD.2)
  unfold Image.metrics cellMetrics
  cases img.blank i <;> simp [hsome]

/-- Every row's left extreme lies at or right of the glyph's left edge offset, and every
row's right extreme at or left of the glyph's right edge. -/
theorem extremes_within_box (img : Image) (fcw : Int) (i : UChar) (y : Nat)
    (hW : 1 ≤ img.cellWidth) (hy : y < img.cellHeight) :
    (img.metrics false fcw i).1 ≤ img.leftExtremes i y ∧
      img.rightExtremes i y ≤ (img.metrics false fcw i).1 + (img.metrics false fcw i).2 - 1 := by
  obtain ⟨hb0, hb1, hb2⟩ := cellMetrics_box (img.blank i) (img.blockWidth fcw) (img.cell i)
    img.cellWidth img.cellHeight hW
  have hb0' : 0 ≤ (img.metrics false fcw i).1 := hb0
  have hb1' : 1 ≤ (img.metrics false fcw i).2 := hb1
  have hb2' : (img.metrics false fcw i).1 + (img.metrics false fcw i).2 ≤
      (img.cellWidth : Int) := hb2
  obtain ⟨hR, hL⟩ := rowExtremes_spec (img.cell i) img.cellWidth img.cellHeight y
  have hR' : ((∀ x, x < img.cellWidth → ¬ inkAt (img.cell i) img.cellWidth x y) ∧
        img.rightExtremes i y = 0) ∨
      (∃ r : Nat, (r : Int) = img.rightExtremes i y ∧ r < img.cellWidth ∧
        inkAt (img.cell i) img.cellWidth r y ∧
        ∀ x, x < img.cellWidth → inkAt (img.cell i) img.cellWidth x y → x ≤ r) := hR
  have hL' : (img.leftExtremes i y = (img.cellWidth : Int) ∧
        ∀ x, x < img.cellWidth → ¬ nearInk (img.cell i) img.cellWidth img.cellHeight x y) ∨
      (∃ l : Nat, (l : Int) = img.leftExtremes i y ∧ l < img.cellWidth ∧
        nearInk (img.cell i) img.cellWidth img.cellHeight l y ∧
        ∀ x, x < l → ¬ nearInk (img.cell i) img.cellWidth img.cellHeight x y) := hL
  constructor
  · rcases hL' with ⟨hl, _⟩ | ⟨l, hl, hlW, hnear, _⟩
    · omega
    · have hex : ∃ y1, y1 < img.cellHeight ∧ inkAt (img.cell i) img.cellWidth l y1 := by
        rcases hnear with h | ⟨hy0, h⟩ | ⟨hy1, h⟩
        · exact ⟨y, hy, h⟩
        · exact ⟨y - 1, by omega, h⟩
        · exact ⟨y + 1, hy1, h⟩
      obtain ⟨y1, hy1, hi⟩ := hex
      have := (metrics_ink img fcw i ⟨l, y1, hlW, hy1, hi⟩).2.2 l y1 hlW hy1 hi
      omega
  · rcases hR' with ⟨_, h0⟩ | ⟨r, hr, hrW, hi, _⟩
    · omega
    · have := (metrics_ink img fcw i ⟨r, y, hrW, hy, hi⟩).2.2 r y hrW hy hi
      omega

/-- Without 16-bit overflow and with at least one row, the `short minDistance` of the
pairwise pass is the least row distance less the two pseudo-kerning gaps. -/
theorem kerningMinDistance_eq (re le : Nat → Int) (W H : Nat) (leoJ leoI widthI : Int)
    (hov : 2 * W ≤ 32767) (hH : 0 < H)
    (hrow : ∀ y, y < H → 0 ≤ ((W : Int) - re y - 1) + le y ∧
      ((W : Int) - re y - 1) + le y < 2 * (W : Int))
    (hJ : 0 ≤ leoJ ∧ leoJ ≤ (W : Int))
    (hgap : 0 ≤ (W : Int) - (leoI + widthI) ∧ (W : Int) - (leoI + widthI) ≤ (W : Int)) :
    ∃ m : Int, (∃ y, y < H ∧ ((W : Int) - re y - 1) + le y = m) ∧
      (∀ y, y < H → m ≤ ((W : Int) - re y - 1) + le y) ∧
      kerningMinDistance re le W H leoJ leoI widthI =
        m - leoJ - ((W : Int) - (leoI + widthI)) := by
  have hov' : 2 * (W : Int) ≤ 32767 := by exact_mod_cast hov
  have hW0 : (0 : Int) ≤ (W : Int) := Int.natCast_nonneg W
  have key := foldl_range_invariant
    (fun (k : Nat) (md : Int) =>
      0 ≤ md ∧ md ≤ 2 * (W : Int) ∧
        ((k = 0 ∧ md = 2 * (W : Int)) ∨
          ((∃ y, y < k ∧ ((W : Int) - re y - 1) + le y = md) ∧
            ∀ y, y < k → md ≤ ((W : Int) - re y - 1) + le y)))
    (fun minDistance y =>
      if ((W : Int) - re y - 1) + le y < minDistance then
        toShort (((W : Int) - re y - 1) + le y)
      else minDistance)
    (toShort (2 * (W : Int))) H ?_ ?_
  · obtain ⟨hm0, hm1, hm2⟩ := key
    rcases hm2 with ⟨h0, _⟩ | ⟨hex, hall⟩
    · omega
    · refine ⟨_, hex, hall, ?_⟩
      simp only [kerningMinDistance]
      rw [toShort_of_range (List.foldl _ _ _ - leoJ) (by omega) (by omega),
        toShort_of_range _ (by omega) (by omega)]
  · rw [toShort_of_range _ (by omega) (by omega)]
    exact ⟨by omega, le_refl _, Or.inl ⟨rfl, rfl⟩⟩
  · intro k hk md hmd
    obtain ⟨hm0, hm1, hm2⟩ := hmd
    obtain ⟨hr0, hr1⟩ := hrow k hk
    dsimp only
    split_ifs with hlt
    · rw [toShort_of_range _ (by omega) (by omega)]
      refine ⟨hr0, by omega, Or.inr ⟨⟨k, Nat.lt_succ_self k, rfl⟩, ?_⟩⟩
      intro y hy
      rcases Nat.lt_succ_iff_lt_or_eq.mp hy with h | h
      · rcases hm2 with ⟨h0, _⟩ | ⟨_, hall⟩
        · omega
        · have := hall y h
          omega
      · rw [h]
    · refine ⟨hm0, hm1, Or.inr ?_⟩
      rcases hm2 with ⟨h0, hmd⟩ | ⟨⟨y0, hy0, he⟩, hall⟩
      · omega
      · refine ⟨⟨y0, Nat.lt_succ_of_lt hy0, he⟩, ?_⟩
        intro y hy
        rcases Nat.lt_succ_iff_lt_or_eq.mp hy with h | h
        · exact hall y h
        · rw [h]
          omega

/-- The hypotheses of `kerningMinDistance_eq` hold for every pair of saved cells of a
proportional font. -/
theorem kerning_pair_bounds (img : Image) (fcw : Int) (i j : UChar)
    (hi : img.blank i = false) :
    0 < img.cellHeight ∧ 1 ≤ img.cellWidth ∧
      (∀ y, y < img.cellHeight →
        0 ≤ ((img.cellWidth : Int) - img.rightExtremes i y - 1) + img.leftExtremes j y ∧
          ((img.cellWidth : Int) - img.rightExtremes i y - 1) + img.leftExtremes j y <
            2 * (img.cellWidth : Int)) ∧
      (0 ≤ (img.metrics false fcw j).1 ∧ (img.metrics false fcw j).1 ≤ (img.cellWidth : Int)) ∧
      (0 ≤ (img.cellWidth : Int) - ((img.metrics false fcw i).1 + (img.metrics false fcw i).2) ∧
        (img.cellWidth : Int) - ((img.metrics false fcw i).1 + (img.metrics false fcw i).2) ≤
          (img.cellWidth : Int)) ∧
      1 ≤ (img.metrics false fcw i).2 := by
  obtain ⟨hW, hH⟩ := blank_false_pos img i hi
  obtain ⟨i0, i1, i2⟩ := cellMetrics_box (img.blank i) (img.blockWidth fcw) (img.cell i)
    img.cellWidth img.cellHeight hW
  obtain ⟨j0, j1, j2⟩ := cellMetrics_box (img.blank j) (img.blockWidth fcw) (img.cell j)
    img.cellWidth img.cellHeight hW
  have i0' : 0 ≤ (img.metrics false fcw i).1 := i0
  have i1' : 1 ≤ (img.metrics false fcw i).2 := i1
  have i2' : (img.metrics false fcw i).1 + (img.metrics false fcw i).2 ≤
      (img.cellWidth : Int) := i2
  have j0' : 0 ≤ (img.metrics false fcw j).1 := j0
  have j1' : 1 ≤ (img.metrics false fcw j).2 := j1
  have j2' : (img.metrics false fcw j).1 + (img.metrics false fcw j).2 ≤
      (img.cellWidth : Int) := j2
  refine ⟨hH, hW, ?_, ⟨j0', by omega⟩, ⟨by omega, by omega⟩, i1'⟩
  intro y _
  have bi := rowExtremes_bounds img i y hW
  have bj := rowExtremes_bounds img j y hW
  omega

/-! ## C14: the kerning offset of a pair -/

/-- For a pair of saved cells and without overflow, the value computed for the table is
`-d` when `0 < d < width[i]` and `0` otherwise, `d` being the least row distance less the
two pseudo-kerning gaps. -/
theorem kerningOffset_saved_pair (img : Image) (fcw : Int) (i j : UChar)
    (hov : 2 * img.cellWidth ≤ 32767) (hi : img.blank i = false) :
    ∃ m : Int,
      (∃ y, y < img.cellHeight ∧
        ((img.cellWidth : Int) - img.rightExtremes i y - 1) + img.leftExtremes j y = m) ∧
      (∀ y, y < img.cellHeight →
        m ≤ ((img.cellWidth : Int) - img.rightExtremes i y - 1) + img.leftExtremes j y) ∧
      kerningOffset (img.rightExtremes i) (img.leftExtremes j) img.cellWidth img.cellHeight
          (img.metrics false fcw j).1 (img.metrics false fcw i).1 (img.metrics false fcw i).2 =
        (if 0 < m - (img.metrics false fcw j).1 -
              ((img.cellWidth : Int) -
                ((img.metrics false fcw i).1 + (img.metrics false fcw i).2)) ∧
            m - (img.metrics false fcw j).1 -
              ((img.cellWidth : Int) -
                ((img.metrics false fcw i).1 + (img.metrics false fcw i).2)) <
              (img.metrics false fcw i).2 then
          -(m - (img.metrics false fcw j).1 -
              ((img.cellWidth : Int) -
                ((img.metrics false fcw i).1 + (img.metrics false fcw i).2)))
        else 0) := by
  obtain ⟨hH, hW, hrow, hJ, hgap, hw1⟩ := kerning_pair_bounds img fcw i j hi
  obtain ⟨m, hex, hall, hmd⟩ := kerningMinDistance_eq (img.rightExtremes i)
    (img.leftExtremes j) img.cellWidth img.cellHeight (img.metrics false fcw j).1
    (img.metrics false fcw i).1 (img.metrics false fcw i).2 hov hH hrow hJ hgap
  refine ⟨m, hex, hall, ?_⟩
  have hov' : 2 * (img.cellWidth : Int) ≤ 32767 := by exact_mod_cast hov
  have hleo : 0 ≤ (img.metrics false fcw i).1 :=
    (cellMetrics_box (img.blank i) (img.blockWidth fcw) (img.cell i) img.cellWidth
      img.cellHeight hW).1
  unfold kerningOffset
  dsimp only
  rw [hmd]
  split_ifs with hc
  · exact toShort_of_range _ (by omega) (by omega)
  · rfl

/-- C14: in proportional mode, with no 16-bit overflow (`2 * cellWidth ≤ 32767`), the
kerning offset of every ordered pair `(i, j)` is `0` if glyph `i` or glyph `j` is blank;
otherwise, with `m` the least over all pixel rows `y` of
`(cellWidth - rightExtreme_i(y) - 1) + leftExtreme_j(y)` and
`d = m - leftEdgeOffset[j] - (cellWidth - (leftEdgeOffset[i] + width[i]))`, it is `-d` if
`0 < d < width[i]` and `0` otherwise. -/
theorem construct_kerning_formula (mem : Font) (img : Image) (cs sw : Int) (sf : ℚ)
    (fcw : Int) (i j : UChar) (hov : 2 * img.cellWidth ≤ 32767) :
    ((img.blank i = true ∨ img.blank j = true) →
        (Font.construct mem (some img) cs sw false sf fcw).kerningOffsetOf i j = 0) ∧
      (img.blank i = false → img.blank j = false →
        ∃ m : Int,
          (∃ y, y < img.cellHeight ∧
            ((img.cellWidth : Int) - img.rightExtremes i y - 1) + img.leftExtremes j y = m) ∧
          (∀ y, y < img.cellHeight →
            m ≤ ((img.cellWidth : Int) - img.rightExtremes i y - 1) + img.leftExtremes j y) ∧
          (Font.construct mem (some img) cs sw false sf fcw).kerningOffsetOf i j =
            (if 0 < m - (Font.construct mem (some img) cs sw false sf fcw).mCharLeftEdgeOffset j -
                  ((img.cellWidth : Int) -
                    ((Font.construct mem (some img) cs sw false sf fcw).mCharLeftEdgeOffset i +
                      (Font.construct mem (some img) cs sw false sf fcw).mCharWidth i)) ∧
                m - (Font.construct mem (some img) cs sw false sf fcw).mCharLeftEdgeOffset j -
                  ((img.cellWidth : Int) -
                    ((Font.construct mem (some img) cs sw false sf fcw).mCharLeftEdgeOffset i +
                      (Font.construct mem (some img) cs sw false sf fcw).mCharWidth i)) <
                  (Font.construct mem (some img) cs sw false sf fcw).mCharWidth i then
              -(m - (Font.construct mem (some img) cs sw false sf fcw).mCharLeftEdgeOffset j -
                  ((img.cellWidth : Int) -
                    ((Font.construct mem (some img) cs sw false sf fcw).mCharLeftEdgeOffset i +
                      (Font.construct mem (some img) cs sw false sf fcw).mCharWidth i)))
            else 0)) := by
  simp only [construct_mCharLeftEdgeOffset, construct_mCharWidth, construct_kerningOffsetOf]
  constructor
  · intro h
    rcases h with h | h <;> simp [h]
  · intro hi hj
    obtain ⟨m, hex, hall, hoff⟩ := kerningOffset_saved_pair img fcw i j hov hi
    refine ⟨m, hex, hall, ?_⟩
    rw [if_pos ⟨trivial, hi, hj⟩]
    exact hoff

theorem construct_kerning_formula_witness :
    2 * glyphAtlas.cellWidth ≤ 32767 ∧ glyphAtlas.blank 65 = false ∧
      glyphAtlas.blank 86 = false ∧
      (∃ m : Int,
        (∃ y, y < glyphAtlas.cellHeight ∧
          ((glyphAtlas.cellWidth : Int) - glyphAtlas.rightExtremes 65 y - 1) +
            glyphAtlas.leftExtremes 86 y = m) ∧
        (∀ y, y < glyphAtlas.cellHeight →
          m ≤ ((glyphAtlas.cellWidth : Int) - glyphAtlas.rightExtremes 65 y - 1) +
            glyphAtlas.leftExtremes 86 y) ∧
        (Font.construct zeroMem (some glyphAtlas) 2 8 false 16 0).kerningOffsetOf 65 86 =
          (if 0 < m - (Font.construct zeroMem (some glyphAtlas) 2 8 false 16 0).mCharLeftEdgeOffset 86 -
                ((glyphAtlas.cellWidth : Int) -
                  ((Font.construct zeroMem (some glyphAtlas) 2 8 false 16 0).mCharLeftEdgeOffset 65 +
                    (Font.construct zeroMem (some glyphAtlas) 2 8 false 16 0).mCharWidth 65)) ∧
              m - (Font.construct zeroMem (some glyphAtlas) 2 8 false 16 0).mCharLeftEdgeOffset 86 -
                ((glyphAtlas.cellWidth : Int) -
                  ((Font.construct zeroMem (some glyphAtlas) 2 8 false 16 0).mCharLeftEdgeOffset 65 +
                    (Font.construct zeroMem (some glyphAtlas) 2 8 false 16 0).mCharWidth 65)) <
                (Font.construct zeroMem (some glyphAtlas) 2 8 false 16 0).mCharWidth 65 then
            -(m - (Font.construct zeroMem (some glyphAtlas) 2 8 false 16 0).mCharLeftEdgeOffset 86 -
                ((glyphAtlas.cellWidth : Int) -
                  ((Font.construct zeroMem (some glyphAtlas) 2 8 false 16 0).mCharLeftEdgeOffset 65 +
                    (Font.construct zeroMem (some glyphAtlas) 2 8 false 16 0).mCharWidth 65)))
          else 0)) ∧
      (Font.construct zeroMem (some glyphAtlas) 2 8 false 16 0).kerningOffsetOf 65 86 = -3 ∧
      (Font.construct zeroMem (some glyphAtlas) 2 8 false 16 0).kerningOffsetOf 0 86 = 0 :=
  ⟨by decide, by decide, by decide,
    (construct_kerning_formula zeroMem glyphAtlas 2 8 16 0 65 86 (by decide)).2
      (by decide) (by decide),
    glyphAtlas_font.2.2.2.1,
    (construct_kerning_formula zeroMem glyphAtlas 2 8 16 0 0 86 (by decide)).1
      (Or.inl (by decide))⟩

/-! ## C18: the residual is never negative -/

theorem exists_min_row (g : Nat → Int) (H : Nat) (hH : 0 < H) :
    ∃ m : Int, (∃ y, y < H ∧ g y = m) ∧ ∀ y, y < H → m ≤ g y := by
  induction H with
  | zero => exact absurd hH (Nat.lt_irrefl 0)
  | succ n ih =>
    rcases Nat.eq_zero_or_pos n with h0 | hpos
    · subst h0
      refine ⟨g 0, ⟨0, Nat.lt_succ_self 0, rfl⟩, ?_⟩
      intro y hy
      have : y = 0 := by omega
      rw [this]
    · obtain ⟨m, ⟨y0, hy0, he⟩, hall⟩ := ih hpos
      by_cases hlt : g n < m
      · refine ⟨g n, ⟨n, Nat.lt_succ_self n, rfl⟩, ?_⟩
        intro y hy
        rcases Nat.lt_succ_iff_lt_or_eq.mp hy with h | h
        · have := hall y h
          omega
        · rw [h]
      · refine ⟨m, ⟨y0, Nat.lt_succ_of_lt hy0, he⟩, ?_⟩
        intro y hy
        rcases Nat.lt_succ_iff_lt_or_eq.mp hy with h | h
        · exact hall y h
        · rw [h]
          omega

/-- C18 (amended): in proportional mode, for every ordered pair of non-blank glyphs
`(i, j)`, the least row distance `m` exists and the residual
`d = m - leftEdgeOffset[j] - (cellWidth - (leftEdgeOffset[i] + width[i]))` is not
negative, as it is for the distance of every single row; the stored offset is never
positive; and when `2 * cellWidth` fits a 16-bit short (`cellWidth ≤ 16383`) the
`minDistance` that the guard `minDistance > 0` tests is this `d`, so the guard fails
exactly when `d = 0`. -/
theorem construct_kerning_residual_nonneg (mem : Font) (img : Image) (cs sw : Int) (sf : ℚ)
    (fcw : Int) (i j : UChar) (hi : img.blank i = false) (hj : img.blank j = false) :
    (∃ m : Int,
        (∃ y, y < img.cellHeight ∧
          ((img.cellWidth : Int) - img.rightExtremes i y - 1) + img.leftExtremes j y = m) ∧
        (∀ y, y < img.cellHeight →
          m ≤ ((img.cellWidth : Int) - img.rightExtremes i y - 1) + img.leftExtremes j y) ∧
        0 ≤ m - (Font.construct mem (some img) cs sw false sf fcw).mCharLeftEdgeOffset j -
          ((img.cellWidth : Int) -
            ((Font.construct mem (some img) cs sw false sf fcw).mCharLeftEdgeOffset i +
              (Font.construct mem (some img) cs sw false sf fcw).mCharWidth i))) ∧
      (∀ y, y < img.cellHeight →
        0 ≤ ((img.cellWidth : Int) - img.rightExtremes i y - 1) + img.leftExtremes j y -
          (Font.construct mem (some img) cs sw false sf fcw).mCharLeftEdgeOffset j -
          ((img.cellWidth : Int) -
            ((Font.construct mem (some img) cs sw false sf fcw).mCharLeftEdgeOffset i +
              (Font.construct mem (some img) cs sw false sf fcw).mCharWidth i))) ∧
      (Font.construct mem (some img) cs sw false sf fcw).kerningOffsetOf i j ≤ 0 ∧
      (2 * img.cellWidth ≤ 32767 →
        (∃ m : Int,
        (∃ y, y < img.cellHeight ∧
          ((img.cellWidth : Int) - img.rightExtremes i y - 1) + img.leftExtremes j y = m) ∧
        (∀ y, y < img.cellHeight →
          m ≤ ((img.cellWidth : Int) - img.rightExtremes i y - 1) +
            img.leftExtremes j y) ∧
        kerningMinDistance (img.rightExtremes i) (img.leftExtremes j)
            img.cellWidth img.cellHeight
            ((Font.construct mem (some img) cs sw false sf fcw).mCharLeftEdgeOffset j)
            ((Font.construct mem (some img) cs sw false sf fcw).mCharLeftEdgeOffset i)
            ((Font.construct mem (some img) cs sw false sf fcw).mCharWidth i) =
          m - (Font.construct mem (some img) cs sw false sf fcw).mCharLeftEdgeOffset j -
            ((img.cellWidth : Int) -
              ((Font.construct mem (some img) cs sw false sf fcw).mCharLeftEdgeOffset i +
                (Font.construct mem (some img) cs sw false sf fcw).mCharWidth i)) ∧
        (¬ 0 < kerningMinDistance (img.rightExtremes i) (img.leftExtremes j)
            img.cellWidth img.cellHeight
            ((Font.construct mem (some img) cs sw false sf fcw).mCharLeftEdgeOffset j)
            ((Font.construct mem (some img) cs sw false sf fcw).mCharLeftEdgeOffset i)
            ((Font.construct mem (some img) cs sw false sf fcw).mCharWidth i) ↔
          m - (Font.construct mem (some img) cs sw false sf fcw).mCharLeftEdgeOffset j -
            ((img.cellWidth : Int) -
              ((Font.construct mem (some img) cs sw false sf fcw).mCharLeftEdgeOffset i +
                (Font.construct mem (some img) cs sw false sf fcw).mCharWidth i)) = 0))) := by
  simp only [construct_mCharLeftEdgeOffset, construct_mCharWidth, construct_kerningOffsetOf]
  obtain ⟨hH, hW, hrow, hJ, hgap, hw1⟩ := kerning_pair_bounds img fcw i j hi
  have hrows : ∀ y, y < img.cellHeight →
      0 ≤ ((img.cellWidth : Int) - img.rightExtremes i y - 1) + img.leftExtremes j y -
        (img.metrics false fcw j).1 -
        ((img.cellWidth : Int) - ((img.metrics false fcw i).1 + (img.metrics false fcw i).2)) := by
    intro y hy
    have h1 := (extremes_within_box img fcw i y hW hy).2
    have h2 := (extremes_within_box img fcw j y hW hy).1
    omega
  refine ⟨?_, hrows, ?_, ?_⟩
  · obtain ⟨m, ⟨y0, hy0, he⟩, hall⟩ := exists_min_row
      (fun y => ((img.cellWidth : Int) - img.rightExtremes i y - 1) + img.leftExtremes j y)
      img.cellHeight hH
    refine ⟨m, ⟨y0, hy0, he⟩, hall, ?_⟩
    have := hrows y0 hy0
    omega
  · rw [if_pos ⟨trivial, hi, hj⟩]
    exact (kerningOffset_bound _ _ _ _ _ _ _ hw1).1
  · intro hov
    obtain ⟨m, ⟨y0, hy0, he⟩, hall, hmd⟩ := kerningMinDistance_eq (img.rightExtremes i)
      (img.leftExtremes j) img.cellWidth img.cellHeight (img.metrics false fcw j).1
      (img.metrics false fcw i).1 (img.metrics false fcw i).2 hov hH hrow hJ hgap
    refine ⟨m, ⟨y0, hy0, he⟩, hall, hmd, ?_⟩
    rw [hmd]
    have := hrows y0 hy0
    omega

theorem construct_kerning_residual_nonneg_witness :
    glyphAtlas.blank 65 = false ∧ glyphAtlas.blank 86 = false ∧
      2 * glyphAtlas.cellWidth ≤ 32767 ∧
      (Font.construct zeroMem (some glyphAtlas) 2 8 false 16 0).kerningOffsetOf 65 86 ≤ 0 ∧
      (∃ m : Int,
        (∃ y, y < glyphAtlas.cellHeight ∧
          ((glyphAtlas.cellWidth : Int) - glyphAtlas.rightExtremes 65 y - 1) + glyphAtlas.leftExtremes 86 y = m) ∧
        (∀ y, y < glyphAtlas.cellHeight →
          m ≤ ((glyphAtlas.cellWidth : Int) - glyphAtlas.rightExtremes 65 y - 1) +
            glyphAtlas.leftExtremes 86 y) ∧
        kerningMinDistance (glyphAtlas.rightExtremes 65) (glyphAtlas.leftExtremes 86)
            glyphAtlas.cellWidth glyphAtlas.cellHeight
            ((Font.construct zeroMem (some glyphAtlas) 2 8 false 16 0).mCharLeftEdgeOffset 86)
            ((Font.construct zeroMem (some glyphAtlas) 2 8 false 16 0).mCharLeftEdgeOffset 65)
            ((Font.construct zeroMem (some glyphAtlas) 2 8 false 16 0).mCharWidth 65) =
          m - (Font.construct zeroMem (some glyphAtlas) 2 8 false 16 0).mCharLeftEdgeOffset 86 -
            ((glyphAtlas.cellWidth : Int) -
              ((Font.construct zeroMem (some glyphAtlas) 2 8 false 16 0).mCharLeftEdgeOffset 65 +
                (Font.construct zeroMem (some glyphAtlas) 2 8 false 16 0).mCharWidth 65)) ∧
        (¬ 0 < kerningMinDistance (glyphAtlas.rightExtremes 65) (glyphAtlas.leftExtremes 86)
            glyphAtlas.cellWidth glyphAtlas.cellHeight
            ((Font.construct zeroMem (some glyphAtlas) 2 8 false 16 0).mCharLeftEdgeOffset 86)
            ((Font.construct zeroMem (some glyphAtlas) 2 8 false 16 0).mCharLeftEdgeOffset 65)
            ((Font.construct zeroMem (some glyphAtlas) 2 8 false 16 0).mCharWidth 65) ↔
          m - (Font.construct zeroMem (some glyphAtlas) 2 8 false 16 0).mCharLeftEdgeOffset 86 -
            ((glyphAtlas.cellWidth : Int) -
              ((Font.construct zeroMem (some glyphAtlas) 2 8 false 16 0).mCharLeftEdgeOffset 65 +
                (Font.construct zeroMem (some glyphAtlas) 2 8 false 16 0).mCharWidth 65)) = 0)) :=
  ⟨by decide, by decide, by decide,
    (construct_kerning_residual_nonneg zeroMem glyphAtlas 2 8 16 0 65 86 (by decide)
      (by decide)).2.2.1,
    (construct_kerning_residual_nonneg zeroMem glyphAtlas 2 8 16 0 65 86 (by decide)
      (by decide)).2.2.2 (by decide)⟩

/-! ## C19: a glyph with faint pixels only -/

theorem blank_false_of_pixel (img : Image) (i : UChar)
    (h : ∃ x y, x < img.cellWidth ∧ y < img.cellHeight ∧
      (img.cell i (y * img.cellWidth + x)).a ≠ 0) : img.blank i = false := by
  obtain ⟨x, y, hx, hy, ha⟩ := h
  cases hb : img.blank i with
  | false => rfl
  | true =>
    have hz := (forall_pixel_iff img.cellWidth img.cellHeight
      (fun p => (img.cell i p).a = 0)).mp
      ((allTransparent_iff (img.cell i) (img.cellWidth * img.cellHeight)).mp hb) x y hx hy
    exact absurd hz ha

theorem blank_false_of_ink (img : Image) (i : UChar)
    (h : ∃ x y, x < img.cellWidth ∧ y < img.cellHeight ∧
      inkAt (img.cell i) img.cellWidth x y) : img.blank i = false := by
  obtain ⟨x, y, hx, hy, hi⟩ := h
  refine blank_false_of_pixel img i ⟨x, y, hx, hy, ?_⟩
  intro hz
  have hi2 : (img.cell i (y * img.cellWidth + x)).a > inkA := hi
  rw [hz] at hi2
  exact absurd hi2 (by decide)

/-- Some row's left extreme is the left edge offset of a glyph that has ink. -/
theorem leftExtreme_attains_offset (img : Image) (fcw : Int) (j : UChar)
    (hj : ∃ x y, x < img.cellWidth ∧ y < img.cellHeight ∧
      inkAt (img.cell j) img.cellWidth x y) :
    ∃ y, y < img.cellHeight ∧ img.leftExtremes j y = (img.metrics false fcw j).1 := by
  obtain ⟨⟨xl, yl, hxl, hyl, hil, hel⟩, _, _⟩ := metrics_ink img fcw j hj
  have hW : 1 ≤ img.cellWidth := by omega
  refine ⟨yl, hyl, ?_⟩
  have hlow := (extremes_within_box img fcw j yl hW hyl).1
  have hL : (img.leftExtremes j yl = (img.cellWidth : Int) ∧
        ∀ x, x < img.cellWidth → ¬ nearInk (img.cell j) img.cellWidth img.cellHeight x yl) ∨
      (∃ l : Nat, (l : Int) = img.leftExtremes j yl ∧ l < img.cellWidth ∧
        nearInk (img.cell j) img.cellWidth img.cellHeight l yl ∧
        ∀ x, x < l → ¬ nearInk (img.cell j) img.cellWidth img.cellHeight x yl) :=
    (rowExtremes_spec (img.cell j) img.cellWidth img.cellHeight yl).2
  have hnear : nearInk (img.cell j) img.cellWidth img.cellHeight xl yl := Or.inl hil
  rcases hL with ⟨_, hno⟩ | ⟨l, hl, _, _, hmin⟩
  · exact absurd hnear (hno xl hxl)
  · have hle : l ≤ xl := by
      by_contra hcon
      exact hmin xl (by omega) hnear
    omega

/-- C19 (amended): in proportional mode with cell width `W`, `2 ≤ W` and `2 * W` within
the 16-bit short range (`W ≤ 16383`), if cell `i` has a pixel of non-zero alpha but none
with alpha above the ink level, then glyph `i` gets a sprite and a kerning row, left edge
offset `0` and width `W`, and for every glyph `j` with at least one pixel above the ink
level the stored kerning offset of `(i, j)` is exactly `-(W - 1)`. -/
theorem construct_faint_glyph (mem : Font) (img : Image) (cs sw : Int) (sf : ℚ) (fcw : Int)
    (i j : UChar) (hW2 : 2 ≤ img.cellWidth) (hov : 2 * img.cellWidth ≤ 32767)
    (hnb : ∃ x y, x < img.cellWidth ∧ y < img.cellHeight ∧
      (img.cell i (y * img.cellWidth + x)).a ≠ 0)
    (hno : ∀ x y, x < img.cellWidth → y < img.cellHeight →
      ¬ inkAt (img.cell i) img.cellWidth x y)
    (hj : ∃ x y, x < img.cellWidth ∧ y < img.cellHeight ∧
      inkAt (img.cell j) img.cellWidth x y) :
    (Font.construct mem (some img) cs sw false sf fcw).mSpriteMap i =
        some (fillSprite (img.cell i) img.cellWidth img.cellHeight) ∧
      ((Font.construct mem (some img) cs sw false sf fcw).mKerningTable i).isSome = true ∧
      (Font.construct mem (some img) cs sw false sf fcw).mCharLeftEdgeOffset i = 0 ∧
      (Font.construct mem (some img) cs sw false sf fcw).mCharWidth i = (img.cellWidth : Int) ∧
      (Font.construct mem (some img) cs sw false sf fcw).kerningOffsetOf i j =
        -((img.cellWidth : Int) - 1) := by
  have hbi : img.blank i = false := blank_false_of_pixel img i hnb
  have hbj : img.blank j = false := blank_false_of_ink img j hj
  have hm : img.metrics false fcw i = (0, (img.cellWidth : Int)) := metrics_no_ink img fcw i hno
  have hW : 1 ≤ img.cellWidth := by omega
  have hW2' : (2 : Int) ≤ (img.cellWidth : Int) := by exact_mod_cast hW2
  refine ⟨?_, ?_, ?_, ?_, ?_⟩
  · rw [construct_mSpriteMap, hbi]
    rfl
  · rw [construct_mKerningTable_isSome, hbi]
    rfl
  · rw [construct_mCharLeftEdgeOffset, hm]
  · rw [construct_mCharWidth, hm]
  · rw [construct_kerningOffsetOf, if_pos ⟨rfl, hbi, hbj⟩]
    obtain ⟨m, ⟨y0, hy0, he⟩, hall, hoff⟩ := kerningOffset_saved_pair img fcw i j hov hbi
    rw [hoff, hm]
    dsimp only
    have hre : ∀ y, y < img.cellHeight → img.rightExtremes i y = 0 := by
      intro y hy
      rcases (rowExtremes_spec (img.cell i) img.cellWidth img.cellHeight y).1 with
        ⟨_, h0⟩ | ⟨r, _, hrW, hir, _⟩
      · exact h0
      · exact absurd hir (hno r y hrW hy)
    obtain ⟨yl, hyl, hatt⟩ := leftExtreme_attains_offset img fcw j hj
    have h1 := hall yl hyl
    have h2 := (extremes_within_box img fcw j y0 hW hy0).1
    rw [hre yl hyl] at h1
    rw [hre y0 hy0] at he
    have hmval : m = (img.cellWidth : Int) - 1 + (img.metrics false fcw j).1 := by omega
    rw [hmval]
    have hc : 0 < (img.cellWidth : Int) - 1 + (img.metrics false fcw j).1 -
          (img.metrics false fcw j).1 - ((img.cellWidth : Int) - (0 + (img.cellWidth : Int))) ∧
        (img.cellWidth : Int) - 1 + (img.metrics false fcw j).1 -
          (img.metrics false fcw j).1 - ((img.cellWidth : Int) - (0 + (img.cellWidth : Int))) <
          (img.cellWidth : Int) := by
      constructor <;> omega
    rw [if_pos hc]
    omega

theorem glyphAtlas_faint_66 :
    ∀ x y, x < glyphAtlas.cellWidth → y < glyphAtlas.cellHeight →
      ¬ inkAt (glyphAtlas.cell 66) glyphAtlas.cellWidth x y :=
  fun x y hx hy =>
    (by decide : ∀ x, x < glyphAtlas.cellWidth → ∀ y, y < glyphAtlas.cellHeight →
      ¬ inkAt (glyphAtlas.cell 66) glyphAtlas.cellWidth x y) x hx y hy

theorem construct_faint_glyph_witness :
    (Font.construct zeroMem (some glyphAtlas) 2 8 false 16 0).mCharWidth 66 =
        (glyphAtlas.cellWidth : Int) ∧
      (Font.construct zeroMem (some glyphAtlas) 2 8 false 16 0).kerningOffsetOf 66 65 =
        -((glyphAtlas.cellWidth : Int) - 1) :=
  ⟨(construct_faint_glyph zeroMem glyphAtlas 2 8 16 0 66 65 (by decide) (by decide)
      ⟨0, 0, by decide, by decide, by decide⟩ glyphAtlas_faint_66
      ⟨0, 0, by decide, by decide, by decide⟩).2.2.2.1,
    (construct_faint_glyph zeroMem glyphAtlas 2 8 16 0 66 65 (by decide) (by decide)
      ⟨0, 0, by decide, by decide, by decide⟩ glyphAtlas_faint_66
      ⟨0, 0, by decide, by decide, by decide⟩).2.2.2.2⟩

theorem wideAtlas_alpha0 (x : Nat) (hx : x < 16384) :
    (wideAtlas.cell 0 (0 * wideAtlas.cellWidth + x)).a = if x = 0 then 100 else 0 := by
  rw [cell_apply wideAtlas 0 x 0 hx (by decide)]
  have h1 : ((0 : UChar) : Nat) % 16 = 0 := rfl
  have h2 : ((0 : UChar) : Nat) / 16 = 0 := rfl
  have hw : wideAtlas.cellWidth = 16384 := rfl
  have hh : wideAtlas.cellHeight = 1 := rfl
  have hg : wideAtlas.getWidth = 262144 := rfl
  have hb : wideAtlas.getRGBABytes =
      fun k => if k = 0 then 100 else if k = 65536 then 255 else 0 := rfl
  simp only [Image.red, h1, h2, hw, hh, hg, hb]
  split_ifs <;> first | rfl | omega

theorem wideAtlas_alpha1 (x : Nat) (hx : x < 16384) :
    (wideAtlas.cell 1 (0 * wideAtlas.cellWidth + x)).a = if x = 0 then 255 else 0 := by
  rw [cell_apply wideAtlas 1 x 0 hx (by decide)]
  have h1 : ((1 : UChar) : Nat) % 16 = 1 := rfl
  have h2 : ((1 : UChar) : Nat) / 16 = 0 := rfl
  have hw : wideAtlas.cellWidth = 16384 := rfl
  have hh : wideAtlas.cellHeight = 1 := rfl
  have hg : wideAtlas.getWidth = 262144 := rfl
  have hb : wideAtlas.getRGBABytes =
      fun k => if k = 0 then 100 else if k = 65536 then 255 else 0 := rfl
  simp only [Image.red, h1, h2, hw, hh, hg, hb]
  split_ifs <;> first | rfl | omega

/-- When `2 * cellWidth` wraps to the least short, no row distance is below it, and the
two subtractions are of `0`, `minDistance` stays at `-32768` and the offset stored is
`0`. -/
theorem kerningOffset_wrapped (re le : Nat → Int) (W H : Nat) (leoI widthI : Int)
    (hinit : toShort (2 * (W : Int)) = -32768)
    (hrow : ∀ y, y < H → -32768 ≤ ((W : Int) - re y - 1) + le y)
    (hgap : (W : Int) - (leoI + widthI) = 0) :
    kerningOffset re le W H 0 leoI widthI = 0 := by
  have hfold : (List.range H).foldl
      (fun minDistance y =>
        if ((W : Int) - re y - 1) + le y < minDistance then
          toShort (((W : Int) - re y - 1) + le y)
        else minDistance) (toShort (2 * (W : Int))) = -32768 := by
    refine foldl_invariant (fun md : Int => md = -32768) _ _ _ hinit ?_
    intro md y hy hmd
    have := hrow y (List.mem_range.mp hy)
    have hn : ¬ (((W : Int) - re y - 1) + le y < md) := by omega
    rw [if_neg hn]
    exact hmd
  have h1 : toShort (-32768 - 0) = -32768 := by decide
  unfold kerningOffset
  simp only [kerningMinDistance]
  rw [hfold, hgap, h1, h1]
  rw [if_neg]
  intro h
  omega

/-- C19 (as stated, refuted): with cells 16384 pixels wide, `2 * cellWidth` does not fit
the `short minDistance`, which starts at `-32768` and is never lowered; for the faint
glyph 0 and the inked glyph 1 of such an atlas the stored offset is `0`, not
`-(cellWidth - 1)`. -/
theorem faint_glyph_offset_wraps :
    2 ≤ wideAtlas.cellWidth ∧
      (∃ x y, x < wideAtlas.cellWidth ∧ y < wideAtlas.cellHeight ∧
        (wideAtlas.cell 0 (y * wideAtlas.cellWidth + x)).a ≠ 0) ∧
      (∀ x y, x < wideAtlas.cellWidth → y < wideAtlas.cellHeight →
        ¬ inkAt (wideAtlas.cell 0) wideAtlas.cellWidth x y) ∧
      (∃ x y, x < wideAtlas.cellWidth ∧ y < wideAtlas.cellHeight ∧
        inkAt (wideAtlas.cell 1) wideAtlas.cellWidth x y) ∧
      (Font.construct zeroMem (some wideAtlas) 0 0 false 16 0).kerningOffsetOf 0 1 = 0 ∧
      (Font.construct zeroMem (some wideAtlas) 0 0 false 16 0).kerningOffsetOf 0 1 ≠
        -((wideAtlas.cellWidth : Int) - 1) := by
  have hw : wideAtlas.cellWidth = 16384 := rfl
  have hh : wideAtlas.cellHeight = 1 := rfl
  have hnb : ∃ x y, x < wideAtlas.cellWidth ∧ y < wideAtlas.cellHeight ∧
      (wideAtlas.cell 0 (y * wideAtlas.cellWidth + x)).a ≠ 0 := by
    refine ⟨0, 0, by decide, by decide, ?_⟩
    rw [wideAtlas_alpha0 0 (by decide)]
    decide
  have hno : ∀ x y, x < wideAtlas.cellWidth → y < wideAtlas.cellHeight →
      ¬ inkAt (wideAtlas.cell 0) wideAtlas.cellWidth x y := by
    intro x y hx hy
    have hy0 : y = 0 := by omega
    subst hy0
    unfold inkAt
    rw [wideAtlas_alpha0 x (by omega)]
    split_ifs <;> decide
  have hj : ∃ x y, x < wideAtlas.cellWidth ∧ y < wideAtlas.cellHeight ∧
      inkAt (wideAtlas.cell 1) wideAtlas.cellWidth x y := by
    refine ⟨0, 0, by decide, by decide, ?_⟩
    unfold inkAt
    rw [wideAtlas_alpha1 0 (by decide)]
    decide
  have hbi : wideAtlas.blank 0 = false := blank_false_of_pixel wideAtlas 0 hnb
  have hbj : wideAtlas.blank 1 = false := blank_false_of_ink wideAtlas 1 hj
  have hmi : wideAtlas.metrics false 0 0 = (0, (wideAtlas.cellWidth : Int)) :=
    metrics_no_ink wideAtlas 0 0 hno
  have hmj : (wideAtlas.metrics false 0 1).1 = 0 := by
    obtain ⟨x, y, hx, hy, hi⟩ := hj
    have h1 := ((metrics_ink wideAtlas 0 1 ⟨x, y, hx, hy, hi⟩).2.2 0 0 (by decide) (by decide)
      (by
        unfold inkAt
        rw [wideAtlas_alpha1 0 (by decide)]
        decide)).1
    have h2 := (cellMetrics_box (wideAtlas.blank 1) (wideAtlas.blockWidth 0)
      (wideAtlas.cell 1) wideAtlas.cellWidth wideAtlas.cellHeight (by decide)).1
    have h2' : 0 ≤ (wideAtlas.metrics false 0 1).1 := h2
    omega
  have hoff : (Font.construct zeroMem (some wideAtlas) 0 0 false 16 0).kerningOffsetOf 0 1
      = 0 := by
    rw [construct_kerningOffsetOf, if_pos ⟨rfl, hbi, hbj⟩, hmi, hmj]
    refine kerningOffset_wrapped _ _ _ _ _ _ ?_ ?_ ?_
    · rw [hw]
      decide
    · intro y _
      have hb := rowExtremes_bounds wideAtlas 0 y (by decide)
      have hb1 := rowExtremes_bounds wideAtlas 1 y (by decide)
      omega
    · omega
  refine ⟨by decide, hnb, hno, hj, hoff, ?_⟩
  rw [hoff, hw]
  decide

/-! ## C18: the guard when `2 * cellWidth` does not fit a short -/

/-- The faint glyph 0 and the inked glyph 1 of `wideAtlas`: both cells are saved, glyph 0
has the default metrics and glyph 1 starts at column 0. -/
theorem wideAtlas_pair :
    (∀ x y, x < wideAtlas.cellWidth → y < wideAtlas.cellHeight →
        ¬ inkAt (wideAtlas.cell 0) wideAtlas.cellWidth x y) ∧
      (∃ x y, x < wideAtlas.cellWidth ∧ y < wideAtlas.cellHeight ∧
        inkAt (wideAtlas.cell 1) wideAtlas.cellWidth x y) ∧
      wideAtlas.blank 0 = false ∧ wideAtlas.blank 1 = false ∧
      wideAtlas.metrics false 0 0 = (0, (wideAtlas.cellWidth : Int)) ∧
      (wideAtlas.metrics false 0 1).1 = 0 := by
  have hw : wideAtlas.cellWidth = 16384 := rfl
  have hh : wideAtlas.cellHeight = 1 := rfl
  have hnb : ∃ x y, x < wideAtlas.cellWidth ∧ y < wideAtlas.cellHeight ∧
      (wideAtlas.cell 0 (y * wideAtlas.cellWidth + x)).a ≠ 0 := by
    refine ⟨0, 0, by decide, by decide, ?_⟩
    rw [wideAtlas_alpha0 0 (by decide)]
    decide
  have hno : ∀ x y, x < wideAtlas.cellWidth → y < wideAtlas.cellHeight →
      ¬ inkAt (wideAtlas.cell 0) wideAtlas.cellWidth x y := by
    intro x y hx hy
    have hy0 : y = 0 := by omega
    subst hy0
    unfold inkAt
    rw [wideAtlas_alpha0 x (by omega)]
    split_ifs <;> decide
  have hi1 : inkAt (wideAtlas.cell 1) wideAtlas.cellWidth 0 0 := by
    unfold inkAt
    rw [wideAtlas_alpha1 0 (by decide)]
    decide
  have hj : ∃ x y, x < wideAtlas.cellWidth ∧ y < wideAtlas.cellHeight ∧
      inkAt (wideAtlas.cell 1) wideAtlas.cellWidth x y :=
    ⟨0, 0, by decide, by decide, hi1⟩
  have hmj : (wideAtlas.metrics false 0 1).1 = 0 := by
    have h1 := ((metrics_ink wideAtlas 0 1 hj).2.2 0 0 (by decide) (by decide) hi1).1
    have h2 : 0 ≤ (wideAtlas.metrics false 0 1).1 :=
      (cellMetrics_box (wideAtlas.blank 1) (wideAtlas.blockWidth 0)
        (wideAtlas.cell 1) wideAtlas.cellWidth wideAtlas.cellHeight (by decide)).1
    omega
  exact ⟨hno, hj, blank_false_of_pixel wideAtlas 0 hnb, blank_false_of_ink wideAtlas 1 hj,
    metrics_no_ink wideAtlas 0 0 hno, hmj⟩

/-- When `2 * cellWidth` wraps to the least short, no row distance is below it, and the
two subtractions are of `0`, the `minDistance` that the guard tests is `-32768`. -/
theorem kerningMinDistance_wrapped (re le : Nat → Int) (W H : Nat) (leoI widthI : Int)
    (hinit : toShort (2 * (W : Int)) = -32768)
    (hrow : ∀ y, y < H → -32768 ≤ ((W : Int) - re y - 1) + le y)
    (hgap : (W : Int) - (leoI + widthI) = 0) :
    kerningMinDistance re le W H 0 leoI widthI = -32768 := by
  have hfold : (List.range H).foldl
      (fun minDistance y =>
        if ((W : Int) - re y - 1) + le y < minDistance then
          toShort (((W : Int) - re y - 1) + le y)
        else minDistance) (toShort (2 * (W : Int))) = -32768 := by
    refine foldl_invariant (fun md : Int => md = -32768) _ _ _ hinit ?_
    intro md y hy hmd
    have := hrow y (List.mem_range.mp hy)
    have hn : ¬ (((W : Int) - re y - 1) + le y < md) := by omega
    rw [if_neg hn]
    exact hmd
  have h1 : toShort (-32768 - 0) = -32768 := by decide
  simp only [kerningMinDistance]
  rw [hfold, hgap, h1, h1]

/-- C18 (as stated, refuted): with cells 16384 pixels wide and one pixel high, the faint
glyph 0 and the inked glyph 1 are both non-blank and the residual of the pair `(0, 1)` is
`d = 16383`, positive and below the width `16384` of glyph 0; but `2 * cellWidth` does
not fit the `short minDistance`, which is `-32768` when the guard tests it, so the guard
`minDistance > 0` fails although `d` is not `0`, and the stored offset is `0`. -/
theorem guard_excludes_positive_residual :
    wideAtlas.blank 0 = false ∧ wideAtlas.blank 1 = false ∧
      wideAtlas.cellWidth = 16384 ∧ wideAtlas.cellHeight = 1 ∧
      wideAtlas.rightExtremes 0 0 = 0 ∧ wideAtlas.leftExtremes 1 0 = 0 ∧
      (Font.construct zeroMem (some wideAtlas) 0 0 false 16 0).mCharLeftEdgeOffset 0 = 0 ∧
      (Font.construct zeroMem (some wideAtlas) 0 0 false 16 0).mCharLeftEdgeOffset 1 = 0 ∧
      (Font.construct zeroMem (some wideAtlas) 0 0 false 16 0).mCharWidth 0 = 16384 ∧
      ((wideAtlas.cellWidth : Int) - wideAtlas.rightExtremes 0 0 - 1) +
          wideAtlas.leftExtremes 1 0 -
          (Font.construct zeroMem (some wideAtlas) 0 0 false 16 0).mCharLeftEdgeOffset 1 -
          ((wideAtlas.cellWidth : Int) -
            ((Font.construct zeroMem (some wideAtlas) 0 0 false 16 0).mCharLeftEdgeOffset 0 +
              (Font.construct zeroMem (some wideAtlas) 0 0 false 16 0).mCharWidth 0)) = 16383 ∧
      kerningMinDistance (wideAtlas.rightExtremes 0) (wideAtlas.leftExtremes 1)
          wideAtlas.cellWidth wideAtlas.cellHeight
          ((Font.construct zeroMem (some wideAtlas) 0 0 false 16 0).mCharLeftEdgeOffset 1)
          ((Font.construct zeroMem (some wideAtlas) 0 0 false 16 0).mCharLeftEdgeOffset 0)
          ((Font.construct zeroMem (some wideAtlas) 0 0 false 16 0).mCharWidth 0) = -32768 ∧
      ¬ (0 < kerningMinDistance (wideAtlas.rightExtremes 0) (wideAtlas.leftExtremes 1)
          wideAtlas.cellWidth wideAtlas.cellHeight
          ((Font.construct zeroMem (some wideAtlas) 0 0 false 16 0).mCharLeftEdgeOffset 1)
          ((Font.construct zeroMem (some wideAtlas) 0 0 false 16 0).mCharLeftEdgeOffset 0)
          ((Font.construct zeroMem (some wideAtlas) 0 0 false 16 0).mCharWidth 0)) ∧
      (Font.construct zeroMem (some wideAtlas) 0 0 false 16 0).kerningOffsetOf 0 1 = 0 := by
  obtain ⟨hno, hj, hbi, hbj, hmi, hmj⟩ := wideAtlas_pair
  have hw : wideAtlas.cellWidth = 16384 := rfl
  have hh : wideAtlas.cellHeight = 1 := rfl
  have hre : wideAtlas.rightExtremes 0 0 = 0 := by
    rcases (rowExtremes_spec (wideAtlas.cell 0) wideAtlas.cellWidth wideAtlas.cellHeight 0).1
      with ⟨_, h0⟩ | ⟨r, _, hrW, hir, _⟩
    · exact h0
    · exact absurd hir (hno r 0 hrW (by decide))
  have hle : wideAtlas.leftExtremes 1 0 = 0 := by
    obtain ⟨y, hy, hatt⟩ := leftExtreme_attains_offset wideAtlas 0 1 hj
    have hy0 : y = 0 := by omega
    rw [hy0, hmj] at hatt
    exact hatt
  have hl0 : (Font.construct zeroMem (some wideAtlas) 0 0 false 16 0).mCharLeftEdgeOffset 0 = 0 := by
    rw [construct_mCharLeftEdgeOffset, hmi]
  have hl1 : (Font.construct zeroMem (some wideAtlas) 0 0 false 16 0).mCharLeftEdgeOffset 1 = 0 := by
    rw [construct_mCharLeftEdgeOffset, hmj]
  have hw0 : (Font.construct zeroMem (some wideAtlas) 0 0 false 16 0).mCharWidth 0 = 16384 := by
    rw [construct_mCharWidth, hmi, hw]
    rfl
  have hrowb : ∀ y, y < wideAtlas.cellHeight →
      -32768 ≤ ((wideAtlas.cellWidth : Int) - wideAtlas.rightExtremes 0 y - 1) +
        wideAtlas.leftExtremes 1 y := by
    intro y _
    have hb := rowExtremes_bounds wideAtlas 0 y (by decide)
    have hb1 := rowExtremes_bounds wideAtlas 1 y (by decide)
    omega
  have hinit : toShort (2 * (wideAtlas.cellWidth : Int)) = -32768 := by
    rw [hw]
    decide
  have hk : kerningMinDistance (wideAtlas.rightExtremes 0) (wideAtlas.leftExtremes 1)
          wideAtlas.cellWidth wideAtlas.cellHeight
          ((Font.construct zeroMem (some wideAtlas) 0 0 false 16 0).mCharLeftEdgeOffset 1)
          ((Font.construct zeroMem (some wideAtlas) 0 0 false 16 0).mCharLeftEdgeOffset 0)
          ((Font.construct zeroMem (some wideAtlas) 0 0 false 16 0).mCharWidth 0) = -32768 := by
    rw [hl0, hl1, hw0]
    refine kerningMinDistance_wrapped _ _ _ _ _ _ hinit hrowb ?_
    rw [hw]
    decide
  have hoff : (Font.construct zeroMem (some wideAtlas) 0 0 false 16 0).kerningOffsetOf 0 1 = 0 := by
    rw [construct_kerningOffsetOf, if_pos ⟨rfl, hbi, hbj⟩, hmi, hmj]
    refine kerningOffset_wrapped _ _ _ _ _ _ hinit hrowb ?_
    omega
  refine ⟨hbi, hbj, hw, hh, hre, hle, hl0, hl1, hw0, ?_, hk, ?_, hoff⟩
  · rw [hre, hle, hl0, hl1, hw0, hw]
    decide
  · rw [hk]
    decide

/-! ## C21: measuring a concatenation -/

theorem charAt_append_left (s t : List UChar) (k : Nat) (h : k < s.length) :
    charAt (s ++ t) k = charAt s k := by
  unfold charAt
  exact List.getD_append s t 0 k h

theorem charAt_append_right (s t : List UChar) (k : Nat) :
    charAt (s ++ t) (s.length + k) = charAt t k := by
  unfold charAt
  rw [List.getD_append_right s t 0 (s.length + k) (Nat.le_add_right _ _),
    Nat.add_sub_cancel_left]

theorem measureTerm_append_inner (f : Font) (s t : List UChar) (k : Nat)
    (h : k + 1 < s.length) : f.measureTerm (s ++ t) k = f.measureTerm s k := by
  have hk : k < s.length := by omega
  have hlen : k + 1 < (s ++ t).length := by
    rw [List.length_append]
    omega
  unfold Font.measureTerm
  rw [charAt_append_left s t k hk, charAt_append_left s t (k + 1) h]
  simp only [h, hlen, and_true]

theorem measureTerm_append_right (f : Font) (s t : List UChar) (k : Nat) :
    f.measureTerm (s ++ t) (s.length + k) = f.measureTerm t k := by
  have hiff : (s.length + k + 1 < (s ++ t).length) ↔ (k + 1 < t.length) := by
    rw [List.length_append]
    omega
  unfold Font.measureTerm
  rw [charAt_append_right s t k,
    show s.length + k + 1 = s.length + (k + 1) from rfl, charAt_append_right s t (k + 1)]
  have hiff2 : (s.length + (k + 1) < (s ++ t).length) ↔ (k + 1 < t.length) := hiff
  simp only [hiff2]

theorem measureTerm_append_last (f : Font) (s t : List UChar) (n : Nat)
    (hs : s.length = n + 1) (ht : t ≠ []) :
    f.measureTerm (s ++ t) n = f.measureTerm s n + f.joinKerning s t := by
  have hn : n < s.length := by omega
  have htl : 0 < t.length := List.length_pos.mpr ht
  have hlen : n + 1 < (s ++ t).length := by
    rw [List.length_append]
    omega
  have hnot : ¬ (n + 1 < s.length) := by omega
  have hlast : s.length - 1 = n := by omega
  have hfirst : charAt (s ++ t) (n + 1) = charAt t 0 := by
    have := charAt_append_right s t 0
    rw [Nat.add_zero, hs] at this
    exact this
  unfold Font.measureTerm Font.joinKerning Font.kerningOffsetOf
  rw [charAt_append_left s t n hn, hfirst, hlast]
  simp only [hlen, hnot, and_true, and_false, if_false, add_zero]
  by_cases hc : charAt s n = 32
  · simp [hc]
  · cases hf : f.mFixedWidth
    · cases he : f.mEnableKerning
      · simp [hc]
      · cases hk : f.mKerningTable (charAt s n) <;> simp [hc]
    · simp [hc]

theorem measureTerm_sum_append (f : Font) (s t : List UChar) (hs : s ≠ []) (ht : t ≠ []) :
    (∑ k ∈ Finset.range (s ++ t).length, f.measureTerm (s ++ t) k) =
      (∑ k ∈ Finset.range s.length, f.measureTerm s k) +
        (∑ k ∈ Finset.range t.length, f.measureTerm t k) + f.joinKerning s t := by
  obtain ⟨n, hn⟩ : ∃ n, s.length = n + 1 :=
    ⟨s.length - 1, by have := List.length_pos.mpr hs; omega⟩
  have hinner : (∑ k ∈ Finset.range n, f.measureTerm (s ++ t) k) =
      ∑ k ∈ Finset.range n, f.measureTerm s k := by
    apply Finset.sum_congr rfl
    intro k hk
    have hk' : k < n := Finset.mem_range.mp hk
    exact measureTerm_append_inner f s t k (by omega)
  have hright : (∑ k ∈ Finset.range t.length, f.measureTerm (s ++ t) (s.length + k)) =
      ∑ k ∈ Finset.range t.length, f.measureTerm t k := by
    apply Finset.sum_congr rfl
    intro k _
    exact measureTerm_append_right f s t k
  rw [List.length_append, Finset.sum_range_add, hright, hn, Finset.sum_range_succ,
    Finset.sum_range_succ, hinner, measureTerm_append_last f s t n hn ht]
  ring

/-- C21: for every font and all non-empty texts `s` and `t`, measured with no limit,
`measureString(s ++ t) = measureString(s) + measureString(t) + scale * spacing + K`,
where `K` is `scale` times the kerning offset of the pair (last of `s`, first of `t`) if
the font is not fixed-width, kerning is enabled, the last character of `s` is not a space
and has a kerning row, and `K = 0` otherwise. -/
theorem measureString_append (f : Font) (s t : List UChar) (hs : s ≠ []) (ht : t ≠ []) :
    f.measureString (s ++ t) (-1) =
      f.measureString s (-1) + f.measureString t (-1) +
        scaleFactor * f.mScaleFactor * (f.mCharSpacing : ℚ) +
        scaleFactor * f.mScaleFactor * (f.joinKerning s t : ℚ) := by
  have hst : s ++ t ≠ [] := by
    intro h
    exact hs (List.append_eq_nil.mp h).1
  rw [measureString_closed_form, measureString_closed_form, measureString_closed_form]
  unfold Font.measureSpec
  rw [if_neg hst, if_neg hs, if_neg ht, measureTerm_sum_append f s t hs ht,
    List.length_append]
  push_cast
  ring

theorem measureString_append_witness :
    exampleFont.measureString ([65] ++ [86]) (-1) =
      exampleFont.measureString [65] (-1) + exampleFont.measureString [86] (-1) +
        scaleFactor * exampleFont.mScaleFactor * (exampleFont.mCharSpacing : ℚ) +
        scaleFactor * exampleFont.mScaleFactor * (exampleFont.joinKerning [65] [86] : ℚ) :=
  measureString_append exampleFont [65] [86] (by decide) (by decide)

/-- The join of "A" and "V" in the example font: the parts measure `8` and `14`, the
spacing adds `2` and the kerning of the pair takes `3` away, leaving `21`. -/
theorem exampleFont_join_A_V :
    exampleFont.joinKerning [65] [86] = -3 ∧ exampleFont.joinKerning [86] [65] = 0 := by
  decide

/-! ## C22: the cursor of a left-aligned layout -/

/-- C22: for every font with no minimum position precision configured, every non-empty
text `s` of single-byte characters containing no space, and every position `p`, the cursor
returned by `getCharPos(s, p, alignLeft)` is
`p.x + scale * cellWidth / 2 + measureString(s)`. -/
theorem getCharPos_left_cursor (cv : WStringConvert) (f : Font) (out : List doublePair)
    (s : List UChar) (p : doublePair) (hq : f.mMinimumPositionPrecision ≤ 0) (hs : s ≠ [])
    (hw : toWideString cv s = some (widen s)) (hsp : (32 : UChar) ∉ s) :
    (f.getCharPos cv out s p TextAlignment.alignLeft).map Prod.fst =
      some (p.x + scaleFactor * f.mScaleFactor * (f.mSpriteWidth : ℚ) / 2 +
        f.measureString s (-1)) := by
  rw [getCharPos_cursor cv f out s p TextAlignment.alignLeft hs hw
    (fun h => absurd h hsp), getCharPosStartX_unsnapped f s p hq]

theorem getCharPos_left_cursor_witness :
    (exampleFont.getCharPos asciiConvert [] [65, 86] ⟨3, 1⟩ TextAlignment.alignLeft).map
        Prod.fst =
      some ((⟨3, 1⟩ : doublePair).x +
        scaleFactor * exampleFont.mScaleFactor * (exampleFont.mSpriteWidth : ℚ) / 2 +
        exampleFont.measureString [65, 86] (-1)) :=
  getCharPos_left_cursor asciiConvert exampleFont [] [65, 86] ⟨3, 1⟩
    (by simp [exampleFont]) (by decide) (asciiConvert_single [65, 86] (by decide))
    (by decide)
